import Mathlib

/-!
# BamboJS module container (`src/assets/js/bambo.js`)

A shallow embedding of the dependency-injection container of BamboJS: the
module registry (`injectorFactory`), the lazy singleton wrapper
(`singletonFactory`), the dependency resolver (`resolve`, `getModules`,
`factory`) and the boot sequence (`instanciate`, `execStep`, `boot`).

Modelling conventions.

* JavaScript values are `Val`. Plain objects are references into a heap of
  own-property lists, so they have identity and can be mutated by module code.
  Arrays are immutable values, functions are immutable code identifiers whose
  optional `$inject` list is part of the program text (`Prog.inject`).
* Module code (constructors and phase methods) is a parameter `Prog`: a
  function of the receiver, the arguments and the heap, for module code that
  does not call back into the container. Module code that does (it can be
  handed `$injector`) is a `Reentrant.Prog`; the definitions of
  `namespace Reentrant` follow the same source functions for it.
* The registry `modules` is an ordinary object used as a map: its own
  properties are kept in creation order and enumerated as `for ... in` does
  (array-index names first, in ascending numeric order, then the other names
  in creation order). The two names for which the plain object does not
  behave as a map, `hasOwnProperty` and `__proto__`, are followed in
  `namespace Plain`.
* The objects of the heap inherit from `Object.prototype`; an object without
  prototype is not a value of the model. Where the container calls
  `hasOwnProperty` on a value, the definitions read its own properties; a
  statement that depends on the method being the built-in one says so
  (`builtinHasOwnProperty`).
* Errors are values; a failing operation returns the state reached when the
  error was raised (nothing is rolled back in JavaScript either).
* `St.log` is a ghost trace of the calls made by `factory` (call site,
  function, receiver, arguments, declared dependency names); it never
  influences a result.
* Numbers are integers; property getters, proxies and boxed primitives are
  not modelled.
-/

namespace Bambo

/-- JavaScript values of the model. -/
inductive Val where
  | undefined : Val
  | null : Val
  | bool (b : Bool) : Val
  | num (n : Int) : Val
  | str (s : String) : Val
  | arr (elems : List Val) : Val
  | obj (addr : Nat) : Val
  | fn (id : Nat) : Val
  deriving Repr, Inhabited

/-- Errors: `new Error(msg)` thrown by the container, a `TypeError` raised by
the engine, a value thrown by module code, and the fuel sentinel of
`getInstanceF` (never produced by `getInstance`, see `getInstance_eq`), which
also ends a nesting deeper than the budget of `Reentrant.sem`. -/
inductive Err where
  | error (msg : String) : Err
  | typeError : Err
  | thrown (v : Val) : Err
  | outOfFuel : Err
  deriving Repr, Inhabited

/-- Own properties of an object, in creation order. -/
abbrev Props := List (String × Val)

/-- The heap of plain objects: the address of an object is its index. -/
abbrev Heap := List Props

/-- Module code: the `$inject` list attached to a function (if any) and the
behaviour of a call `f.apply(thisArg, args)` on the heap. -/
structure Prog where
  inject : Nat → Option Val
  call : Nat → Val → List Val → Heap → Except Err Val × Heap

/-- Which call site asked `factory` to invoke a function (ghost). -/
inductive Label where
  | ctor (name : String) : Label
  | phase (step : String) (name : String) : Label
  | direct : Label
  deriving Repr, DecidableEq, Inhabited

/-- One call `func.apply(this, mods)` made by `factory` (ghost trace entry):
the call site, the function, the receiver, the arguments, and the dependency
names the arguments were resolved from. -/
structure Event where
  who : Label
  func : Nat
  thisArg : Val
  args : List Val
  deps : List Val
  deriving Repr, Inhabited

/-- The closure state of one `singletonFactory` result. -/
structure Wrapper where
  name : String
  constructor : Val
  loadOnStartup : Val
  inst : Val
  deriving Repr, Inhabited

/-- The state of the container: the heap, the `modules` object of
`injectorFactory` (own properties in creation order) and the ghost trace. -/
structure St where
  heap : Heap
  modules : List (String × Wrapper)
  log : List Event
  deriving Repr, Inhabited

/-- Result of a container operation: a value or an error, and the state
reached. -/
abbrev Res (α : Type) := Except Err α × St

/-! ## Utils -/

def isObject : Val → Bool
  | .obj _ => true
  | _ => false

def isArray : Val → Bool
  | .arr _ => true
  | _ => false

def isString : Val → Bool
  | .str _ => true
  | _ => false

def isFunction : Val → Bool
  | .fn _ => true
  | _ => false

def isBoolean : Val → Bool
  | .bool _ => true
  | _ => false

def isNumber : Val → Bool
  | .num _ => true
  | _ => false

def isUndefinedOrNull : Val → Bool
  | .undefined => true
  | .null => true
  | _ => false

/-- JavaScript truthiness (`ToBoolean`), as used by `a || b`. -/
def truthy : Val → Bool
  | .undefined => false
  | .null => false
  | .bool b => b
  | .num n => n != 0
  | .str s => s != ""
  | .arr _ => true
  | .obj _ => true
  | .fn _ => true

/-- The JavaScript expression `a || b`. -/
def jsOr (a b : Val) : Val := if truthy a then a else b

/-- The test `o.hasOwnProperty(k)` on an own-property list. -/
def hasOwn {α : Type} (k : String) (ps : List (String × α)) : Bool :=
  (ps.lookup k).isSome

/-! ## Injector: resolver -/

/-- The call `func.apply(this, mods)` of `factory`. The function `factory` is
a plain strict-mode function, so its `this` is `undefined`: that is the
receiver handed to `func`. Calling a non-function raises a `TypeError`. The
call site `who` and the dependency names `deps` are only recorded in the
trace. -/
def factory (P : Prog) (who : Label) (deps : List Val) (func : Val) (mods : List Val)
    (st : St) : Res Val :=
  match func with
  | .fn f =>
    let r := P.call f .undefined mods st.heap
    (r.1, { st with heap := r.2, log := st.log ++ [⟨who, f, .undefined, mods, deps⟩] })
  | _ => (.error .typeError, st)

/-- The loop of `getModules` over `deps`; `force d lvl` stands for
`intDependencies[d].getInstance(lvl)` and `ext` for the own properties of
`extDependencies`. The registry is the `modules` object of the state. -/
def getModules (force : String → Nat → St → Res Val) (ext : Props) (recursionLevel : Nat) :
    List Val → St → Res (List Val)
  | [], st => (.ok [], st)
  | dep :: rest, st =>
    match dep with
    | .str d =>
      if hasOwn d st.modules then
        match force d recursionLevel st with
        | (.ok v, st1) =>
          match getModules force ext recursionLevel rest st1 with
          | (.ok mods, st2) => (.ok (v :: mods), st2)
          | (.error e, st2) => (.error e, st2)
        | (.error e, st1) => (.error e, st1)
      else
        match ext.lookup d with
        | some v =>
          match getModules force ext recursionLevel rest st with
          | (.ok mods, st2) => (.ok (v :: mods), st2)
          | (.error e, st2) => (.error e, st2)
        | none => (.error (.error ("Dependency module " ++ d ++ " not found !")), st)
    | _ => (.error (.error "Dependency must be a string"), st)

/-- The test `func.hasOwnProperty('$inject')` followed by the read
`func.$inject`, for a `func` that is not an array: `none` when there is no
such own property, a `TypeError` when `func` is `undefined` or `null`. -/
def ownInject (P : Prog) (h : Heap) : Val → Except Err (Option Val)
  | .undefined => .error .typeError
  | .null => .error .typeError
  | .fn f => .ok (P.inject f)
  | .obj a => .ok ((h.getD a []).lookup "$inject")
  | _ => .ok none

/-- The tail of `resolve`, after the declaration has been normalised. -/
def resolveCall (P : Prog) (force : String → Nat → St → Res Val) (who : Label)
    (func deps : Val) (ext : Props) (recursionLevel : Nat) (st : St) : Res Val :=
  if !isFunction func then (.error (.error "First element must be a function"), st)
  else
    match deps with
    | .arr ds =>
      match getModules force ext recursionLevel ds st with
      | (.ok mods, st1) => factory P who ds func mods st1
      | (.error e, st1) => (.error e, st1)
    | _ => (.error (.error "Dependency parameter must be an array of strings"), st)

/-- The function `resolve(func, deps, intDependencies, extDependencies,
recursionLevel)`, with `intDependencies` the registry of the state (both call
sites pass `modules`) and `ext` the own properties of
`extDependencies || {}`. -/
def resolve (P : Prog) (force : String → Nat → St → Res Val) (who : Label)
    (func deps : Val) (ext : Props) (recursionLevel : Nat) (st : St) : Res Val :=
  if recursionLevel > 1000 then
    (.error (.error "Loop in module dependencies detected"), st)
  else
    match func with
    | .arr array =>
      let func := array.getLast?.getD .undefined
      let deps := Val.arr array.dropLast
      if !isFunction func then (.error (.error "Last element must be a function"), st)
      else resolveCall P force who func deps ext recursionLevel st
    | _ =>
      let deps := jsOr deps (.arr [])
      match ownInject P st.heap func with
      | .error e => (.error e, st)
      | .ok (some inj) =>
        if !isArray inj then (.error (.error "$inject parameter must be an array"), st)
        else resolveCall P force who func inj ext recursionLevel st
      | .ok none => resolveCall P force who func deps ext recursionLevel st

/-! ## Injector: singleton wrapper -/

/-- The assignment `instance = obj` inside the wrapper registered under
`name`. -/
def setInstance (name : String) (obj : Val) (ms : List (String × Wrapper)) :
    List (String × Wrapper) :=
  ms.map fun p => if p.1 = name then (p.1, { p.2 with inst := obj }) else p

/-- The first line of `instanciate`:
`isNumber(recursionLevel) ? recursionLevel + 1 : 0`. -/
def nextLevel : Option Nat → Nat
  | some n => n + 1
  | none => 0

/-- The method `getInstance(recursionLevel)` of the wrapper registered under
`name` (with `instanciate` inlined), by recursion on a fuel that bounds the
nesting of resolutions. `recursionLevel` is `none` when the argument is
omitted. -/
def getInstanceF (P : Prog) : Nat → String → Option Nat → St → Res Val
  | 0, _, _, st => (.error .outOfFuel, st)
  | fuel + 1, name, recursionLevel, st =>
    match st.modules.lookup name with
    | none => (.error .typeError, st)
    | some w =>
      if isObject w.inst then (.ok w.inst, st)
      else
        match resolve P (fun d l => getInstanceF P fuel d (some l)) (.ctor name)
            w.constructor (.arr []) [] (nextLevel recursionLevel) st with
        | (.ok obj, st1) =>
          if !isObject obj then
            (.error (.error ("Module " ++ w.name ++
              " constructor is not correctly defined, it must return an object")), st1)
          else (.ok obj, { st1 with modules := setInstance name obj st1.modules })
        | (.error e, st1) => (.error e, st1)

/-- The method `getInstance(recursionLevel)`: the depth guard of `resolve`
stops the recursion after at most `1001 - nextLevel recursionLevel + 1`
nested calls, which is the fuel given here. -/
def getInstance (P : Prog) (name : String) (recursionLevel : Option Nat) (st : St) : Res Val :=
  getInstanceF P (1001 - nextLevel recursionLevel + 1) name recursionLevel st

/-- The call `intDependencies[dep].getInstance(recursionLevel)` made by
`getModules`. -/
def forceDep (P : Prog) (dep : String) (recursionLevel : Nat) (st : St) : Res Val :=
  getInstance P dep (some recursionLevel) st

/-- The public method `injector.resolve(func, deps, extDependencies)`. -/
def injectorResolve (P : Prog) (who : Label) (func deps : Val) (ext : Props) (st : St) :
    Res Val :=
  resolve P (forceDep P) who func deps ext 0 st

/-! ## Injector: registry -/

/-- The wrapper returned by `singletonFactory(name, constructor,
loadOnStartup, instance)`: `var instance = instance || undefined`. -/
def singletonFactory (name : String) (constructor loadOnStartup inst : Val) : Wrapper :=
  { name := name, constructor := constructor, loadOnStartup := loadOnStartup,
    inst := jsOr inst .undefined }

/-- The function `addModule(name, obj)`. -/
def addModule (name : String) (obj : Wrapper) (st : St) : Res Unit :=
  if hasOwn name st.modules then
    (.error (.error ("Module " ++ name ++ " is already registered")), st)
  else (.ok (), { st with modules := st.modules ++ [(name, obj)] })

/-- The public method `injector.register(name, constructor, loadOnStartup)`. -/
def register (name : String) (constructor loadOnStartup : Val) (st : St) : Res Unit :=
  addModule name (singletonFactory name constructor (jsOr loadOnStartup (.bool false)) .undefined) st

/-- The facade method `bambo.module(name, constructor, loadOnStartup)`; an
omitted argument is `undefined`. -/
def module (name constructor loadOnStartup : Val) (st : St) : Res Unit :=
  match name with
  | .str n =>
    if n = "" then (.error (.error "Module name must be a string"), st)
    else register n constructor (if isBoolean loadOnStartup then loadOnStartup else .bool true) st
  | _ => (.error (.error "Module name must be a string"), st)

/-- The number denoted by a property name that is an array index (a canonical
decimal numeral below `2^32 - 1`), as far as property enumeration is
concerned. -/
def arrayIndex? (s : String) : Option Nat :=
  match s.data with
  | [] => none
  | [c] => if c.isDigit then some (c.toNat - 48) else none
  | c :: cs =>
    if c = '0' then none
    else if (c :: cs).all Char.isDigit then
      let n := (c :: cs).foldl (fun a d => 10 * a + (d.toNat - 48)) 0
      if n < 4294967295 then some n else none
    else none

/-- The order in which `for (p in o)` visits own property names given in
creation order: array indices in ascending order, then the other names in
creation order. -/
def enumNames (names : List String) : List String :=
  ((names.filterMap fun k => (arrayIndex? k).map fun n => (n, k)).insertionSort
      (fun a b => a.1 ≤ b.1)).map (fun a => a.2)
    ++ names.filter fun k => (arrayIndex? k).isNone

/-- The own property names of an object in the order `for (p in o)` visits
them. -/
def enumKeys {α : Type} (ps : List (String × α)) : List String :=
  enumNames (ps.map fun p => p.1)

/-- The loop of `forEach(modules, ...)` over the enumerated names; the
callback receives the wrapper stored under the name. -/
def forEachLoop (callback : String → St → Res Unit) : List String → St → Res Unit
  | [], st => (.ok (), st)
  | n :: ns, st =>
    match callback n st with
    | (.ok _, st1) => forEachLoop callback ns st1
    | (.error e, st1) => (.error e, st1)

/-- The public method `injector.forEachModules(callback)`. -/
def forEachModules (callback : String → St → Res Unit) (st : St) : Res Unit :=
  forEachLoop callback (enumKeys st.modules) st

/-! ## Boot sequence -/

/-- The callback of `instanciate`:
`if (module.loadOnStartup()) module.getInstance()`. -/
def instanciateVisit (P : Prog) (name : String) (st : St) : Res Unit :=
  match st.modules.lookup name with
  | none => (.error .typeError, st)
  | some w =>
    if truthy w.loadOnStartup then
      match getInstance P name none st with
      | (.ok _, st1) => (.ok (), st1)
      | (.error e, st1) => (.error e, st1)
    else (.ok (), st)

/-- The function `instanciate()` of the boot sequence. -/
def instanciate (P : Prog) (st : St) : Res Unit :=
  forEachModules (instanciateVisit P) st

/-- The callback of `execStep(step)`: for an instantiated module, fetch the
instance and, if it has an own property `step`, resolve its value. -/
def execStepVisit (P : Prog) (step : String) (name : String) (st : St) : Res Unit :=
  match st.modules.lookup name with
  | none => (.error .typeError, st)
  | some w =>
    if isObject w.inst then
      match getInstance P name none st with
      | (.ok obj, st1) =>
        match obj with
        | .obj a =>
          match (st1.heap.getD a []).lookup step with
          | some m =>
            match injectorResolve P (.phase step name) m .undefined [] st1 with
            | (.ok _, st2) => (.ok (), st2)
            | (.error e, st2) => (.error e, st2)
          | none => (.ok (), st1)
        | _ => (.error .typeError, st1)
      | (.error e, st1) => (.error e, st1)
    else (.ok (), st)

/-- The function returned by `execStep(step)`. -/
def execStep (P : Prog) (step : String) (st : St) : Res Unit :=
  forEachModules (execStepVisit P step) st

/-- The function `boot`: `instanciate(); init(); build(); final();`. -/
def boot (P : Prog) (st : St) : Res Unit :=
  match instanciate P st with
  | (.ok _, st1) =>
    match execStep P "$init" st1 with
    | (.ok _, st2) =>
      match execStep P "$build" st2 with
      | (.ok _, st3) => execStep P "$final" st3
      | (.error e, st3) => (.error e, st3)
    | (.error e, st2) => (.error e, st2)
  | (.error e, st1) => (.error e, st1)

/-- The container right after `BamboCoreFactory()`: the injector object lives
at heap address `0` and is registered under `$injector` by
`singletonFactory('$injector', null, false, this)`. The three methods of the
injector object are container code and are not modelled as values. -/
def init : St :=
  { heap := [[]],
    modules := [("$injector", singletonFactory "$injector" .null (.bool false) (.obj 0))],
    log := [] }

/-- The body of `getInstance` (with `instanciate` inlined), nested
resolutions going through `force`. -/
def getInstanceBody (P : Prog) (force : String → Nat → St → Res Val) (name : String)
    (recursionLevel : Option Nat) (st : St) : Res Val :=
  match st.modules.lookup name with
  | none => (.error .typeError, st)
  | some w =>
    if isObject w.inst then (.ok w.inst, st)
    else
      match resolve P force (.ctor name) w.constructor (.arr []) [] (nextLevel recursionLevel)
          st with
      | (.ok obj, st1) =>
        if !isObject obj then
          (.error (.error ("Module " ++ w.name ++
            " constructor is not correctly defined, it must return an object")), st1)
        else (.ok obj, { st1 with modules := setInstance name obj st1.modules })
      | (.error e, st1) => (.error e, st1)

/-! ## The registry as a map -/

/-- The method `isInstanciated()` of the wrapper registered under `name`. -/
def isInstanciated (st : St) (name : String) : Bool :=
  match st.modules.lookup name with
  | some w => isObject w.inst
  | none => false

/-- The registry with every cached instance forgotten: what registration
fixes once and for all. -/
def forget (ms : List (String × Wrapper)) : List (String × Wrapper) :=
  ms.map fun p => (p.1, { p.2 with inst := Val.undefined })

/-! ## The declaration read by `resolve` -/

/-- The last checks of `resolve` before the dependencies are fetched. -/
def declarationCheck (func deps : Val) : Except Err (Val × List Val) :=
  if !isFunction func then .error (.error "First element must be a function")
  else
    match deps with
    | .arr ds => .ok (func, ds)
    | _ => .error (.error "Dependency parameter must be an array of strings")

/-- The normalisation done by `resolve` on `(func, deps)`: the function to
call and its list of dependency names, or the error raised before any
dependency is fetched. -/
def declaration (P : Prog) (h : Heap) (func deps : Val) : Except Err (Val × List Val) :=
  match func with
  | .arr array =>
    if !isFunction (array.getLast?.getD .undefined) then
      .error (.error "Last element must be a function")
    else declarationCheck (array.getLast?.getD .undefined) (.arr array.dropLast)
  | _ =>
    match ownInject P h func with
    | .error e => .error e
    | .ok (some inj) =>
      if !isArray inj then .error (.error "$inject parameter must be an array")
      else declarationCheck func inj
    | .ok none => declarationCheck func (jsOr deps (.arr []))

/-- Fetching the dependencies and calling the function. -/
def resolveRun (P : Prog) (force : String → Nat → St → Res Val) (who : Label)
    (func : Val) (ds : List Val) (ext : Props) (lvl : Nat) (st : St) : Res Val :=
  match getModules force ext lvl ds st with
  | (.ok mods, st1) => factory P who ds func mods st1
  | (.error e, st1) => (.error e, st1)

/-- A declared dependency that names a registered, instantiated module. -/
def Cached (st : St) (dep : Val) : Prop :=
  ∃ q w, dep = .str q ∧ st.modules.lookup q = some w ∧ isObject w.inst = true

/-- The instance cached under a dependency name. -/
def depInst (st : St) : Val → Val
  | .str q =>
    match st.modules.lookup q with
    | some w => w.inst
    | none => .undefined
  | _ => .undefined

/-! ## Dependency cycles -/

/-- The module `n` is registered, not instantiated, has a well-formed
declaration, and the first name of its dependency list that is not a cached
module belongs to `S`. -/
def Waits (P : Prog) (st : St) (S : String → Prop) (n : String) : Prop :=
  ∃ w f pre d post, st.modules.lookup n = some w ∧ isObject w.inst = false ∧
    declaration P st.heap w.constructor (.arr []) = .ok (f, pre ++ Val.str d :: post) ∧
    (∀ p ∈ pre, Cached st p) ∧ S d

/-- Every module of `S` waits for a module of `S`: the modules of `S` lie on
dependency cycles (or lead into one) that nothing can break. -/
def Stuck (P : Prog) (st : St) (S : String → Prop) : Prop :=
  ∀ n, S n → Waits P st S n

/-- Every module of `S` is registered, not instantiated, has a well-formed
declaration, and declares a module of `S`: the dependencies of each module of
`S` lead back into `S`. -/
def OnCycle (P : Prog) (st : St) (S : String → Prop) : Prop :=
  ∀ n, S n → ∃ w f ds d, st.modules.lookup n = some w ∧ isObject w.inst = false ∧
    declaration P st.heap w.constructor (.arr []) = .ok (f, ds) ∧ Val.str d ∈ ds ∧ S d

/-! ## What a resolution may change -/

/-- The registry `st2` has the registrations of `st` and every instance that
was cached in `st`. -/
structure Grows (st st2 : St) : Prop where
  shape : forget st2.modules = forget st.modules
  kept : ∀ n w, st.modules.lookup n = some w → isObject w.inst = true →
    st2.modules.lookup n = some w

/-- The modules of `S` are under construction: each waits for a module of `S`
or for `d`, the module about to be forced. -/
def Pending (P : Prog) (st : St) (S : String → Prop) (d : String) : Prop :=
  ∀ n, S n → Waits P st (fun x => x = d ∨ S x) n

/-- The number of calls made from the call site `who`. -/
def calls (who : Label) (log : List Event) : Nat :=
  log.countP fun e => e.who = who

/-- From `st` to `st2` the registry keeps its registrations and cached
instances, the modules of `S` are not instantiated, and none of their
constructors has been called. -/
structure CycleInv (S : String → Prop) (st st2 : St) : Prop where
  grows : Grows st st2
  pend : ∀ m, S m → isInstanciated st2 m = false
  quiet : ∀ m, S m → calls (.ctor m) st2.log = calls (.ctor m) st.log

/-- What forcing the module `d` from `st` guarantees about its result, while
the modules of `S` are under construction. -/
structure Post (S : String → Prop) (d : String) (st : St) (res : Res Val) : Prop where
  grows : Grows st res.2
  pend : ∀ n, S n → isInstanciated res.2 n = false
  log : ∃ l, res.2.log = st.log ++ l ∧
    ∀ e ∈ l, ∃ n, e.who = .ctor n ∧ ¬ S n ∧ isInstanciated st n = false
  ok : ∀ v, res.1 = .ok v → isObject v = true ∧
    ∃ w, res.2.modules.lookup d = some w ∧ w.inst = v
  once : ∀ v, res.1 = .ok v → isInstanciated st d = false →
    calls (.ctor d) res.2.log = calls (.ctor d) st.log + 1
  fail : ∀ e, res.1 = .error e → isInstanciated st d = false →
    isInstanciated res.2 d = false

/-- How `getModules` resolved one name: to the instance cached in the
registry, or to the value bound in the external map when the registry has no
such module. -/
def ResolvedTo (st0 st2 : St) (ext : Props) (dep a : Val) : Prop :=
  ∃ q, dep = .str q ∧
    ((hasOwn q st0.modules = true ∧ Cached st2 dep ∧ depInst st2 dep = a) ∨
      (hasOwn q st0.modules = false ∧ ext.lookup q = some a))

/-- What `getModules` guarantees about its result, while the modules of `T`
are under construction. -/
structure PostL (T : String → Prop) (ext : Props) (ds : List Val) (st : St)
    (res : Res (List Val)) : Prop where
  grows : Grows st res.2
  pend : ∀ n, T n → isInstanciated res.2 n = false
  log : ∃ l, res.2.log = st.log ++ l ∧
    ∀ e ∈ l, ∃ n, e.who = .ctor n ∧ ¬ T n ∧ isInstanciated st n = false
  ok : ∀ mods, res.1 = .ok mods → List.Forall₂ (ResolvedTo st res.2 ext) ds mods

/-- What a resolution started from outside (`injector.resolve`) guarantees:
the calls it makes are constructor calls of modules that were not
instantiated, followed by at most one call from its own call site. -/
structure PostR (who : Label) (st : St) (res : Res Val) : Prop where
  grows : Grows st res.2
  log : ∃ lc lw, res.2.log = st.log ++ lc ++ lw ∧
    (∀ e ∈ lc, ∃ n, e.who = .ctor n ∧ isInstanciated st n = false) ∧
    (lw = [] ∨ ∃ ev, lw = [ev] ∧ ev.who = who)

/-- Every instance cached in `st` is still cached in `st2`, and the
constructor of its module has not been called in between. -/
def Keeps (st st2 : St) : Prop :=
  ∀ n w, st.modules.lookup n = some w → isObject w.inst = true →
    st2.modules.lookup n = some w ∧ calls (.ctor n) st2.log = calls (.ctor n) st.log

/-- One use of the container after registration or boot: a module is forced
(directly, at any nesting level), something is resolved through
`injector.resolve` from a call site that is not a constructor, the boot
sequence is run, or a module is registered. -/
inductive Step (P : Prog) : St → St → Prop where
  | force (name : String) (rl : Option Nat) (st : St) : Step P st (getInstance P name rl st).2
  | resolve (who : Label) (hwho : ∀ n, who ≠ .ctor n) (func deps : Val) (ext : Props)
      (st : St) : Step P st (injectorResolve P who func deps ext st).2
  | boot (st : St) : Step P st (boot P st).2
  | module (name constructor loadOnStartup : Val) (st : St) :
      Step P st (module name constructor loadOnStartup st).2

/-- Any number of uses of the container. -/
inductive Steps (P : Prog) : St → St → Prop where
  | refl (st : St) : Steps P st st
  | tail {a b c : St} : Steps P a b → Step P b c → Steps P a c

/-! ## Example programs -/

/-- The worked example of the specification, as strict-mode code: function
`0` is the constructor of `low`, `() => ({value: 1})`; function `1` is the
constructor of `high`, `(low) => ({value: low.value + 1, $init: ...})`;
function `2` is the initialization method, `function () { this.seen = true; }`,
which raises a `TypeError` when its receiver is not an object. Function `3`
has the body of function `1` and carries `$inject = ['low']`; function `4` is
a constructor that returns an array. -/
def exampleProg : Prog where
  inject := fun f => if f = 3 then some (.arr [.str "low"]) else none
  call := fun f thisArg args h =>
    match f, args with
    | 0, _ => (.ok (.obj h.length), h ++ [[("value", .num 1)]])
    | 1, [.obj a] | 3, [.obj a] =>
      match (h.getD a []).lookup "value" with
      | some (.num v) =>
        (.ok (.obj h.length), h ++ [[("value", .num (v + 1)), ("$init", .fn 2)]])
      | _ => (.error .typeError, h)
    | 2, _ =>
      match thisArg with
      | .obj a => (.ok .undefined, h.set a ((h.getD a []) ++ [("seen", .bool true)]))
      | _ => (.error .typeError, h)
    | 4, _ => (.ok (.arr []), h)
    | _, _ => (.error .typeError, h)

/-- The registry of the worked example: `low` registered with
`loadOnStartup = false`, then `high` with the dependency list `['low']` and
`loadOnStartup = true`. -/
def exampleReg : St :=
  (module (.str "high") (.arr [.str "low", .fn 1]) (.bool true)
    (module (.str "low") (.fn 0) (.bool false) init).2).2

/-- A registry with one module `a` that declares `['nope', 'a']`: it depends
on itself, after a name that nothing provides. -/
def selfAfterMissingReg : St :=
  (module (.str "a") (.arr [.str "nope", .str "a", .fn 0]) (.bool true) init).2

/-- A registry with two modules that depend on each other. -/
def mutualReg : St :=
  (module (.str "b") (.arr [.str "a", .fn 0]) (.bool false)
    (module (.str "a") (.arr [.str "$injector", .str "b", .fn 0]) (.bool true) init).2).2

/-- Module code with phase methods: function `0` is a constructor returning
`{$init: f1}`, function `1` is `function () {}`, function `2` is a
constructor returning `{$init: ['z', f1]}`. -/
def phaseProg : Prog where
  inject := fun _ => none
  call := fun f _ _ h =>
    match f with
    | 0 => (.ok (.obj h.length), h ++ [[("$init", .fn 1)]])
    | 1 => (.ok .undefined, h)
    | 2 => (.ok (.obj h.length), h ++ [[("$init", .arr [.str "z", .fn 1])]])
    | _ => (.error .typeError, h)

/-- A registry where the module `2` is registered before the module `1`,
both with an initialization method and loaded on startup. -/
def digitNamesReg : St :=
  (module (.str "1") (.fn 0) .undefined (module (.str "2") (.fn 0) .undefined init).2).2

/-- A registry where the startup module `x` and the module `z`, registered
with `loadOnStartup = false`, both have a plain initialization method; no
constructor declares a dependency. -/
def gatedReg : St :=
  (module (.str "z") (.fn 0) (.bool false) (module (.str "x") (.fn 0) (.bool true) init).2).2

/-- A registry where the startup module `x` has an array-form initialization
method naming `z`, and `z` is registered with `loadOnStartup = false`; no
constructor declares a dependency. -/
def phaseDepReg : St :=
  (module (.str "z") (.fn 0) (.bool false) (module (.str "x") (.fn 2) (.bool true) init).2).2

/-- Module code that may run once only: function `0` is the constructor
`function () { var done = false; return { $init: f1 }; }`, function `1` is its
method `function () { if (done) throw new Error('started twice'); done = true; }`;
the variable `done` of the closure is kept in the heap cell that the
constructor allocates just before the instance (address `1` when the module is
the first one instantiated). Function `2` is a constructor returning
`{$init: f3}` and function `3` is `function () {}`. -/
def onceProg : Prog where
  inject := fun _ => none
  call := fun f _ _ h =>
    match f with
    | 0 => (.ok (.obj (h.length + 1)), h ++ [[("done", .bool false)], [("$init", .fn 1)]])
    | 1 =>
      match (h.getD 1 []).lookup "done" with
      | some (.bool false) => (.ok .undefined, h.set 1 [("done", .bool true)])
      | _ => (.error (.error "started twice"), h)
    | 2 => (.ok (.obj h.length), h ++ [[("$init", .fn 3)]])
    | 3 => (.ok .undefined, h)
    | _ => (.error .typeError, h)

/-- The registry of `onceProg`: the startup modules `a`, then `b`. -/
def onceReg : St :=
  (module (.str "b") (.fn 2) .undefined (module (.str "a") (.fn 0) .undefined init).2).2

/-- Module code whose phase methods instantiate other modules: function `0`
is a constructor returning `{$init: f1, $build: f1}`, function `1` is
`function () {}`, function `2` is a constructor returning `{$init: ['1', f1]}`,
function `3` is `function () { throw new Error('build failed'); }`, and
function `4` is a constructor returning `{$init: ['z', f1], $build: f3}`. -/
def lateProg : Prog where
  inject := fun _ => none
  call := fun f _ _ h =>
    match f with
    | 0 => (.ok (.obj h.length), h ++ [[("$init", .fn 1), ("$build", .fn 1)]])
    | 1 => (.ok .undefined, h)
    | 2 => (.ok (.obj h.length), h ++ [[("$init", .arr [.str "1", .fn 1])]])
    | 3 => (.error (.error "build failed"), h)
    | 4 => (.ok (.obj h.length), h ++ [[("$init", .arr [.str "z", .fn 1]), ("$build", .fn 3)]])
    | _ => (.error .typeError, h)

/-- A registry of `lateProg`: the startup module `x`, whose initialization
method names `1`, then the module `1`, registered with `loadOnStartup = false`. -/
def lateReg : St :=
  (module (.str "1") (.fn 0) (.bool false) (module (.str "x") (.fn 2) (.bool true) init).2).2

/-- A registry of `lateProg`: the startup module `x`, whose initialization
method names `z` and whose `$build` method fails, then the module `z`,
registered with `loadOnStartup = false`. -/
def abortLateReg : St :=
  (module (.str "z") (.fn 0) (.bool false) (module (.str "x") (.fn 4) (.bool true) init).2).2

/-! ## The trace of the boot sequence -/

/-- The phase and the module of a call made for a phase method. -/
def phaseOf (e : Event) : Option (String × String) :=
  match e.who with
  | .phase step name => some (step, name)
  | _ => none

/-- The phase method calls of a trace, in order: phase and module. -/
def phaseTrace (l : List Event) : List (String × String) :=
  l.filterMap phaseOf

/-- What one visit or one pass of the boot sequence adds to the trace: the
registry keeps its registrations and cached instances, and the phase method
calls added are those of `ms`, in order, for the phase `step`. -/
def Adds (step : String) (ms : List String) (st st2 : St) : Prop :=
  Grows st st2 ∧ ∃ l, st2.log = st.log ++ l ∧ phaseTrace l = ms.map fun n => (step, n)

/-! ## Startup gating -/

/-- The modules outside `R` that were not instantiated in `st0` are still
not instantiated in `s`, and none of their phase methods has been called
since `st0`. -/
def Untouched (st0 : St) (R : String → Prop) (s : St) : Prop :=
  Grows st0 s ∧
    (∀ m, ¬ R m → isInstanciated st0 m = false → isInstanciated s m = false) ∧
    (∀ m step, ¬ R m → isInstanciated st0 m = false →
      calls (.phase step m) s.log = calls (.phase step m) st0.log)

/-- Every dependency name that a phase method call of the trace was
resolved from belongs to `R`. -/
def PhaseDepsIn (R : String → Prop) (log : List Event) : Prop :=
  ∀ ev ∈ log, ∀ step n, ev.who = .phase step n → ∀ e, Val.str e ∈ ev.deps → R e

/-- The set `R` is closed under the constructor declarations of the registry
`st0`. -/
def ClosedUnder (P : Prog) (st0 : St) (R : String → Prop) : Prop :=
  ∀ n w f ds e, R n → st0.modules.lookup n = some w →
    declaration P st0.heap w.constructor (.arr []) = .ok (f, ds) → Val.str e ∈ ds → R e

/-- A step of the boot sequence from `a` to `b`: the trace is extended, and
the modules outside `R` stay untouched provided the phase methods called so
far only name modules of `R`. -/
def GatedStep (st0 : St) (R : String → Prop) (a b : St) : Prop :=
  (∃ l, b.log = a.log ++ l) ∧ (PhaseDepsIn R b.log → Untouched st0 R a → Untouched st0 R b)

/-! ## Cycles that are reached -/

/-- The name `p` is a registered module whose forcing, from the registry
`st` or from any later one, succeeds unless it is stopped by the depth
guard: `p` does not fail with an error of its own. -/
def Resolves (P : Prog) (st : St) (p : Val) : Prop :=
  ∃ q, p = .str q ∧ hasOwn q st.modules = true ∧
    ∀ lvl s e s1, Grows st s → forceDep P q lvl s = (.error e, s1) →
      e = .error "Loop in module dependencies detected"

/-- Every module of `S` is registered, not instantiated, has a well-formed
declaration, and declares a module of `S` after names that resolve: the
dependencies of each module of `S` lead back into `S`, and resolving them in
declared order gets there. -/
def Reaches (P : Prog) (st : St) (S : String → Prop) : Prop :=
  ∀ n, S n → ∃ w f pre d post, st.modules.lookup n = some w ∧ isObject w.inst = false ∧
    declaration P st.heap w.constructor (.arr []) = .ok (f, pre ++ Val.str d :: post) ∧
    (∀ p ∈ pre, Resolves P st p) ∧ S d

/-- A registry with the module `p`, which declares nothing, and the module
`a`, which declares `['p', 'a']`: it depends on itself after a module that is
registered and not yet instantiated. -/
def reachReg : St :=
  (module (.str "a") (.arr [.str "p", .str "a", .fn 0]) (.bool true)
    (module (.str "p") (.fn 0) (.bool false) init).2).2

/-! ## Sequences of registrations -/

/-- The successive calls `bambo.module(name, constructor, loadOnStartup)` for
the triples of `rs`, stopping at the first that fails. -/
def registerAll : List (Val × Val × Val) → St → Res Unit
  | [], st => (.ok (), st)
  | (name, constructor, loadOnStartup) :: rest, st =>
    match module name constructor loadOnStartup st with
    | (.ok _, st1) => registerAll rest st1
    | (.error e, st1) => (.error e, st1)

/-- The string of a value handed over as a module name. -/
def nameOf : Val → String
  | .str n => n
  | _ => ""

/-- The names that are array indices, in the order in which `for (p in o)`
visits them. -/
def indexPart (names : List String) : List String :=
  ((names.filterMap fun k => (arrayIndex? k).map fun n => (n, k)).insertionSort
      (fun a b => a.1 ≤ b.1)).map (fun a => a.2)

/-- A visitor for `forEachModules` that records the name of the wrapper it
is given, as a new heap object with one property of that name. -/
def recordVisit (name : String) (st : St) : Res Unit :=
  (.ok (), { st with heap := st.heap ++ [[(name, Val.undefined)]] })

/-- The registry after the registrations of `10` and then `2`. -/
def digitsReg : St :=
  (registerAll [(.str "10", .null, .undefined), (.str "2", .null, .undefined)] init).2

/-! ## Dependency chains -/

/-- The module `m` is registered, not instantiated, its constructor is
declared with the dependency list `ds`, and it returns an object whatever it
is given. -/
def ChainLink (P : Prog) (st : St) (m : String) (ds : List Val) : Prop :=
  ∃ w f, st.modules.lookup m = some w ∧ isObject w.inst = false ∧
    declaration P st.heap w.constructor (.arr []) = .ok (.fn f, ds) ∧
    ∀ thisArg args h, ∃ a, (P.call f thisArg args h).1 = .ok (.obj a)

/-- A chain of uninstantiated modules: each declares exactly the next one as
its dependency, and the last one declares none. -/
def Chain (P : Prog) (st : St) : List String → Prop
  | [] => False
  | [m] => ChainLink P st m []
  | m :: m2 :: rest => ChainLink P st m [.str m2] ∧ Chain P st (m2 :: rest)

/-- A registry with the chain `a`, `b`: `a` declares `['b']`, `b` declares
nothing. -/
def chainReg : St :=
  (module (.str "b") (.fn 0) (.bool false)
    (module (.str "a") (.arr [.str "b", .fn 0]) (.bool true) init).2).2

/-! ## Registries read by name -/

/-- Two states with the same heap and trace whose registries hold the same
wrapper under every name (whatever the order of the names). -/
def Sim (st st2 : St) : Prop :=
  st.heap = st2.heap ∧ st.log = st2.log ∧ ∀ n, st.modules.lookup n = st2.modules.lookup n

/-! ## Passes of the boot sequence -/

/-- In the pass of `callback` over `pre ++ n :: post` from `sa` to `sb`, all
visits succeed; `n` is visited in the state `t`, which the visit turns into
`t1`. -/
def VisitedAt (callback : String → St → Res Unit) (pre : List String) (n : String)
    (post : List String) (sa t t1 sb : St) : Prop :=
  forEachLoop callback pre sa = (.ok (), t) ∧ callback n t = (.ok (), t1) ∧
    forEachLoop callback post t1 = (.ok (), sb)

/-- In the pass of the phase `step` over `ns` from `sa` to `sb`, which
completes, the module `n` is visited while its instance is the object at
address `a`; its method for the phase is called in that visit, once, if the
instance has it then, and it is called at no other moment of the pass. -/
def VisitedOnce (P : Prog) (step n : String) (a : Nat) (ns : List String) (sa sb : St) :
    Prop :=
  ∃ pre post t t1 w, ns = pre ++ n :: post ∧
    VisitedAt (execStepVisit P step) pre n post sa t t1 sb ∧
    t.modules.lookup n = some w ∧ w.inst = .obj a ∧
    calls (.phase step n) t.log = calls (.phase step n) sa.log ∧
    calls (.phase step n) t1.log =
      calls (.phase step n) t.log + (if hasOwn step (t.heap.getD a []) then 1 else 0) ∧
    calls (.phase step n) sb.log = calls (.phase step n) t1.log

/-- The four passes of a boot that completes, with the states between
them. -/
structure BootPasses (P : Prog) (st s1 s2 s3 st2 : St) : Prop where
  inst : instanciate P st = (.ok (), s1)
  init : execStep P "$init" s1 = (.ok (), s2)
  build : execStep P "$build" s2 = (.ok (), s3)
  final : execStep P "$final" s3 = (.ok (), st2)

/-- Between the passes `st`, `s1`, `s2`, `s3`, `st2` of a boot, no method of
the module `m` is called outside the pass of its phase. -/
def QuietOutside (m : String) (st s1 s2 s3 st2 : St) : Prop :=
  calls (.phase "$init" m) s1.log = calls (.phase "$init" m) st.log ∧
    calls (.phase "$init" m) st2.log = calls (.phase "$init" m) s2.log ∧
    calls (.phase "$build" m) s2.log = calls (.phase "$build" m) st.log ∧
    calls (.phase "$build" m) st2.log = calls (.phase "$build" m) s3.log ∧
    calls (.phase "$final" m) s3.log = calls (.phase "$final" m) st.log

/-- In the pass of the phase `step` over `pre ++ x :: post` from `sa` to
`sb`, which completes, the module `z` is not instantiated when `x` is visited
and is instantiated when that visit ends: resolving the phase method of `x`
has instantiated `z`. -/
def InstantiatedIn (P : Prog) (step : String) (pre : List String) (x : String)
    (post : List String) (z : String) (sa sb : St) : Prop :=
  ∃ sx sx1, VisitedAt (execStepVisit P step) pre x post sa sx sx1 sb ∧
    isInstanciated sx z = false ∧ isInstanciated sx1 z = true

/-! ## The registry as a plain object

The registry is the object `var modules = {}`. The definitions above read it
through its own properties only; those below follow the two property names
for which a plain object answers differently: a module registered under
`hasOwnProperty` shadows the method that `addModule` and `forEach` call on the
registry, and assigning to `__proto__` sets the prototype of the registry
instead of creating a property. -/

namespace Plain

/-- The call `modules.hasOwnProperty(name)`. When a module is registered
under `hasOwnProperty`, the expression `modules.hasOwnProperty` is the wrapper
of that module, which is not a function: the call raises a `TypeError`. -/
def ownProperty (ms : List (String × Wrapper)) (name : String) : Except Err Bool :=
  if hasOwn "hasOwnProperty" ms then .error .typeError else .ok (hasOwn name ms)

/-- The function `addModule(name, obj)` on the plain object: for the name
`__proto__` the assignment `modules[name] = obj` calls the setter inherited
from `Object.prototype`, which makes `obj` the prototype of the registry and
creates no own property. -/
def addModule (name : String) (obj : Wrapper) (st : St) : Res Unit :=
  match ownProperty st.modules name with
  | .error e => (.error e, st)
  | .ok true => (.error (.error ("Module " ++ name ++ " is already registered")), st)
  | .ok false =>
    if name = "__proto__" then (.ok (), st)
    else (.ok (), { st with modules := st.modules ++ [(name, obj)] })

/-- The public method `injector.register(name, constructor, loadOnStartup)`. -/
def register (name : String) (constructor loadOnStartup : Val) (st : St) : Res Unit :=
  addModule name (singletonFactory name constructor (jsOr loadOnStartup (.bool false)) .undefined) st

/-- The facade method `bambo.module(name, constructor, loadOnStartup)`. -/
def module (name constructor loadOnStartup : Val) (st : St) : Res Unit :=
  match name with
  | .str n =>
    if n = "" then (.error (.error "Module name must be a string"), st)
    else register n constructor (if isBoolean loadOnStartup then loadOnStartup else .bool true) st
  | _ => (.error (.error "Module name must be a string"), st)

/-- The successive calls `bambo.module(name, constructor, loadOnStartup)` for
the triples of `rs`, stopping at the first that fails. -/
def registerAll : List (Val × Val × Val) → St → Res Unit
  | [], st => (.ok (), st)
  | (name, constructor, loadOnStartup) :: rest, st =>
    match module name constructor loadOnStartup st with
    | (.ok _, st1) => registerAll rest st1
    | (.error e, st1) => (.error e, st1)

/-- The loop of `forEach(modules, ...)`: each iteration first calls
`array.hasOwnProperty(pptName)` on the registry. -/
def forEachLoop (callback : String → St → Res Unit) : List String → St → Res Unit
  | [], st => (.ok (), st)
  | n :: ns, st =>
    match ownProperty st.modules n with
    | .error e => (.error e, st)
    | .ok false => forEachLoop callback ns st
    | .ok true =>
      match callback n st with
      | (.ok _, st1) => forEachLoop callback ns st1
      | (.error e, st1) => (.error e, st1)

/-- The public method `injector.forEachModules(callback)`. -/
def forEachModules (callback : String → St → Res Unit) (st : St) : Res Unit :=
  forEachLoop callback (enumKeys st.modules) st

end Plain

/-- The method `hasOwnProperty` that `resolve` calls on `func` is the
built-in one: `func` is not an object with an own property of that name (the
objects of the heap inherit from `Object.prototype`). -/
def builtinHasOwnProperty (h : Heap) : Val → Bool
  | .obj a => !hasOwn "hasOwnProperty" (h.getD a [])
  | _ => true

/-! ## Module code that calls the container

The injector registers itself under `$injector`, so a constructor or a phase
method can be handed the injector and call `resolve` on it while it runs, and
through `forEachModules` it can reach the wrappers and call `getInstance` on
them. The definitions below follow the same source functions as above, with
module code that may make such calls. Registering modules or booting from
module code is not modelled. -/

namespace Reentrant

/-- What a function of module code does when it is called: it ends with a
result (`return` or `throw`) and the heap it leaves, or it calls
`$injector.resolve(func, deps, extDependencies)`, or `getInstance(recursionLevel)`
on the wrapper registered under `name`, or it reads the registry through
`forEachModules` (`isInstanciated()`, `loadOnStartup()`), and goes on with the
answer. The heap `h` of a call is the heap at the moment of the call. -/
inductive Code where
  | done (r : Except Err Val) (h : Heap) : Code
  | resolve (h : Heap) (func deps : Val) (ext : Props) (k : Except Err Val → Heap → Code) : Code
  | getInstance (h : Heap) (name : String) (recursionLevel : Option Nat)
      (k : Except Err Val → Heap → Code) : Code
  | forEachModules (k : List (String × Wrapper) → Code) : Code

/-- The functions of module code: `inject f` is the own property `$inject`
of the function `f`, and `call f thisArg args h` is what `f` does when
applied. -/
structure Prog where
  inject : Nat → Option Val
  call : Nat → Val → List Val → Heap → Code

/-- The two entry points of the container that a running resolution uses:
`getInstance(recursionLevel)` of a wrapper and
`resolve(func, deps, modules, extDependencies, recursionLevel)`. -/
structure Sem where
  getInstance : String → Option Nat → St → Res Val
  resolve : Label → Val → Val → Props → Nat → St → Res Val

/-- Running module code: each call it makes to the container goes through
`sem`; `$injector.resolve` starts at the recursion level `0`. -/
def run (sem : Sem) : Code → St → Res Val
  | .done r h, st => (r, { st with heap := h })
  | .resolve h func deps ext k, st =>
    match sem.resolve .direct func deps ext 0 { st with heap := h } with
    | (r, st1) => run sem (k r st1.heap) st1
  | .getInstance h name recursionLevel k, st =>
    match sem.getInstance name recursionLevel { st with heap := h } with
    | (r, st1) => run sem (k r st1.heap) st1
  | .forEachModules k, st => run sem (k st.modules) st

/-- The function `factory(func, mods)`: the call is recorded in the trace
when it starts, then the code of `func` runs. -/
def factory (P : Prog) (sem : Sem) (who : Label) (deps : List Val) (func : Val)
    (mods : List Val) (st : St) : Res Val :=
  match func with
  | .fn f =>
    run sem (P.call f .undefined mods st.heap)
      { st with log := st.log ++ [⟨who, f, .undefined, mods, deps⟩] }
  | _ => (.error .typeError, st)

/-- The test `func.hasOwnProperty('$inject')` followed by the read
`func.$inject`, for a `func` that is not an array. -/
def ownInject (P : Prog) (h : Heap) : Val → Except Err (Option Val)
  | .undefined => .error .typeError
  | .null => .error .typeError
  | .fn f => .ok (P.inject f)
  | .obj a => .ok ((h.getD a []).lookup "$inject")
  | _ => .ok none

/-- The tail of `resolve`, after the declaration has been normalised. -/
def resolveCall (P : Prog) (sem : Sem) (who : Label) (func deps : Val) (ext : Props)
    (recursionLevel : Nat) (st : St) : Res Val :=
  if !isFunction func then (.error (.error "First element must be a function"), st)
  else
    match deps with
    | .arr ds =>
      match getModules (fun d l s => sem.getInstance d (some l) s) ext recursionLevel ds st with
      | (.ok mods, st1) => factory P sem who ds func mods st1
      | (.error e, st1) => (.error e, st1)
    | _ => (.error (.error "Dependency parameter must be an array of strings"), st)

/-- The function `resolve(func, deps, intDependencies, extDependencies,
recursionLevel)`. -/
def resolve (P : Prog) (sem : Sem) (who : Label) (func deps : Val) (ext : Props)
    (recursionLevel : Nat) (st : St) : Res Val :=
  if recursionLevel > 1000 then
    (.error (.error "Loop in module dependencies detected"), st)
  else
    match func with
    | .arr array =>
      let func := array.getLast?.getD .undefined
      let deps := Val.arr array.dropLast
      if !isFunction func then (.error (.error "Last element must be a function"), st)
      else resolveCall P sem who func deps ext recursionLevel st
    | _ =>
      let deps := jsOr deps (.arr [])
      match ownInject P st.heap func with
      | .error e => (.error e, st)
      | .ok (some inj) =>
        if !isArray inj then (.error (.error "$inject parameter must be an array"), st)
        else resolveCall P sem who func inj ext recursionLevel st
      | .ok none => resolveCall P sem who func deps ext recursionLevel st

/-- The method `getInstance(recursionLevel)` of the wrapper registered under
`name` (with `instanciate` inlined): the instance is assigned when the
constructor has returned, whatever was assigned in between. -/
def getInstanceBody (P : Prog) (sem : Sem) (name : String) (recursionLevel : Option Nat)
    (st : St) : Res Val :=
  match st.modules.lookup name with
  | none => (.error .typeError, st)
  | some w =>
    if isObject w.inst then (.ok w.inst, st)
    else
      match resolve P sem (.ctor name) w.constructor (.arr []) [] (nextLevel recursionLevel)
          st with
      | (.ok obj, st1) =>
        if !isObject obj then
          (.error (.error ("Module " ++ w.name ++
            " constructor is not correctly defined, it must return an object")), st1)
        else (.ok obj, { st1 with modules := setInstance name obj st1.modules })
      | (.error e, st1) => (.error e, st1)

/-- The container whose calls may nest `fuel` deep; a deeper nesting (which
the depth guard does not bound, since `$injector.resolve` starts again at
level `0`) ends with `outOfFuel`. -/
def sem (P : Prog) : Nat → Sem
  | 0 => ⟨fun _ _ st => (.error .outOfFuel, st), fun _ _ _ _ _ st => (.error .outOfFuel, st)⟩
  | fuel + 1 =>
    ⟨fun name recursionLevel st => getInstanceBody P (sem P fuel) name recursionLevel st,
      fun who func deps ext recursionLevel st =>
        resolve P (sem P fuel) who func deps ext recursionLevel st⟩

/-- The callback of `instanciate`. -/
def instanciateVisit (sem : Sem) (name : String) (st : St) : Res Unit :=
  match st.modules.lookup name with
  | none => (.error .typeError, st)
  | some w =>
    if truthy w.loadOnStartup then
      match sem.getInstance name none st with
      | (.ok _, st1) => (.ok (), st1)
      | (.error e, st1) => (.error e, st1)
    else (.ok (), st)

/-- The function `instanciate()` of the boot sequence. -/
def instanciate (sem : Sem) (st : St) : Res Unit :=
  forEachModules (instanciateVisit sem) st

/-- The callback of `execStep(step)`. -/
def execStepVisit (sem : Sem) (step : String) (name : String) (st : St) : Res Unit :=
  match st.modules.lookup name with
  | none => (.error .typeError, st)
  | some w =>
    if isObject w.inst then
      match sem.getInstance name none st with
      | (.ok obj, st1) =>
        match obj with
        | .obj a =>
          match (st1.heap.getD a []).lookup step with
          | some m =>
            match sem.resolve (.phase step name) m .undefined [] 0 st1 with
            | (.ok _, st2) => (.ok (), st2)
            | (.error e, st2) => (.error e, st2)
          | none => (.ok (), st1)
        | _ => (.error .typeError, st1)
      | (.error e, st1) => (.error e, st1)
    else (.ok (), st)

/-- The function returned by `execStep(step)`. -/
def execStep (sem : Sem) (step : String) (st : St) : Res Unit :=
  forEachModules (execStepVisit sem step) st

/-- The function `boot`, for a container whose calls may nest `fuel` deep. -/
def boot (P : Prog) (fuel : Nat) (st : St) : Res Unit :=
  match instanciate (sem P fuel) st with
  | (.ok _, st1) =>
    match execStep (sem P fuel) "$init" st1 with
    | (.ok _, st2) =>
      match execStep (sem P fuel) "$build" st2 with
      | (.ok _, st3) => execStep (sem P fuel) "$final" st3
      | (.error e, st3) => (.error e, st3)
    | (.error e, st2) => (.error e, st2)
  | (.error e, st1) => (.error e, st1)

/-- The normalisation done by `resolve` on `(func, deps)`. -/
def declaration (P : Prog) (h : Heap) (func deps : Val) : Except Err (Val × List Val) :=
  match func with
  | .arr array =>
    if !isFunction (array.getLast?.getD .undefined) then
      .error (.error "Last element must be a function")
    else declarationCheck (array.getLast?.getD .undefined) (.arr array.dropLast)
  | _ =>
    match ownInject P h func with
    | .error e => .error e
    | .ok (some inj) =>
      if !isArray inj then .error (.error "$inject parameter must be an array")
      else declarationCheck func inj
    | .ok none => declarationCheck func (jsOr deps (.arr []))

/-- Fetching the dependencies and calling the function. -/
def resolveRun (P : Prog) (sem : Sem) (who : Label) (func : Val) (ds : List Val) (ext : Props)
    (lvl : Nat) (st : St) : Res Val :=
  match getModules (fun d l s => sem.getInstance d (some l) s) ext lvl ds st with
  | (.ok mods, st1) => factory P sem who ds func mods st1
  | (.error e, st1) => (.error e, st1)

/-- While it runs, the code asks the container only for modules of `R`: the
dependency lists it hands to `$injector.resolve` name modules of `R`, and the
wrappers on which it calls `getInstance` are those of modules of `R`. -/
inductive Asks (P : Prog) (R : String → Prop) : Code → Prop where
  | done (r : Except Err Val) (h : Heap) : Asks P R (.done r h)
  | resolve (h : Heap) (func deps : Val) (ext : Props) (k : Except Err Val → Heap → Code) :
      (∀ f ds, declaration P h func deps = .ok (f, ds) → ∀ e, Val.str e ∈ ds → R e) →
      (∀ r h2, Asks P R (k r h2)) → Asks P R (.resolve h func deps ext k)
  | getInstance (h : Heap) (name : String) (recursionLevel : Option Nat)
      (k : Except Err Val → Heap → Code) :
      R name → (∀ r h2, Asks P R (k r h2)) → Asks P R (.getInstance h name recursionLevel k)
  | forEachModules (k : List (String × Wrapper) → Code) :
      (∀ ms, Asks P R (k ms)) → Asks P R (.forEachModules k)

/-- The modules outside `R` that were not instantiated in `st0` are still
not instantiated in `s`, none of their phase methods has been called since
`st0`, and the registrations are those of `st0`. -/
def Untouched (st0 : St) (R : String → Prop) (s : St) : Prop :=
  forget s.modules = forget st0.modules ∧
    (∀ m, ¬ R m → isInstanciated st0 m = false → isInstanciated s m = false) ∧
    (∀ m step, ¬ R m → isInstanciated st0 m = false →
      calls (.phase step m) s.log = calls (.phase step m) st0.log)

/-- A call site that is not a phase method of a module that has to stay
untouched. -/
def OkWho (st0 : St) (R : String → Prop) (who : Label) : Prop :=
  ∀ step m, who = .phase step m → ¬ R m → isInstanciated st0 m = true

/-- A container whose entry points extend the trace and leave the modules
outside `R` untouched when they are asked for modules of `R` only. -/
structure Good (P : Prog) (st0 : St) (R : String → Prop) (sm : Sem) : Prop where
  ext1 : ∀ d rl s, ∃ l, (sm.getInstance d rl s).2.log = s.log ++ l
  ext2 : ∀ who func deps ext lvl s, ∃ l, (sm.resolve who func deps ext lvl s).2.log = s.log ++ l
  safe1 : ∀ d rl s, R d → Untouched st0 R s → Untouched st0 R (sm.getInstance d rl s).2
  safe2 : ∀ who func deps ext lvl s, OkWho st0 R who →
    (∀ f ds, declaration P s.heap func deps = .ok (f, ds) → ∀ e, Val.str e ∈ ds → R e) →
    Untouched st0 R s → Untouched st0 R (sm.resolve who func deps ext lvl s).2

/-- A step of the boot sequence from `a` to `b`: the trace is extended, and
the modules outside `R` stay untouched provided the phase methods called so
far only name modules of `R`. -/
def Gated (st0 : St) (R : String → Prop) (a b : St) : Prop :=
  (∃ l, b.log = a.log ++ l) ∧ (PhaseDepsIn R b.log → Untouched st0 R a → Untouched st0 R b)

/-- Module code with a constructor that uses the injector: function `0` is
`function ($injector) { n++; var mine = {id: n}; if (n === 1)
$injector.resolve(['B', function (b) {}]); return mine; }`, with the counter
`n` kept in the heap cell at address `1`; function `1` is
`function (a) { return {a: a}; }`; function `2` is `function (b) {}`. -/
def twiceProg : Prog where
  inject := fun _ => none
  call := fun f _ args h =>
    match f with
    | 0 =>
      match (h.getD 1 []).lookup "n" with
      | some (.num n) =>
        let h1 := (h.set 1 [("n", .num (n + 1))]) ++ [[("id", .num (n + 1))]]
        if n + 1 = 1 then
          .resolve h1 (.arr [.str "B", .fn 2]) .undefined [] fun r h2 =>
            match r with
            | .ok _ => .done (.ok (.obj h.length)) h2
            | .error e => .done (.error e) h2
        else .done (.ok (.obj h.length)) h1
      | _ => .done (.error .typeError) h
    | 1 => .done (.ok (.obj h.length)) (h ++ [[("a", args.headD .undefined)]])
    | 2 => .done (.ok .undefined) h
    | _ => .done (.error .typeError) h

/-- The registry of `twiceProg`: the startup module `A`, declared as
`['$injector', f0]`, and the module `B`, declared as `['A', f1]` with
`loadOnStartup = false`; the counter `n` starts at `0`. -/
def twiceReg : St :=
  { (module (.str "B") (.arr [.str "A", .fn 1]) (.bool false)
      (module (.str "A") (.arr [.str "$injector", .fn 0]) (.bool true) init).2).2 with
    heap := [[], [("n", .num 0)]] }

/-- Module code for the startup gate: function `0` is a constructor
returning `{$init: f1}`, function `1` is `function () {}`, function `2` is a
constructor returning `{$init: ['z', f1]}`, and function `3` is the
constructor `function ($injector) { $injector.resolve(['z', function (z) {}]);
return {}; }`. -/
def gateProg : Prog where
  inject := fun _ => none
  call := fun f _ _ h =>
    match f with
    | 0 => .done (.ok (.obj h.length)) (h ++ [[("$init", .fn 1)]])
    | 1 => .done (.ok .undefined) h
    | 2 => .done (.ok (.obj h.length)) (h ++ [[("$init", .arr [.str "z", .fn 1])]])
    | 3 =>
      .resolve h (.arr [.str "z", .fn 1]) .undefined [] fun r h2 =>
        match r with
        | .ok _ => .done (.ok (.obj h2.length)) (h2 ++ [[]])
        | .error e => .done (.error e) h2
    | _ => .done (.error .typeError) h

/-- A registry of `gateProg`: the startup module `x`, declared as
`['$injector', f3]`, and the module `z`, registered with
`loadOnStartup = false`: no constructor declaration and no phase method names
`z`. -/
def askReg : St :=
  (module (.str "z") (.fn 0) (.bool false)
    (module (.str "x") (.arr [.str "$injector", .fn 3]) (.bool true) init).2).2

/-- Module code that asks the injector for `y` only: function `0` is a
constructor returning `{$init: f1}`, function `1` is `function () {}`, and
function `2` is the constructor `function ($injector) {
$injector.resolve(['y', function (y) {}]); return {}; }`. -/
def askProg : Prog where
  inject := fun _ => none
  call := fun f _ _ h =>
    match f with
    | 0 => .done (.ok (.obj h.length)) (h ++ [[("$init", .fn 1)]])
    | 1 => .done (.ok .undefined) h
    | 2 =>
      .resolve h (.arr [.str "y", .fn 1]) .undefined [] fun r h2 =>
        match r with
        | .ok _ => .done (.ok (.obj h2.length)) (h2 ++ [[]])
        | .error e => .done (.error e) h2
    | _ => .done (.error .typeError) h

/-- A registry of `askProg`: the startup module `x`, declared as
`['$injector', f2]`, and the modules `y` and `z`, both registered with
`loadOnStartup = false`. -/
def askGatedReg : St :=
  (module (.str "z") (.fn 0) (.bool false)
    (module (.str "y") (.fn 0) (.bool false)
      (module (.str "x") (.arr [.str "$injector", .fn 2]) (.bool true) init).2).2).2

end Reentrant

/-- The pass `forEach` over the names `ns` from `st` fails at some name: the
visits before it complete, and its visit ends with the error `e` in the state
`s1`. -/
def FailsAt (callback : String → St → Res Unit) (ns : List String) (st : St) (e : Err)
    (s1 : St) : Prop :=
  ∃ pre n post s, ns = pre ++ n :: post ∧ forEachLoop callback pre st = (.ok (), s) ∧
    callback n s = (.error e, s1)

/-! # Theorems -/

/-! ## Unfolding the resolver -/

theorem getModules_congr {force1 force2 : String → Nat → St → Res Val} (ext : Props) (lvl : Nat)
    (h : ∀ d st, force1 d lvl st = force2 d lvl st) (ds : List Val) (st : St) :
    getModules force1 ext lvl ds st = getModules force2 ext lvl ds st := by
  induction ds generalizing st with
  | nil => rfl
  | cons dep rest ih =>
    cases dep <;> simp only [getModules]
    rename_i d
    rw [h d st]
    split
    · rcases hr : force2 d lvl st with ⟨r, st1⟩
      cases r <;> simp only [ih]
    · simp only [ih]

theorem resolveCall_congr (P : Prog) {force1 force2 : String → Nat → St → Res Val}
    (who : Label) (func deps : Val) (ext : Props) (lvl : Nat)
    (h : ∀ d st, force1 d lvl st = force2 d lvl st) (st : St) :
    resolveCall P force1 who func deps ext lvl st =
      resolveCall P force2 who func deps ext lvl st := by
  unfold resolveCall
  split
  · rfl
  · cases deps <;> simp only [getModules_congr ext lvl h]

theorem resolve_congr (P : Prog) {force1 force2 : String → Nat → St → Res Val}
    (who : Label) (func deps : Val) (ext : Props) (lvl : Nat)
    (h : lvl ≤ 1000 → ∀ d st, force1 d lvl st = force2 d lvl st) (st : St) :
    resolve P force1 who func deps ext lvl st = resolve P force2 who func deps ext lvl st := by
  unfold resolve
  split
  · rfl
  · rename_i hl
    have h2 := h (by omega)
    simp only [resolveCall_congr P who _ _ ext lvl h2]

theorem getInstanceF_succ (P : Prog) (fuel : Nat) (name : String) (rl : Option Nat) (st : St) :
    getInstanceF P (fuel + 1) name rl st =
      getInstanceBody P (fun d l => getInstanceF P fuel d (some l)) name rl st := rfl

/-- The recursive equation of `getInstance`: the fuel never runs out. -/
theorem getInstance_eq (P : Prog) (name : String) (rl : Option Nat) (st : St) :
    getInstance P name rl st = getInstanceBody P (forceDep P) name rl st := by
  show getInstanceF P (1001 - nextLevel rl + 1) name rl st = _
  rw [getInstanceF_succ]
  unfold getInstanceBody
  have hc : ∀ (who : Label) (func deps : Val) (ext : Props) (s : St),
      resolve P (fun d l => getInstanceF P (1001 - nextLevel rl) d (some l)) who func deps ext
          (nextLevel rl) s =
        resolve P (forceDep P) who func deps ext (nextLevel rl) s := by
    intro who func deps ext s
    apply resolve_congr
    intro hl d s2
    show getInstanceF P (1001 - nextLevel rl) d (some (nextLevel rl)) s2 =
      getInstanceF P (1001 - (nextLevel rl + 1) + 1) d (some (nextLevel rl)) s2
    have : 1001 - (nextLevel rl + 1) + 1 = 1001 - nextLevel rl := by omega
    rw [this]
  simp only [hc]

/-- Induction on the nesting of resolutions: a property of `getInstance`
follows once it is shown for its body, assuming it for the nested calls (which
the depth guard keeps below the bound). -/
theorem getInstance_induction (P : Prog) (motive : String → Option Nat → St → Res Val → Prop)
    (step : ∀ (name : String) (rl : Option Nat) (st : St),
      (nextLevel rl ≤ 1000 → ∀ d s,
        motive d (some (nextLevel rl)) s (forceDep P d (nextLevel rl) s)) →
      motive name rl st (getInstanceBody P (forceDep P) name rl st))
    (name : String) (rl : Option Nat) (st : St) :
    motive name rl st (getInstance P name rl st) := by
  suffices h : ∀ k name rl st, 1001 - nextLevel rl = k →
      motive name rl st (getInstance P name rl st) from h _ name rl st rfl
  intro k
  induction k using Nat.strong_induction_on with
  | _ k ih =>
    intro name rl st hk
    rw [getInstance_eq]
    apply step
    intro hl d s
    exact ih (1001 - (nextLevel rl + 1)) (by omega) d (some (nextLevel rl)) s rfl

theorem lookup_map_snd (g : String → Wrapper → Wrapper) (n : String)
    (ms : List (String × Wrapper)) :
    (ms.map fun p => (p.1, g p.1 p.2)).lookup n = (ms.lookup n).map (g n) := by
  induction ms with
  | nil => rfl
  | cons p ms ih =>
    obtain ⟨k, w⟩ := p
    by_cases h : n = k
    · subst h
      simp [List.lookup_cons]
    · have hb : (n == k) = false := by simpa using h
      simp only [List.map_cons, List.lookup_cons, hb]
      exact ih

theorem lookup_forget (n : String) (ms : List (String × Wrapper)) :
    (forget ms).lookup n = (ms.lookup n).map fun w => { w with inst := Val.undefined } :=
  lookup_map_snd (fun _ w => { w with inst := Val.undefined }) n ms

theorem setInstance_eq_map (name : String) (obj : Val) (ms : List (String × Wrapper)) :
    setInstance name obj ms =
      ms.map fun p => (p.1, if p.1 = name then { p.2 with inst := obj } else p.2) := by
  unfold setInstance
  apply List.map_congr_left
  intro p _
  split <;> rfl

theorem lookup_setInstance (n name : String) (obj : Val) (ms : List (String × Wrapper)) :
    (setInstance name obj ms).lookup n =
      (ms.lookup n).map fun w => if n = name then { w with inst := obj } else w := by
  rw [setInstance_eq_map]
  exact lookup_map_snd (fun k w => if k = name then { w with inst := obj } else w) n ms

theorem forget_setInstance (name : String) (obj : Val) (ms : List (String × Wrapper)) :
    forget (setInstance name obj ms) = forget ms := by
  rw [setInstance_eq_map]
  unfold forget
  rw [List.map_map]
  apply List.map_congr_left
  intro p _
  simp only [Function.comp]
  split <;> rfl

theorem hasOwn_of_forget {ms ms2 : List (String × Wrapper)} (h : forget ms2 = forget ms)
    (n : String) : hasOwn n ms2 = hasOwn n ms := by
  have h1 := lookup_forget n ms
  have h2 := lookup_forget n ms2
  rw [h] at h2
  rw [h1] at h2
  unfold hasOwn
  cases ha : ms.lookup n <;> cases hb : ms2.lookup n <;> simp_all

/-- What `forget` keeps of a wrapper is the same in both registries. -/
theorem lookup_of_forget {ms ms2 : List (String × Wrapper)} (h : forget ms2 = forget ms)
    {n : String} {w : Wrapper} (hw : ms.lookup n = some w) :
    ∃ w2, ms2.lookup n = some w2 ∧ w2.name = w.name ∧ w2.constructor = w.constructor ∧
      w2.loadOnStartup = w.loadOnStartup := by
  have h1 := lookup_forget n ms
  have h2 := lookup_forget n ms2
  rw [h, h1, hw] at h2
  cases hb : ms2.lookup n with
  | none => rw [hb] at h2; simp at h2
  | some w2 =>
    rw [hb] at h2
    simp only [Option.map_some', Option.some.injEq, Wrapper.mk.injEq] at h2
    exact ⟨w2, rfl, h2.1.symm, h2.2.1.symm, h2.2.2.1.symm⟩

theorem resolveCall_eq (P : Prog) (force : String → Nat → St → Res Val) (who : Label)
    (func deps : Val) (ext : Props) (lvl : Nat) (st : St) :
    resolveCall P force who func deps ext lvl st =
      match declarationCheck func deps with
      | .error e => (.error e, st)
      | .ok (f, ds) => resolveRun P force who f ds ext lvl st := by
  unfold resolveCall declarationCheck resolveRun
  split
  · rfl
  · cases deps <;> rfl

/-- The function `resolve` is: the depth guard, the normalisation, the
fetching of the dependencies, the call. -/
theorem resolve_eq (P : Prog) (force : String → Nat → St → Res Val) (who : Label)
    (func deps : Val) (ext : Props) (lvl : Nat) (st : St) :
    resolve P force who func deps ext lvl st =
      if lvl > 1000 then (.error (.error "Loop in module dependencies detected"), st)
      else
        match declaration P st.heap func deps with
        | .error e => (.error e, st)
        | .ok (f, ds) => resolveRun P force who f ds ext lvl st := by
  unfold resolve
  split
  · rfl
  · simp only [resolveCall_eq]
    unfold declaration
    cases func with
    | arr array =>
      simp only
      split
      · rfl
      · rfl
    | _ =>
      simp only
      split <;> first | rfl | (split <;> rfl)

theorem declarationCheck_ok {func deps f : Val} {ds : List Val}
    (h : declarationCheck func deps = .ok (f, ds)) :
    (∃ id, f = .fn id) ∧ func = f ∧ deps = .arr ds := by
  unfold declarationCheck at h
  cases func <;> simp [isFunction] at h
  cases deps <;> simp at h
  rename_i id elems
  exact ⟨⟨id, h.1.symm⟩, h.1, by rw [h.2]⟩

theorem declaration_fn {P : Prog} {h : Heap} {func deps f : Val} {ds : List Val}
    (hd : declaration P h func deps = .ok (f, ds)) : ∃ id, f = .fn id := by
  unfold declaration at hd
  split at hd
  · split at hd
    · cases hd
    · exact (declarationCheck_ok hd).1
  · split at hd
    · cases hd
    · split at hd
      · cases hd
      · exact (declarationCheck_ok hd).1
    · exact (declarationCheck_ok hd).1

/-- A well-formed declaration does not depend on the heap. -/
theorem declaration_heap {P : Prog} {h : Heap} {func deps f : Val} {ds : List Val}
    (hd : declaration P h func deps = .ok (f, ds)) (h2 : Heap) :
    declaration P h2 func deps = .ok (f, ds) := by
  cases func with
  | obj a =>
    exfalso
    unfold declaration at hd
    simp only [ownInject] at hd
    split at hd
    · cases hd
    · split at hd
      · cases hd
      · have := (declarationCheck_ok hd)
        obtain ⟨⟨id, h1⟩, h2, _⟩ := this
        rw [h1] at h2
        cases h2
    · have := (declarationCheck_ok hd)
      obtain ⟨⟨id, h1⟩, h2, _⟩ := this
      rw [h1] at h2
      cases h2
  | _ => exact hd

/-! ## Cached instances -/

theorem getInstance_cached (P : Prog) {st : St} {name : String} {w : Wrapper}
    (hw : st.modules.lookup name = some w) (hi : isObject w.inst = true) (rl : Option Nat) :
    getInstance P name rl st = (.ok w.inst, st) := by
  rw [getInstance_eq]
  unfold getInstanceBody
  simp only [hw, hi, if_true]

theorem getModules_cached_pre (P : Prog) (ext : Props) (lvl : Nat) (pre rest : List Val)
    (st : St) (hpre : ∀ p ∈ pre, Cached st p) :
    getModules (forceDep P) ext lvl (pre ++ rest) st =
      match getModules (forceDep P) ext lvl rest st with
      | (.ok mods, st2) => (.ok (pre.map (depInst st) ++ mods), st2)
      | (.error e, st2) => (.error e, st2) := by
  induction pre with
  | nil =>
    simp only [List.nil_append, List.map_nil]
    rcases getModules (forceDep P) ext lvl rest st with ⟨r, st2⟩
    cases r <;> rfl
  | cons p pre ih =>
    obtain ⟨q, w, hp, hw, hi⟩ := hpre p (List.mem_cons_self _ _)
    have ih2 := ih (fun x hx => hpre x (List.mem_cons_of_mem _ hx))
    subst hp
    have hown : hasOwn q st.modules = true := by simp [hasOwn, hw]
    have hf : forceDep P q lvl st = (.ok w.inst, st) := getInstance_cached P hw hi _
    rw [List.cons_append]
    simp only [getModules, hown, if_true, hf]
    rw [ih2]
    simp only [List.map_cons, depInst, hw, List.cons_append]
    rcases getModules (forceDep P) ext lvl rest st with ⟨r, st2⟩
    cases r <;> rfl

theorem stuck_getInstance (P : Prog) (n : String) (rl : Option Nat) (st : St)
    (S : String → Prop) (hS : Stuck P st S) (hn : S n) :
    getInstance P n rl st = (.error (.error "Loop in module dependencies detected"), st) := by
  revert S
  refine getInstance_induction P
    (fun n rl st res => ∀ S : String → Prop, Stuck P st S → S n →
      res = (.error (.error "Loop in module dependencies detected"), st)) ?_ n rl st
  intro n rl st ih S hS hn
  obtain ⟨w, f, pre, d, post, hw, hi, hdecl, hpre, hd⟩ := hS n hn
  unfold getInstanceBody
  simp only [hw, hi, Bool.false_eq_true, if_false]
  rw [resolve_eq]
  by_cases hl : nextLevel rl > 1000
  · simp only [hl, if_true]
  · simp only [hl, if_false, hdecl]
    unfold resolveRun
    rw [getModules_cached_pre P [] _ pre _ st hpre]
    obtain ⟨wd, _, _, _, _, hwd, _⟩ := hS d hd
    have hown : hasOwn d st.modules = true := by simp [hasOwn, hwd]
    have hf := ih (by omega) d st S hS hd
    simp only [getModules, hown, if_true, hf]

theorem Grows.grefl (st : St) : Grows st st := ⟨rfl, fun _ _ h _ => h⟩

theorem Grows.gtrans {a b c : St} (h1 : Grows a b) (h2 : Grows b c) : Grows a c :=
  ⟨h2.shape.trans h1.shape, fun n w hw hi => h2.kept n w (h1.kept n w hw hi) hi⟩

theorem Grows.of_modules_eq {a b : St} (h : b.modules = a.modules) : Grows a b :=
  ⟨by rw [h], fun _ _ hw _ => by rw [h]; exact hw⟩

theorem Grows.hasOwn {a b : St} (h : Grows a b) (n : String) :
    hasOwn n b.modules = hasOwn n a.modules := hasOwn_of_forget h.shape n

theorem Grows.cached {a b : St} (h : Grows a b) {p : Val} (hp : Cached a p) : Cached b p := by
  obtain ⟨q, w, hq, hw, hi⟩ := hp
  exact ⟨q, w, hq, h.kept q w hw hi, hi⟩

theorem Grows.guninst {a b : St} (h : Grows a b) {n : String}
    (hn : isInstanciated b n = false) : isInstanciated a n = false := by
  unfold isInstanciated at hn ⊢
  cases hw : a.modules.lookup n with
  | none => rfl
  | some w =>
    cases hi : isObject w.inst with
    | false => exact hi
    | true =>
      rw [h.kept n w hw hi] at hn
      simp only [hi] at hn
      cases hn

theorem isInstanciated_false_of_lookup {st : St} {n : String} {w : Wrapper}
    (hw : st.modules.lookup n = some w) (hi : isObject w.inst = false) :
    isInstanciated st n = false := by
  simp only [isInstanciated, hw, hi]

theorem isInstanciated_setInstance_ne {s s2 : St} {n d : String} {obj : Val} (hne : n ≠ d)
    (h : s2.modules = setInstance d obj s.modules) :
    isInstanciated s2 n = isInstanciated s n := by
  simp only [isInstanciated, h, lookup_setInstance, hne, if_false]
  cases s.modules.lookup n <;> rfl

theorem Waits.mono {P : Prog} {st : St} {S T : String → Prop} {n : String}
    (h : Waits P st S n) (hST : ∀ x, S x → T x) : Waits P st T n := by
  obtain ⟨w, f, pre, d, post, hw, hi, hdecl, hpre, hd⟩ := h
  exact ⟨w, f, pre, d, post, hw, hi, hdecl, hpre, hST d hd⟩

theorem Waits.wgrows {P : Prog} {st st2 : St} {S : String → Prop} {n : String}
    (h : Waits P st S n) (hg : Grows st st2) (hn : isInstanciated st2 n = false) :
    Waits P st2 S n := by
  obtain ⟨w, f, pre, d, post, hw, hi, hdecl, hpre, hd⟩ := h
  obtain ⟨w2, hw2, _, hc, _⟩ := lookup_of_forget hg.shape hw
  refine ⟨w2, f, pre, d, post, hw2, ?_, ?_, fun p hp => hg.cached (hpre p hp), hd⟩
  · simpa [isInstanciated, hw2] using hn
  · rw [hc]
    exact declaration_heap hdecl _

theorem Waits.wuninst {P : Prog} {st : St} {S : String → Prop} {n : String}
    (h : Waits P st S n) : isInstanciated st n = false := by
  obtain ⟨w, _, _, _, _, hw, hi, _⟩ := h
  exact isInstanciated_false_of_lookup hw hi

theorem PostL.sameL (T : String → Prop) (ext : Props) (ds : List Val) (st : St)
    (r : Except Err (List Val)) (hT : ∀ n, T n → isInstanciated st n = false)
    (hok : ∀ mods, r = .ok mods → List.Forall₂ (ResolvedTo st st ext) ds mods) :
    PostL T ext ds st (r, st) :=
  ⟨Grows.grefl st, hT, ⟨[], by simp, by simp⟩, hok⟩

theorem ResolvedTo.rgrows {a b c : St} {ext : Props} {dep v : Val} (hab : Grows a b)
    (h : ResolvedTo b c ext dep v) : ResolvedTo a c ext dep v := by
  obtain ⟨q, hq, h⟩ := h
  refine ⟨q, hq, ?_⟩
  rw [hab.hasOwn q] at h
  exact h

theorem getModules_post (P : Prog) (lvl : Nat) (ext : Props) (T : String → Prop)
    (ds0 : List Val) (st0 : St)
    (ih : ∀ e s (S : String → Prop), Pending P s S e → Post S e s (forceDep P e lvl s))
    (hpend : ∀ pre e rest s, ds0 = pre ++ Val.str e :: rest →
      (∀ p ∈ pre, Cached s p ∨ ∃ q, p = Val.str q ∧ (ext.lookup q).isSome = true) →
      Grows st0 s → (∀ n, T n → isInstanciated s n = false) → Pending P s T e) :
    ∀ (rest pre : List Val) (s : St), ds0 = pre ++ rest →
      (∀ p ∈ pre, Cached s p ∨ ∃ q, p = Val.str q ∧ (ext.lookup q).isSome = true) →
      Grows st0 s → (∀ n, T n → isInstanciated s n = false) →
      PostL T ext rest s (getModules (forceDep P) ext lvl rest s) := by
  intro rest
  induction rest with
  | nil =>
    intro pre s _ _ _ hT
    exact PostL.sameL T ext [] s (.ok []) hT (fun mods h => by cases h; exact List.Forall₂.nil)
  | cons dep rest ihl =>
    intro pre s hds hpre hg hT
    have hds2 : ∀ e, dep = Val.str e → ds0 = (pre ++ [Val.str e]) ++ rest := by
      intro e he
      rw [hds, he, List.append_assoc]
      rfl
    cases dep with
    | str e =>
      simp only [getModules]
      by_cases hown : hasOwn e s.modules = true
      · simp only [hown, if_true]
        have post := ih e s T (hpend pre e rest s hds hpre hg hT)
        rcases hr : forceDep P e lvl s with ⟨r1, s1⟩
        rw [hr] at post
        cases r1 with
        | error err =>
          exact ⟨post.grows, post.pend, post.log, fun mods h => by cases h⟩
        | ok v =>
          obtain ⟨hv, w, hw, hwv⟩ := post.ok v rfl
          have hc1 : Cached s1 (Val.str e) := ⟨e, w, rfl, hw, by rw [hwv]; exact hv⟩
          have hpre1 : ∀ p ∈ pre ++ [Val.str e],
              Cached s1 p ∨ ∃ q, p = Val.str q ∧ (ext.lookup q).isSome = true := by
            intro p hp
            rcases List.mem_append.1 hp with hp | hp
            · rcases hpre p hp with h | h
              · exact Or.inl (post.grows.cached h)
              · exact Or.inr h
            · rw [List.mem_singleton.1 hp]
              exact Or.inl hc1
          have postl := ihl (pre ++ [Val.str e]) s1 (hds2 e rfl) hpre1
            (hg.gtrans post.grows) post.pend
          show PostL T ext _ s (match getModules (forceDep P) ext lvl rest s1 with
            | (.ok mods, st2) => (.ok (v :: mods), st2)
            | (.error e, st2) => (.error e, st2))
          rcases hr2 : getModules (forceDep P) ext lvl rest s1 with ⟨r2, s2⟩
          rw [hr2] at postl
          obtain ⟨l1, hl1, hl1e⟩ := post.log
          obtain ⟨l2, hl2, hl2e⟩ := postl.log
          have hlog : ∃ l, s2.log = s.log ++ l ∧
              ∀ ev ∈ l, ∃ n, ev.who = .ctor n ∧ ¬ T n ∧ isInstanciated s n = false := by
            refine ⟨l1 ++ l2, ?_, ?_⟩
            · show s2.log = _
              have h2 : s2.log = s1.log ++ l2 := hl2
              have h1 : s1.log = s.log ++ l1 := hl1
              rw [h2, h1, List.append_assoc]
            · intro ev hev
              rcases List.mem_append.1 hev with h | h
              · exact hl1e ev h
              · obtain ⟨n, h1, h2, h3⟩ := hl2e ev h
                exact ⟨n, h1, h2, post.grows.guninst h3⟩
          cases r2 with
          | error err =>
            exact ⟨post.grows.gtrans postl.grows, postl.pend, hlog, fun mods h => by cases h⟩
          | ok mods =>
            refine ⟨post.grows.gtrans postl.grows, postl.pend, hlog, ?_⟩
            intro mods2 hm
            cases hm
            refine List.Forall₂.cons ?_ ?_
            · refine ⟨e, rfl, Or.inl ⟨hown, postl.grows.cached hc1, ?_⟩⟩
              have hw2 : s2.modules.lookup e = some w :=
                postl.grows.kept e w hw (by rw [hwv]; exact hv)
              simp only [depInst, hw2, hwv]
            · exact List.Forall₂.imp
                (fun a b h => ResolvedTo.rgrows post.grows h) (postl.ok mods rfl)
      · simp only [hown, Bool.false_eq_true, if_false]
        have hown2 : hasOwn e s.modules = false := by simpa using hown
        cases hx : ext.lookup e with
        | none =>
          exact PostL.sameL T ext _ s _ hT (fun mods h => by cases h)
        | some v =>
          simp only
          have hpre1 : ∀ p ∈ pre ++ [Val.str e],
              Cached s p ∨ ∃ q, p = Val.str q ∧ (ext.lookup q).isSome = true := by
            intro p hp
            rcases List.mem_append.1 hp with hp | hp
            · exact hpre p hp
            · rw [List.mem_singleton.1 hp]
              exact Or.inr ⟨e, rfl, by simp [hx]⟩
          have postl := ihl (pre ++ [Val.str e]) s (hds2 e rfl) hpre1 hg hT
          show PostL T ext _ s (match getModules (forceDep P) ext lvl rest s with
            | (.ok mods, st2) => (.ok (v :: mods), st2)
            | (.error e, st2) => (.error e, st2))
          rcases hr2 : getModules (forceDep P) ext lvl rest s with ⟨r2, s2⟩
          rw [hr2] at postl
          cases r2 with
          | error err =>
            exact ⟨postl.grows, postl.pend, postl.log, fun mods h => by cases h⟩
          | ok mods =>
            refine ⟨postl.grows, postl.pend, postl.log, ?_⟩
            intro mods2 hm
            cases hm
            exact List.Forall₂.cons ⟨e, rfl, Or.inr ⟨hown2, hx⟩⟩ (postl.ok mods rfl)
    | _ =>
      exact PostL.sameL T ext _ s _ hT (fun mods h => by cases h)

theorem Post.sameP (S : String → Prop) (d : String) (st : St) (r : Except Err Val)
    (hS : ∀ n, S n → isInstanciated st n = false)
    (hok : ∀ v, r = .ok v → isObject v = true ∧
      ∃ w, st.modules.lookup d = some w ∧ w.inst = v) :
    Post S d st (r, st) := by
  refine ⟨Grows.grefl st, hS, ⟨[], by simp, by simp⟩, hok, ?_, fun _ _ h => h⟩
  intro v hv hun
  obtain ⟨hv1, w, hw, hwv⟩ := hok v hv
  simp [isInstanciated, hw, hwv, hv1] at hun

theorem calls_append (who : Label) (l1 l2 : List Event) :
    calls who (l1 ++ l2) = calls who l1 + calls who l2 := by
  simp [calls, List.countP_append]

theorem calls_eq_zero (who : Label) (l : List Event) (h : ∀ e ∈ l, e.who ≠ who) :
    calls who l = 0 := by
  simp only [calls, List.countP_eq_zero]
  intro e he
  simpa using h e he

/-- The state after the constructor of `d` has been called, on top of the
state `s1` reached by fetching its dependencies. -/
theorem post_after_call {S : String → Prop} {d : String} {st s1 t : St} {ds : List Val}
    {r1 : Except Err (List Val)} {ev : Event}
    (postl : PostL (fun x => x = d ∨ S x) [] ds st (r1, s1)) (hSd : ¬ S d)
    (hun : isInstanciated st d = false)
    (hm : t.modules = s1.modules) (hlog : t.log = s1.log ++ [ev]) (hev : ev.who = .ctor d) :
    Grows st t ∧ (∀ n, (n = d ∨ S n) → isInstanciated t n = false) ∧
      (∃ l, t.log = st.log ++ l ∧
        ∀ e ∈ l, ∃ n, e.who = .ctor n ∧ ¬ S n ∧ isInstanciated st n = false) ∧
      calls (.ctor d) t.log = calls (.ctor d) st.log + 1 := by
  obtain ⟨l1, hl1, hl1e⟩ := postl.log
  have hl1' : s1.log = st.log ++ l1 := hl1
  have hg : Grows s1 t := Grows.of_modules_eq hm
  refine ⟨postl.grows.gtrans hg, ?_, ⟨l1 ++ [ev], ?_, ?_⟩, ?_⟩
  · intro n hn
    have := postl.pend n hn
    simpa [isInstanciated, hm] using this
  · rw [hlog, hl1', List.append_assoc]
  · intro e he
    rcases List.mem_append.1 he with h | h
    · obtain ⟨n, h1, h2, h3⟩ := hl1e e h
      exact ⟨n, h1, fun hs => h2 (Or.inr hs), h3⟩
    · rw [List.mem_singleton.1 h]
      exact ⟨d, hev, hSd, hun⟩
  · rw [hlog, hl1', calls_append, calls_append]
    have h0 : calls (.ctor d) l1 = 0 := by
      apply calls_eq_zero
      intro e he heq
      obtain ⟨n, h1, h2, _⟩ := hl1e e he
      rw [h1] at heq
      cases heq
      exact h2 (Or.inl rfl)
    have h1 : calls (.ctor d) [ev] = 1 := by simp [calls, hev]
    rw [h0, h1]

/-- The main invariant of the resolver: forcing a module keeps every
registration and every cached instance, never completes a module that is
under construction, calls only constructors of modules that were not
instantiated, and calls the constructor of the forced module exactly once
when it has to build it. -/
theorem getInstance_post (P : Prog) (d : String) (rl : Option Nat) (st : St)
    (S : String → Prop) (hS : Pending P st S d) : Post S d st (getInstance P d rl st) := by
  revert S
  refine getInstance_induction P
    (fun d rl st res => ∀ S : String → Prop, Pending P st S d → Post S d st res) ?_ d rl st
  intro d rl st ih S hS
  have hSun : ∀ n, S n → isInstanciated st n = false := fun n hn => (hS n hn).wuninst
  by_cases hSd : S d
  · have hstuck : Stuck P st S := fun n hn =>
      (hS n hn).mono (fun x hx => hx.elim (fun h => h ▸ hSd) id)
    rw [← getInstance_eq, stuck_getInstance P d rl st S hstuck hSd]
    exact Post.sameP S d st _ hSun (fun v h => by cases h)
  · unfold getInstanceBody
    cases hw : st.modules.lookup d with
    | none => exact Post.sameP S d st _ hSun (fun v h => by cases h)
    | some w =>
      simp only
      cases hi : isObject w.inst with
      | true =>
        simp only [if_true]
        exact Post.sameP S d st _ hSun (fun v h => by cases h; exact ⟨hi, w, hw, rfl⟩)
      | false =>
        simp only [Bool.false_eq_true, if_false]
        have hun : isInstanciated st d = false := isInstanciated_false_of_lookup hw hi
        rw [resolve_eq]
        by_cases hl : nextLevel rl > 1000
        · simp only [hl, if_true]
          exact Post.sameP S d st _ hSun (fun v h => by cases h)
        · simp only [hl, if_false]
          cases hdecl : declaration P st.heap w.constructor (.arr []) with
          | error e => exact Post.sameP S d st _ hSun (fun v h => by cases h)
          | ok fd =>
            obtain ⟨f, ds⟩ := fd
            obtain ⟨id, hf⟩ := declaration_fn hdecl
            subst hf
            have hTun : ∀ n, (n = d ∨ S n) → isInstanciated st n = false := by
              intro n hn
              rcases hn with h | h
              · rw [h]; exact hun
              · exact hSun n h
            have postl := getModules_post P (nextLevel rl) [] (fun x => x = d ∨ S x) ds st
              (fun e s S h => ih (by omega) e s S h)
              (by
                intro pre e rest s hds hpre hg hT n hn
                rcases hn with h | h
                · subst h
                  obtain ⟨w2, hw2, _, hc, _⟩ := lookup_of_forget hg.shape hw
                  refine ⟨w2, .fn id, pre, e, rest, hw2, ?_, ?_, ?_, Or.inl rfl⟩
                  · have := hT n (Or.inl rfl)
                    simpa [isInstanciated, hw2] using this
                  · rw [hc, ← hds]
                    exact declaration_heap hdecl _
                  · intro p hp
                    rcases hpre p hp with h | ⟨q, _, h⟩
                    · exact h
                    · simp at h
                · exact ((hS n h).wgrows hg (hT n (Or.inr h))).mono (fun x hx => Or.inr hx))
              ds [] st rfl (by simp) (Grows.grefl st) hTun
            simp only [resolveRun]
            rcases hr : getModules (forceDep P) [] (nextLevel rl) ds st with ⟨r1, s1⟩
            rw [hr] at postl
            cases r1 with
            | error e =>
              obtain ⟨l1, hl1, hl1e⟩ := postl.log
              refine ⟨postl.grows, fun n hn => postl.pend n (Or.inr hn), ⟨l1, hl1, ?_⟩,
                fun v h => (by cases h), fun v h => (by cases h),
                fun _ _ _ => postl.pend d (Or.inl rfl)⟩
              intro ev hev
              obtain ⟨n, h1, h2, h3⟩ := hl1e ev hev
              exact ⟨n, h1, fun hs => h2 (Or.inr hs), h3⟩
            | ok mods =>
              simp only [factory]
              rcases hcall : P.call id .undefined mods s1.heap with ⟨rc, h2⟩
              have hafter := post_after_call
                (t := { s1 with heap := h2, log := s1.log ++ [⟨.ctor d, id, .undefined, mods, ds⟩] })
                postl hSd hun rfl rfl rfl
              obtain ⟨hg2, hpend2, hlog2, hcalls2⟩ := hafter
              cases rc with
              | error e =>
                exact ⟨hg2, fun n hn => hpend2 n (Or.inr hn), hlog2, fun v h => (by cases h),
                  fun v h => (by cases h), fun _ _ _ => hpend2 d (Or.inl rfl)⟩
              | ok obj =>
                simp only
                cases ho : isObject obj with
                | false =>
                  simp only [Bool.not_false, if_true]
                  exact ⟨hg2, fun n hn => hpend2 n (Or.inr hn), hlog2, fun v h => (by cases h),
                    fun v h => (by cases h), fun _ _ _ => hpend2 d (Or.inl rfl)⟩
                | true =>
                  simp only [Bool.not_true, Bool.false_eq_true, if_false]
                  obtain ⟨w1, hw1, _⟩ := lookup_of_forget hg2.shape hw
                  refine ⟨⟨?_, ?_⟩, ?_, hlog2, ?_, fun _ _ _ => hcalls2, fun e h => by cases h⟩
                  · show forget (setInstance d obj s1.modules) = _
                    rw [forget_setInstance]
                    exact hg2.shape
                  · intro n wn hwn hin
                    show (setInstance d obj s1.modules).lookup n = _
                    rw [lookup_setInstance]
                    have hk := hg2.kept n wn hwn hin
                    have hk' : s1.modules.lookup n = some wn := hk
                    have hne : n ≠ d := by
                      intro h
                      subst h
                      rw [hw] at hwn
                      cases hwn
                      rw [hi] at hin
                      cases hin
                    simp only [hk', hne, if_false, Option.map_some']
                  · intro n hn
                    have hne : n ≠ d := fun h => hSd (h ▸ hn)
                    rw [isInstanciated_setInstance_ne (s := s1) hne rfl]
                    exact hpend2 n (Or.inr hn)
                  · intro v hv
                    cases hv
                    refine ⟨ho, { w1 with inst := obj }, ?_, rfl⟩
                    show (setInstance d obj s1.modules).lookup d = _
                    rw [lookup_setInstance]
                    have hw1' : s1.modules.lookup d = some w1 := hw1
                    simp [hw1']

/-- Nothing is under construction: the precondition of `getInstance_post`
holds trivially. -/
theorem pending_none (P : Prog) (st : St) (d : String) : Pending P st (fun _ => False) d :=
  fun _ h => h.elim

/-- The postcondition of `getModules` when nothing is under construction. -/
theorem getModules_top (P : Prog) (lvl : Nat) (ext : Props) (ds : List Val) (st : St) :
    PostL (fun _ => False) ext ds st (getModules (forceDep P) ext lvl ds st) :=
  getModules_post P lvl ext (fun _ => False) ds st
    (fun e s S h => getInstance_post P e (some lvl) s S h)
    (fun _ e _ s _ _ _ _ => pending_none P s e)
    ds [] st rfl (by simp) (Grows.grefl st) (fun _ h => h.elim)

theorem PostR.sameR (who : Label) (st : St) (r : Except Err Val) : PostR who st (r, st) :=
  ⟨Grows.grefl st, [], [], by simp, by simp, Or.inl rfl⟩

theorem resolve_post (P : Prog) (who : Label) (func deps : Val) (ext : Props) (lvl : Nat)
    (st : St) : PostR who st (resolve P (forceDep P) who func deps ext lvl st) := by
  rw [resolve_eq]
  split
  · exact PostR.sameR who st _
  · cases hdecl : declaration P st.heap func deps with
    | error e => exact PostR.sameR who st _
    | ok fd =>
      obtain ⟨f, ds⟩ := fd
      obtain ⟨id, hf⟩ := declaration_fn hdecl
      subst hf
      simp only [resolveRun]
      have postl := getModules_top P lvl ext ds st
      rcases hr : getModules (forceDep P) ext lvl ds st with ⟨r1, s1⟩
      rw [hr] at postl
      obtain ⟨l1, hl1, hl1e⟩ := postl.log
      have hl1' : s1.log = st.log ++ l1 := hl1
      cases r1 with
      | error e =>
        refine ⟨postl.grows, l1, [], by simpa using hl1', ?_, Or.inl rfl⟩
        intro e he
        obtain ⟨n, h1, _, h3⟩ := hl1e e he
        exact ⟨n, h1, h3⟩
      | ok mods =>
        simp only [factory]
        refine ⟨postl.grows.gtrans (Grows.of_modules_eq rfl), l1, [⟨who, id, .undefined, mods, ds⟩],
          ?_, ?_, Or.inr ⟨_, rfl, rfl⟩⟩
        · show s1.log ++ _ = _
          rw [hl1']
        · intro e he
          obtain ⟨n, h1, _, h3⟩ := hl1e e he
          exact ⟨n, h1, h3⟩

theorem injectorResolve_post (P : Prog) (who : Label) (func deps : Val) (ext : Props)
    (st : St) : PostR who st (injectorResolve P who func deps ext st) :=
  resolve_post P who func deps ext 0 st

theorem Keeps.krefl (st : St) : Keeps st st := fun _ _ h _ => ⟨h, rfl⟩

theorem Keeps.ktrans {a b c : St} (h1 : Keeps a b) (h2 : Keeps b c) : Keeps a c := by
  intro n w hw hi
  obtain ⟨hb, hcb⟩ := h1 n w hw hi
  obtain ⟨hc, hcc⟩ := h2 n w hb hi
  exact ⟨hc, hcc.trans hcb⟩

theorem keeps_of_log {st st2 : St} (hg : Grows st st2) {l : List Event}
    (hl : st2.log = st.log ++ l)
    (he : ∀ e ∈ l, (∀ n, e.who ≠ .ctor n) ∨ ∃ n, e.who = .ctor n ∧ isInstanciated st n = false) :
    Keeps st st2 := by
  intro n w hw hi
  refine ⟨hg.kept n w hw hi, ?_⟩
  rw [hl, calls_append, calls_eq_zero _ l, Nat.add_zero]
  intro e hel heq
  rcases he e hel with h | ⟨m, h1, h2⟩
  · exact h n heq
  · rw [h1] at heq
    cases heq
    simp [isInstanciated, hw, hi] at h2

theorem getInstance_keeps (P : Prog) (name : String) (rl : Option Nat) (st : St) :
    Keeps st (getInstance P name rl st).2 := by
  have post := getInstance_post P name rl st (fun _ => False) (pending_none P st name)
  obtain ⟨l, hl, hle⟩ := post.log
  refine keeps_of_log post.grows hl ?_
  intro e he
  obtain ⟨n, h1, _, h3⟩ := hle e he
  exact Or.inr ⟨n, h1, h3⟩

theorem injectorResolve_keeps (P : Prog) (who : Label) (hwho : ∀ n, who ≠ .ctor n)
    (func deps : Val) (ext : Props) (st : St) :
    Keeps st (injectorResolve P who func deps ext st).2 := by
  have post := injectorResolve_post P who func deps ext st
  obtain ⟨lc, lw, hl, hlc, hlw⟩ := post.log
  refine keeps_of_log (l := lc ++ lw) post.grows (by rw [hl, List.append_assoc]) ?_
  intro e he
  rcases List.mem_append.1 he with h | h
  · exact Or.inr (hlc e h)
  · rcases hlw with h0 | ⟨ev, h1, h2⟩
    · rw [h0] at h; cases h
    · rw [h1, List.mem_singleton] at h
      rw [h, h2]
      exact Or.inl hwho

/-! ## The boot sequence preserves what is cached -/

theorem forEachLoop_rel (R : St → St → Prop) (hrefl : ∀ s, R s s)
    (htrans : ∀ a b c, R a b → R b c → R a c) (callback : String → St → Res Unit)
    (hcb : ∀ n s, R s (callback n s).2) (ns : List String) (st : St) :
    R st (forEachLoop callback ns st).2 := by
  induction ns generalizing st with
  | nil => exact hrefl st
  | cons n ns ih =>
    simp only [forEachLoop]
    have h1 := hcb n st
    rcases hr : callback n st with ⟨r, s1⟩
    rw [hr] at h1
    cases r with
    | error e => exact h1
    | ok u => exact htrans _ _ _ h1 (ih s1)

theorem instanciateVisit_keeps (P : Prog) (name : String) (st : St) :
    Keeps st (instanciateVisit P name st).2 := by
  unfold instanciateVisit
  cases st.modules.lookup name with
  | none => exact Keeps.krefl st
  | some w =>
    simp only
    split
    · have h := getInstance_keeps P name none st
      rcases hr : getInstance P name none st with ⟨r, s1⟩
      rw [hr] at h
      cases r <;> exact h
    · exact Keeps.krefl st

theorem execStepVisit_keeps (P : Prog) (step name : String) (st : St) :
    Keeps st (execStepVisit P step name st).2 := by
  unfold execStepVisit
  cases st.modules.lookup name with
  | none => exact Keeps.krefl st
  | some w =>
    simp only
    split
    · have h := getInstance_keeps P name none st
      rcases hr : getInstance P name none st with ⟨r, s1⟩
      rw [hr] at h
      cases r with
      | error e => exact h
      | ok obj =>
        cases obj with
        | obj a =>
          simp only
          cases (s1.heap.getD a []).lookup step with
          | none => exact h
          | some m =>
            simp only
            have h2 := injectorResolve_keeps P (.phase step name) (fun n hn => by cases hn)
              m .undefined [] s1
            rcases hr2 : injectorResolve P (.phase step name) m .undefined [] s1 with ⟨r2, s2⟩
            rw [hr2] at h2
            cases r2 <;> exact h.ktrans h2
        | _ => exact h
    · exact Keeps.krefl st

theorem instanciate_keeps (P : Prog) (st : St) : Keeps st (instanciate P st).2 :=
  forEachLoop_rel Keeps Keeps.krefl (fun _ _ _ => Keeps.ktrans) _
    (instanciateVisit_keeps P) _ st

theorem execStep_keeps (P : Prog) (step : String) (st : St) :
    Keeps st (execStep P step st).2 :=
  forEachLoop_rel Keeps Keeps.krefl (fun _ _ _ => Keeps.ktrans) _
    (execStepVisit_keeps P step) _ st

theorem boot_keeps (P : Prog) (st : St) : Keeps st (boot P st).2 := by
  unfold boot
  have h1 := instanciate_keeps P st
  rcases hr1 : instanciate P st with ⟨r1, s1⟩
  rw [hr1] at h1
  cases r1 with
  | error e => exact h1
  | ok u =>
    simp only
    have h2 := execStep_keeps P "$init" s1
    rcases hr2 : execStep P "$init" s1 with ⟨r2, s2⟩
    rw [hr2] at h2
    cases r2 with
    | error e => exact h1.ktrans h2
    | ok u =>
      simp only
      have h3 := execStep_keeps P "$build" s2
      rcases hr3 : execStep P "$build" s2 with ⟨r3, s3⟩
      rw [hr3] at h3
      cases r3 with
      | error e => exact (h1.ktrans h2).ktrans h3
      | ok u => exact ((h1.ktrans h2).ktrans h3).ktrans (execStep_keeps P "$final" s3)

theorem lookup_append_of_hasOwn {ms : List (String × Wrapper)} {n : String} {w : Wrapper}
    (h : ms.lookup n = some w) (extra : List (String × Wrapper)) :
    (ms ++ extra).lookup n = some w := by
  induction ms with
  | nil => cases h
  | cons p ms ih =>
    obtain ⟨k, v⟩ := p
    simp only [List.cons_append, List.lookup_cons] at h ⊢
    cases hk : n == k
    · rw [hk] at h
      exact ih h
    · rw [hk] at h
      exact h

theorem module_keeps (name constructor loadOnStartup : Val) (st : St) :
    Keeps st (module name constructor loadOnStartup st).2 := by
  unfold module
  cases name with
  | str n =>
    simp only
    split
    · exact Keeps.krefl st
    · unfold register addModule
      split
      · exact Keeps.krefl st
      · intro m w hw _
        exact ⟨lookup_append_of_hasOwn hw _, rfl⟩
  | _ => exact Keeps.krefl st

theorem Step.skeeps {P : Prog} {a b : St} (h : Step P a b) : Keeps a b := by
  cases h with
  | force name rl => exact getInstance_keeps P name rl a
  | resolve who hwho func deps ext => exact injectorResolve_keeps P who hwho func deps ext a
  | boot => exact boot_keeps P a
  | module name c l => exact module_keeps name c l a

theorem Steps.allKeeps {P : Prog} {a b : St} (h : Steps P a b) : Keeps a b := by
  induction h with
  | refl => exact Keeps.krefl _
  | tail _ hs ih => exact ih.ktrans hs.skeeps

/-! ## Singleton behaviour of the wrapper -/

/-- Singleton behaviour when module code does not call the container (for
module code that does, see `namespace Reentrant`): once forcing a module that
was not instantiated has succeeded with the object `v`, then after any number
of further uses of the container (forcing modules, resolving, booting,
registering) forcing it again returns the identical object `v` and changes
nothing, every dependent that names it receives `v`, and the constructor of
the module has been called exactly once since before the first forcing. -/
theorem singleton_idempotence (P : Prog) (name : String) (rl : Option Nat) (st st1 st2 : St)
    (v : Val) (hun : isInstanciated st name = false)
    (h1 : getInstance P name rl st = (.ok v, st1)) (hs : Steps P st1 st2) :
    isObject v = true ∧
      (∀ rl2, getInstance P name rl2 st2 = (.ok v, st2)) ∧
      (∀ lvl ext ds mods st3, getModules (forceDep P) ext lvl ds st2 = (.ok mods, st3) →
        List.Forall₂ (fun dep a => dep = Val.str name → a = v) ds mods) ∧
      calls (.ctor name) st2.log = calls (.ctor name) st.log + 1 := by
  have post := getInstance_post P name rl st (fun _ => False) (pending_none P st name)
  rw [h1] at post
  obtain ⟨hv, w, hw, hwv⟩ := post.ok v rfl
  have hcalls := post.once v rfl hun
  have hwi : isObject w.inst = true := by rw [hwv]; exact hv
  obtain ⟨hw2, hc2⟩ := hs.allKeeps name w hw hwi
  refine ⟨hv, ?_, ?_, ?_⟩
  · intro rl2
    rw [getInstance_cached P hw2 hwi rl2, hwv]
  · intro lvl ext ds mods st3 hm
    have postl := getModules_top P lvl ext ds st2
    rw [hm] at postl
    refine List.Forall₂.imp ?_ (postl.ok mods rfl)
    intro dep a hr hdep
    subst hdep
    obtain ⟨q, hq, hcase⟩ := hr
    cases hq
    rcases hcase with ⟨_, _, hinst⟩ | ⟨hno, _⟩
    · have hw3 : st3.modules.lookup name = some w := postl.grows.kept name w hw2 hwi
      simp only [depInst, hw3] at hinst
      rw [← hinst, hwv]
    · simp [hasOwn, hw2] at hno
  · rw [hc2]
    exact hcalls

theorem singleton_idempotence_witness :
    isObject (.obj 1) = true ∧
      (∀ rl2, getInstance exampleProg "low" rl2
          (boot exampleProg (getInstance exampleProg "low" none exampleReg).2).2 =
        (.ok (.obj 1), (boot exampleProg (getInstance exampleProg "low" none exampleReg).2).2)) ∧
      (∀ lvl ext ds mods st3,
        getModules (forceDep exampleProg) ext lvl ds
            (boot exampleProg (getInstance exampleProg "low" none exampleReg).2).2 =
          (.ok mods, st3) →
        List.Forall₂ (fun dep a => dep = Val.str "low" → a = .obj 1) ds mods) ∧
      calls (.ctor "low")
          (boot exampleProg (getInstance exampleProg "low" none exampleReg).2).2.log =
        calls (.ctor "low") exampleReg.log + 1 :=
  singleton_idempotence exampleProg "low" none exampleReg
    (getInstance exampleProg "low" none exampleReg).2
    (boot exampleProg (getInstance exampleProg "low" none exampleReg).2).2 (.obj 1) rfl rfl
    (Steps.tail (Steps.refl _) (Step.boot _))

/-! ## C2: cycle detection -/

/-- C2 (as stated, refuted). The module `a` declares `['nope', 'a']`, so its
declared dependencies lead back to itself; forcing it fails, but with the
error of the missing dependency `nope`, not with the loop error. -/
theorem cycle_not_always_loop_error :
    (selfAfterMissingReg.modules.lookup "a").map (fun w => w.constructor) =
        some (.arr [.str "nope", .str "a", .fn 0]) ∧
      (getInstance exampleProg "a" none selfAfterMissingReg).1 =
        .error (.error "Dependency module nope not found !") ∧
      (getInstance exampleProg "a" none selfAfterMissingReg).1 ≠
        .error (.error "Loop in module dependencies detected") := by
  refine ⟨rfl, rfl, ?_⟩
  rw [show (getInstance exampleProg "a" none selfAfterMissingReg).1 =
    .error (.error "Dependency module nope not found !") from rfl]
  intro h
  simp at h

theorem mutualReg_stuck : Stuck exampleProg mutualReg (fun x => x = "a" ∨ x = "b") := by
  intro n hn
  rcases hn with h | h
  · subst h
    exact ⟨⟨"a", .arr [.str "$injector", .str "b", .fn 0], .bool true, .undefined⟩, .fn 0,
      [.str "$injector"], "b", [], rfl, rfl, rfl,
      fun p hp => (by
        rw [List.mem_singleton.1 hp]
        exact ⟨"$injector", ⟨"$injector", .null, .bool false, .obj 0⟩, rfl, rfl, rfl⟩),
      Or.inr rfl⟩
  · subst h
    exact ⟨⟨"b", .arr [.str "a", .fn 0], .bool false, .undefined⟩, .fn 0,
      [], "a", [], rfl, rfl, rfl, fun p hp => (by cases hp), Or.inl rfl⟩

/-! ## C3, C4, C10: the resolver -/

theorem getModules_append (force : String → Nat → St → Res Val) (ext : Props) (lvl : Nat)
    (pre rest : List Val) (st : St) :
    getModules force ext lvl (pre ++ rest) st =
      match getModules force ext lvl pre st with
      | (.ok vs, s1) =>
        match getModules force ext lvl rest s1 with
        | (.ok ws, s2) => (.ok (vs ++ ws), s2)
        | (.error e, s2) => (.error e, s2)
      | (.error e, s1) => (.error e, s1) := by
  induction pre generalizing st with
  | nil =>
    simp only [List.nil_append, getModules]
    rcases getModules force ext lvl rest st with ⟨r, s2⟩
    cases r <;> rfl
  | cons dep pre ih =>
    rw [List.cons_append]
    cases dep with
    | str d =>
      simp only [getModules]
      split
      · rcases force d lvl st with ⟨r1, s1⟩
        cases r1 with
        | error e => rfl
        | ok v =>
          simp only [ih]
          rcases getModules force ext lvl pre s1 with ⟨r2, s2⟩
          cases r2 with
          | error e => rfl
          | ok vs =>
            simp only
            rcases getModules force ext lvl rest s2 with ⟨r3, s3⟩
            cases r3 <;> rfl
      · cases ext.lookup d with
        | none => rfl
        | some v =>
          simp only [ih]
          rcases getModules force ext lvl pre st with ⟨r2, s2⟩
          cases r2 with
          | error e => rfl
          | ok vs =>
            simp only
            rcases getModules force ext lvl rest s2 with ⟨r3, s3⟩
            cases r3 <;> rfl
    | _ => rfl

/-- C3. Missing dependency: when the declaration handed to `resolve` lists
the names `pre ++ d :: post`, the names of `pre` resolve (reaching the state
`s1`), and `d` is neither a registered module nor a key of the external map,
`resolve` fails with the error `Dependency module d not found !` in the state
`s1`: nothing is executed after the names of `pre` have been fetched, so the
function itself is not called (no call from the call site `who` is added to
the trace when `who` is not a constructor site). -/
theorem missing_dependency (P : Prog) (who : Label) (func deps f : Val) (ext : Props)
    (lvl : Nat) (st s1 : St) (pre post vs : List Val) (d : String) (hl : lvl ≤ 1000)
    (hdecl : declaration P st.heap func deps = .ok (f, pre ++ Val.str d :: post))
    (hpre : getModules (forceDep P) ext lvl pre st = (.ok vs, s1))
    (hreg : hasOwn d st.modules = false) (hext : ext.lookup d = none) :
    resolve P (forceDep P) who func deps ext lvl st =
        (.error (.error ("Dependency module " ++ d ++ " not found !")), s1) ∧
      ((∀ n, who ≠ .ctor n) →
        calls who (resolve P (forceDep P) who func deps ext lvl st).2.log = calls who st.log) := by
  have postl := getModules_top P lvl ext pre st
  rw [hpre] at postl
  have hreg1 : hasOwn d s1.modules = false := by
    rw [postl.grows.hasOwn d]
    exact hreg
  have hres : resolve P (forceDep P) who func deps ext lvl st =
      (.error (.error ("Dependency module " ++ d ++ " not found !")), s1) := by
    rw [resolve_eq]
    have hl2 : ¬ lvl > 1000 := by omega
    simp only [hl2, if_false, hdecl, resolveRun]
    rw [getModules_append, hpre]
    simp only [getModules, hreg1, Bool.false_eq_true, if_false, hext]
  refine ⟨hres, ?_⟩
  intro hwho
  rw [hres]
  obtain ⟨l, hlog, hle⟩ := postl.log
  show calls who s1.log = _
  rw [show s1.log = st.log ++ l from hlog, calls_append, calls_eq_zero who l, Nat.add_zero]
  intro e he heq
  obtain ⟨n, h1, _, _⟩ := hle e he
  rw [h1] at heq
  exact hwho n heq.symm

theorem missing_dependency_witness :
    resolve exampleProg (forceDep exampleProg) .direct
        (.arr [.str "low", .str "nope", .fn 1]) .undefined [] 0 exampleReg =
        (.error (.error ("Dependency module " ++ "nope" ++ " not found !")),
          (getInstance exampleProg "low" (some 0) exampleReg).2) ∧
      ((∀ n, Label.direct ≠ .ctor n) →
        calls .direct (resolve exampleProg (forceDep exampleProg) .direct
          (.arr [.str "low", .str "nope", .fn 1]) .undefined [] 0 exampleReg).2.log =
          calls .direct exampleReg.log) :=
  missing_dependency exampleProg .direct (.arr [.str "low", .str "nope", .fn 1]) .undefined (.fn 1)
    [] 0 exampleReg (getInstance exampleProg "low" (some 0) exampleReg).2 [.str "low"] []
    [.obj 1] "nope" (by decide) rfl rfl rfl rfl

/-- C4. Positional resolution: when the declaration handed to `resolve`
names `ds` and these names resolve to `mods` (reaching the state `s1`),
`resolve` calls the function once, after the dependencies, with exactly the
arguments `mods` in declared order, and returns its result unchanged; each
argument is the instance cached in the registry under the declared name when
the registry has a module of that name, and otherwise the value bound to the
name in the external map. -/
theorem positional_resolution (P : Prog) (who : Label) (func deps : Val) (f : Nat)
    (ext : Props) (lvl : Nat) (st s1 : St) (ds mods : List Val) (hl : lvl ≤ 1000)
    (hdecl : declaration P st.heap func deps = .ok (.fn f, ds))
    (hmods : getModules (forceDep P) ext lvl ds st = (.ok mods, s1)) :
    resolve P (forceDep P) who func deps ext lvl st =
        ((P.call f .undefined mods s1.heap).1,
          { s1 with heap := (P.call f .undefined mods s1.heap).2,
                    log := s1.log ++ [⟨who, f, .undefined, mods, ds⟩] }) ∧
      List.Forall₂ (ResolvedTo st s1 ext) ds mods ∧
      ((∀ n, who ≠ .ctor n) →
        calls who (resolve P (forceDep P) who func deps ext lvl st).2.log =
          calls who st.log + 1) := by
  have postl := getModules_top P lvl ext ds st
  rw [hmods] at postl
  have hres : resolve P (forceDep P) who func deps ext lvl st =
      ((P.call f .undefined mods s1.heap).1,
        { s1 with heap := (P.call f .undefined mods s1.heap).2,
                  log := s1.log ++ [⟨who, f, .undefined, mods, ds⟩] }) := by
    rw [resolve_eq]
    have hl2 : ¬ lvl > 1000 := by omega
    simp only [hl2, if_false, hdecl, resolveRun, hmods, factory]
  refine ⟨hres, postl.ok mods rfl, ?_⟩
  intro hwho
  rw [hres]
  obtain ⟨l, hlog, hle⟩ := postl.log
  show calls who (s1.log ++ _) = _
  rw [show s1.log = st.log ++ l from hlog, calls_append, calls_append, calls_eq_zero who l]
  · simp [calls]
  · intro e he heq
    obtain ⟨n, h1, _, _⟩ := hle e he
    rw [h1] at heq
    exact hwho n heq.symm

theorem positional_resolution_witness :
    resolve exampleProg (forceDep exampleProg) .direct (.arr [.str "low", .fn 1]) .undefined
        [("low", .num 7)] 0 exampleReg =
        ((exampleProg.call 1 .undefined [.obj 1]
            (getInstance exampleProg "low" (some 0) exampleReg).2.heap).1,
          { (getInstance exampleProg "low" (some 0) exampleReg).2 with
            heap := (exampleProg.call 1 .undefined [.obj 1]
              (getInstance exampleProg "low" (some 0) exampleReg).2.heap).2,
            log := (getInstance exampleProg "low" (some 0) exampleReg).2.log ++
              [⟨.direct, 1, .undefined, [.obj 1], [.str "low"]⟩] }) ∧
      List.Forall₂ (ResolvedTo exampleReg (getInstance exampleProg "low" (some 0) exampleReg).2
        [("low", .num 7)]) [.str "low"] [.obj 1] ∧
      ((∀ n, Label.direct ≠ .ctor n) →
        calls .direct (resolve exampleProg (forceDep exampleProg) .direct
          (.arr [.str "low", .fn 1]) .undefined [("low", .num 7)] 0 exampleReg).2.log =
          calls .direct exampleReg.log + 1) :=
  positional_resolution exampleProg .direct (.arr [.str "low", .fn 1]) .undefined 1
    [("low", .num 7)] 0 exampleReg (getInstance exampleProg "low" (some 0) exampleReg).2
    [.str "low"] [.obj 1] (by decide) rfl rfl

/-- C10. Declaration-form equivalence: for a function `f` whose attached
list `f.$inject` is the array `ds`, resolving `f` itself and resolving the
array `[ds..., f]` against the same registry, external map and depth are the
same computation: the same result or error, the same arguments (recorded in
the trace) and the same final state. -/
theorem declaration_form_equivalence (P : Prog) (force : String → Nat → St → Res Val)
    (who : Label) (f : Nat) (ds : List Val) (deps1 deps2 : Val) (ext : Props) (lvl : Nat)
    (st : St) (hinj : P.inject f = some (.arr ds)) :
    resolve P force who (.fn f) deps1 ext lvl st =
      resolve P force who (.arr (ds ++ [.fn f])) deps2 ext lvl st := by
  have h1 : (ds ++ [Val.fn f]).getLast? = some (Val.fn f) := by simp
  have h2 : (ds ++ [Val.fn f]).dropLast = ds := by simp
  simp only [resolve_eq, declaration, ownInject, hinj, isArray, h1, h2, isFunction,
    Option.getD_some, Bool.not_true, Bool.false_eq_true, if_false]

theorem declaration_form_equivalence_witness :
    resolve exampleProg (forceDep exampleProg) .direct (.fn 3) .undefined [] 0 exampleReg =
      resolve exampleProg (forceDep exampleProg) .direct (.arr ([.str "low"] ++ [.fn 3])) .undefined
        [] 0 exampleReg :=
  declaration_form_equivalence exampleProg (forceDep exampleProg) .direct 3 [.str "low"] .undefined
    .undefined [] 0 exampleReg rfl

/-! ## C7: the worked example -/

/-- C7 (as stated, refuted). In the worked example boot does not leave
`seen = true` on the instance of `high` (the object at address `2`): the
instance has no property `seen`, and boot ends with the `TypeError` raised by
the initialization method. -/
theorem worked_example_seen_not_set :
    ((boot exampleProg exampleReg).2.modules.lookup "high").map (fun w => w.inst) =
        some (.obj 2) ∧
      (((boot exampleProg exampleReg).2.heap.getD 2 []).lookup "seen") ≠ some (.bool true) ∧
      (boot exampleProg exampleReg).1 ≠ .ok () := by
  refine ⟨rfl, ?_, ?_⟩
  · rw [show ((boot exampleProg exampleReg).2.heap.getD 2 []).lookup "seen" = none from rfl]
    intro h
    cases h
  · rw [show (boot exampleProg exampleReg).1 = .error .typeError from rfl]
    intro h
    cases h

/-- C7 (amended). In the worked example, when boot has run, the instance of
`high` has `value = 2` and `low` is instantiated; the initialization method
of `high` has been called once, with the receiver `undefined` (as `factory`
does for every function, whatever the call site), so it has not set `seen` on
the instance of `high`: as strict-mode code it raises a `TypeError`, which
ends boot. -/
theorem worked_example :
    ((boot exampleProg exampleReg).2.modules.lookup "high").map (fun w => w.inst) =
        some (.obj 2) ∧
      ((boot exampleProg exampleReg).2.heap.getD 2 []).lookup "value" = some (.num 2) ∧
      isInstanciated (boot exampleProg exampleReg).2 "low" = true ∧
      (boot exampleProg exampleReg).2.log.getLast? =
        some ⟨.phase "$init" "high", 2, .undefined, [], []⟩ ∧
      calls (.phase "$init" "high") (boot exampleProg exampleReg).2.log = 1 ∧
      ((boot exampleProg exampleReg).2.heap.getD 2 []).lookup "seen" = none ∧
      (boot exampleProg exampleReg).1 = .error .typeError ∧
      (∀ (P : Prog) (who : Label) (ds : List Val) (f : Nat) (mods : List Val) (st : St),
        (factory P who ds (.fn f) mods st).1 = (P.call f .undefined mods st.heap).1) :=
  ⟨rfl, rfl, rfl, rfl, rfl, rfl, rfl, fun _ _ _ _ _ _ => rfl⟩

/-! ## C8, C9: registration -/

/-- Registration in the registry read as a map (see `Plain.module` for the
names `hasOwnProperty` and `__proto__`): `module(name, constructor, loadOnStartup)`
fails exactly when `name` is not a non-empty string (with the error
`Module name must be a string`) or a module is already registered under
`name` (with the error `Module name is already registered`), which includes
the self-registered `$injector`; a failed registration leaves the whole state,
hence the registry, unchanged. -/
theorem registration_failure (name constructor loadOnStartup : Val) (st : St) :
    ((module name constructor loadOnStartup st).1 ≠ .ok () ↔
        ((¬ ∃ n, name = .str n ∧ n ≠ "") ∨ ∃ n, name = .str n ∧ hasOwn n st.modules = true)) ∧
      ((¬ ∃ n, name = .str n ∧ n ≠ "") →
        (module name constructor loadOnStartup st).1 =
          .error (.error "Module name must be a string")) ∧
      (∀ n, name = .str n → n ≠ "" → hasOwn n st.modules = true →
        (module name constructor loadOnStartup st).1 =
          .error (.error ("Module " ++ n ++ " is already registered"))) ∧
      ((module name constructor loadOnStartup st).1 ≠ .ok () →
        (module name constructor loadOnStartup st).2 = st) ∧
      module (.str "$injector") constructor loadOnStartup init =
        (.error (.error "Module $injector is already registered"), init) := by
  refine ⟨?_, ?_, ?_, ?_, rfl⟩
  · cases name with
    | str n =>
      by_cases hn : n = ""
      · subst hn
        simp [module]
      · by_cases ho : hasOwn n st.modules = true
        · simp [module, register, addModule, hn, ho]
        · simp [module, register, addModule, hn, ho]
    | _ => simp [module]
  · intro h
    cases name with
    | str n =>
      by_cases hn : n = ""
      · subst hn
        simp [module]
      · exact absurd ⟨n, rfl, hn⟩ h
    | _ => simp [module]
  · intro n hname hn ho
    subst hname
    simp [module, register, addModule, hn, ho]
  · intro h
    cases name with
    | str n =>
      by_cases hn : n = ""
      · subst hn
        simp [module]
      · by_cases ho : hasOwn n st.modules = true
        · simp [module, register, addModule, hn, ho]
        · simp [module, register, addModule, hn, ho] at h
    | _ => simp [module]

/-- C9. Lazy result validation: registering under a fresh, valid name
succeeds without touching the heap or the trace (the constructor is not
called) and leaves the module not instantiated; if the constructor then
returns a value `v` that is not an object, the first forcing fails with the
error `Module n constructor is not correctly defined, it must return an
object`, and the module is still not instantiated. -/
theorem lazy_result_validation (P : Prog) (n : String) (constructor loadOnStartup v : Val)
    (rl : Option Nat) (st s2 : St) (hn : n ≠ "") (hfresh : hasOwn n st.modules = false)
    (hctor : resolve P (forceDep P) (.ctor n) constructor (.arr []) [] (nextLevel rl)
      (module (.str n) constructor loadOnStartup st).2 = (.ok v, s2))
    (hv : isObject v = false) :
    (module (.str n) constructor loadOnStartup st).1 = .ok () ∧
      (module (.str n) constructor loadOnStartup st).2.heap = st.heap ∧
      (module (.str n) constructor loadOnStartup st).2.log = st.log ∧
      isInstanciated (module (.str n) constructor loadOnStartup st).2 n = false ∧
      getInstance P n rl (module (.str n) constructor loadOnStartup st).2 =
        (.error (.error ("Module " ++ n ++
          " constructor is not correctly defined, it must return an object")), s2) ∧
      isInstanciated s2 n = false := by
  have hmod : module (.str n) constructor loadOnStartup st =
      (.ok (), { st with modules := st.modules ++
        [(n, singletonFactory n constructor
          (jsOr (if isBoolean loadOnStartup then loadOnStartup else .bool true) (.bool false))
          .undefined)] }) := by
    simp [module, register, addModule, hn, hfresh]
  have hnone : st.modules.lookup n = none := by
    simpa [hasOwn] using hfresh
  have hlook : (module (.str n) constructor loadOnStartup st).2.modules.lookup n =
      some (singletonFactory n constructor
        (jsOr (if isBoolean loadOnStartup then loadOnStartup else .bool true) (.bool false))
        .undefined) := by
    rw [hmod]
    show (st.modules ++ _).lookup n = _
    rw [List.lookup_append, hnone]
    simp [List.lookup_cons]
  have hun : isInstanciated (module (.str n) constructor loadOnStartup st).2 n = false := by
    simp only [isInstanciated, hlook]
    rfl
  have hget : getInstance P n rl (module (.str n) constructor loadOnStartup st).2 =
      (.error (.error ("Module " ++ n ++
        " constructor is not correctly defined, it must return an object")), s2) := by
    rw [getInstance_eq]
    unfold getInstanceBody
    rw [hlook]
    have hi : isObject (singletonFactory n constructor
        (jsOr (if isBoolean loadOnStartup then loadOnStartup else .bool true) (.bool false))
        .undefined).inst = false := rfl
    simp only [hi, Bool.false_eq_true, if_false]
    have hc : (singletonFactory n constructor
        (jsOr (if isBoolean loadOnStartup then loadOnStartup else .bool true) (.bool false))
        .undefined).constructor = constructor := rfl
    rw [hc, hctor]
    simp only [hv, Bool.not_false, if_true]
    rfl
  have post := getInstance_post P n rl (module (.str n) constructor loadOnStartup st).2
    (fun _ => False) (pending_none P _ n)
  rw [hget] at post
  refine ⟨by rw [hmod], by rw [hmod], by rw [hmod], hun, hget, post.fail _ rfl hun⟩

theorem lazy_result_validation_witness :
    (module (.str "bad") (.fn 4) .undefined init).1 = .ok () ∧
      (module (.str "bad") (.fn 4) .undefined init).2.heap = init.heap ∧
      (module (.str "bad") (.fn 4) .undefined init).2.log = init.log ∧
      isInstanciated (module (.str "bad") (.fn 4) .undefined init).2 "bad" = false ∧
      getInstance exampleProg "bad" none (module (.str "bad") (.fn 4) .undefined init).2 =
        (.error (.error ("Module " ++ "bad" ++
          " constructor is not correctly defined, it must return an object")),
          (resolve exampleProg (forceDep exampleProg) (.ctor "bad") (.fn 4) (.arr []) [] 0
            (module (.str "bad") (.fn 4) .undefined init).2).2) ∧
      isInstanciated (resolve exampleProg (forceDep exampleProg) (.ctor "bad") (.fn 4) (.arr [])
        [] 0 (module (.str "bad") (.fn 4) .undefined init).2).2 "bad" = false :=
  lazy_result_validation exampleProg "bad" (.fn 4) .undefined (.arr []) none init
    (resolve exampleProg (forceDep exampleProg) (.ctor "bad") (.fn 4) (.arr []) [] 0
      (module (.str "bad") (.fn 4) .undefined init).2).2 (by decide) rfl rfl rfl

theorem phaseTrace_append (l1 l2 : List Event) :
    phaseTrace (l1 ++ l2) = phaseTrace l1 ++ phaseTrace l2 := by
  simp [phaseTrace, List.filterMap_append]

theorem phaseTrace_ctor (l : List Event) (h : ∀ e ∈ l, ∃ n, e.who = .ctor n) :
    phaseTrace l = [] := by
  induction l with
  | nil => rfl
  | cons e l ih =>
    obtain ⟨n, hn⟩ := h e (List.mem_cons_self _ _)
    have := ih (fun x hx => h x (List.mem_cons_of_mem _ hx))
    simp only [phaseTrace] at this ⊢
    rw [List.filterMap_cons]
    simp only [phaseOf, hn, this]

theorem keys_of_forget {ms ms2 : List (String × Wrapper)} (h : forget ms2 = forget ms) :
    ms2.map (fun p => p.1) = ms.map (fun p => p.1) := by
  have h1 : ∀ l : List (String × Wrapper), (forget l).map (fun p => p.1) = l.map (fun p => p.1) := by
    intro l
    simp [forget, List.map_map, Function.comp]
  rw [← h1 ms2, h, h1]

theorem Grows.enumKeys {a b : St} (h : Grows a b) : enumKeys b.modules = enumKeys a.modules := by
  simp only [Bambo.enumKeys, keys_of_forget h.shape]

theorem adds_same (step : String) (st : St) : Adds step [] st st :=
  ⟨Grows.grefl st, [], by simp, rfl⟩

theorem adds_trans {step : String} {m1 m2 : List String} {a b c : St}
    (h1 : Adds step m1 a b) (h2 : Adds step m2 b c) : Adds step (m1 ++ m2) a c := by
  obtain ⟨g1, l1, hl1, ht1⟩ := h1
  obtain ⟨g2, l2, hl2, ht2⟩ := h2
  refine ⟨g1.gtrans g2, l1 ++ l2, by rw [hl2, hl1, List.append_assoc], ?_⟩
  rw [phaseTrace_append, ht1, ht2, List.map_append]

theorem getInstance_adds (P : Prog) (step name : String) (rl : Option Nat) (st : St) :
    Adds step [] st (getInstance P name rl st).2 := by
  have post := getInstance_post P name rl st (fun _ => False) (pending_none P st name)
  obtain ⟨l, hl, hle⟩ := post.log
  refine ⟨post.grows, l, hl, ?_⟩
  exact phaseTrace_ctor l (fun e he => by
    obtain ⟨n, h1, _⟩ := hle e he
    exact ⟨n, h1⟩)

theorem injectorResolve_adds (P : Prog) (step name : String) (func deps : Val) (ext : Props)
    (st : St) :
    Adds step [] st (injectorResolve P (.phase step name) func deps ext st).2 ∨
      Adds step [name] st (injectorResolve P (.phase step name) func deps ext st).2 := by
  have post := injectorResolve_post P (.phase step name) func deps ext st
  obtain ⟨lc, lw, hl, hlc, hlw⟩ := post.log
  have hc : phaseTrace lc = [] := phaseTrace_ctor lc (fun e he => by
    obtain ⟨n, h1, _⟩ := hlc e he
    exact ⟨n, h1⟩)
  rcases hlw with h0 | ⟨ev, h1, h2⟩
  · left
    refine ⟨post.grows, lc ++ lw, by rw [hl, List.append_assoc], ?_⟩
    rw [phaseTrace_append, hc, h0]
    rfl
  · right
    refine ⟨post.grows, lc ++ lw, by rw [hl, List.append_assoc], ?_⟩
    rw [phaseTrace_append, hc, h1]
    simp [phaseTrace, phaseOf, h2]

theorem execStepVisit_adds (P : Prog) (step name : String) (st : St) :
    Adds step [] st (execStepVisit P step name st).2 ∨
      Adds step [name] st (execStepVisit P step name st).2 := by
  unfold execStepVisit
  cases st.modules.lookup name with
  | none => exact Or.inl (adds_same step st)
  | some w =>
    simp only
    split
    · have h := getInstance_adds P step name none st
      rcases hr : getInstance P name none st with ⟨r, s1⟩
      rw [hr] at h
      cases r with
      | error e => exact Or.inl h
      | ok obj =>
        cases obj with
        | obj a =>
          simp only
          cases (s1.heap.getD a []).lookup step with
          | none => exact Or.inl h
          | some m =>
            simp only
            have h2 := injectorResolve_adds P step name m .undefined [] s1
            rcases hr2 : injectorResolve P (.phase step name) m .undefined [] s1 with ⟨r2, s2⟩
            rw [hr2] at h2
            rcases h2 with h2 | h2
            · left
              cases r2 <;> exact adds_trans h h2
            · right
              cases r2 <;> exact adds_trans h h2
        | _ => exact Or.inl h
    · exact Or.inl (adds_same step st)

theorem execStepLoop_adds (P : Prog) (step : String) (ns : List String) (st : St) :
    ∃ ms, ms.Sublist ns ∧ Adds step ms st (forEachLoop (execStepVisit P step) ns st).2 := by
  induction ns generalizing st with
  | nil => exact ⟨[], List.Sublist.refl _, adds_same step st⟩
  | cons n ns ih =>
    simp only [forEachLoop]
    have h1 := execStepVisit_adds P step n st
    rcases hr : execStepVisit P step n st with ⟨r, s1⟩
    rw [hr] at h1
    cases r with
    | error e =>
      rcases h1 with h1 | h1
      · exact ⟨[], List.nil_sublist _, h1⟩
      · exact ⟨[n], by simp, h1⟩
    | ok u =>
      obtain ⟨ms, hms, h2⟩ := ih s1
      rcases h1 with h1 | h1
      · exact ⟨ms, hms.cons n, by simpa using adds_trans h1 h2⟩
      · exact ⟨n :: ms, hms.cons₂ n, by simpa using adds_trans h1 h2⟩

theorem execStep_adds (P : Prog) (step : String) (st : St) :
    ∃ ms, ms.Sublist (enumKeys st.modules) ∧ Adds step ms st (execStep P step st).2 :=
  execStepLoop_adds P step _ st

theorem instanciateVisit_adds (P : Prog) (name : String) (st : St) :
    Adds "" [] st (instanciateVisit P name st).2 := by
  unfold instanciateVisit
  cases st.modules.lookup name with
  | none => exact adds_same _ st
  | some w =>
    simp only
    split
    · have h := getInstance_adds P "" name none st
      rcases hr : getInstance P name none st with ⟨r, s1⟩
      rw [hr] at h
      cases r <;> exact h
    · exact adds_same _ st

theorem instanciate_adds (P : Prog) (st : St) : Adds "" [] st (instanciate P st).2 :=
  forEachLoop_rel (Adds "" []) (adds_same "") (fun _ _ _ h1 h2 => by simpa using adds_trans h1 h2)
    _ (instanciateVisit_adds P) _ st

/-! ## Invariants of the resolver -/

/-- The postcondition of `getModules` while the constructor dependencies of
the module `d` (not instantiated, not itself under construction) are
fetched: `d` is still not instantiated afterwards. -/
theorem getModules_ctor_post (P : Prog) (d : String) (lvl : Nat) (st : St) (w : Wrapper)
    (f : Val) (ds : List Val) (hw : st.modules.lookup d = some w)
    (hi : isObject w.inst = false)
    (hdecl : declaration P st.heap w.constructor (.arr []) = .ok (f, ds)) :
    PostL (fun x => x = d ∨ False) [] ds st (getModules (forceDep P) [] lvl ds st) := by
  have hun : isInstanciated st d = false := isInstanciated_false_of_lookup hw hi
  refine getModules_post P lvl [] (fun x => x = d ∨ False) ds st
    (fun e s S h => getInstance_post P e (some lvl) s S h) ?_ ds [] st rfl (by simp)
    (Grows.grefl st) ?_
  · intro pre e rest s hds hpre hg hT n hn
    rcases hn with h | h
    · subst h
      obtain ⟨w2, hw2, _, hc, _⟩ := lookup_of_forget hg.shape hw
      refine ⟨w2, f, pre, e, rest, hw2, ?_, ?_, ?_, Or.inl rfl⟩
      · have := hT n (Or.inl rfl)
        simpa [isInstanciated, hw2] using this
      · rw [hc, ← hds]
        exact declaration_heap hdecl _
      · intro p hp
        rcases hpre p hp with h | ⟨q, _, h⟩
        · exact h
        · simp at h
    · exact h.elim
  · intro n hn
    rcases hn with h | h
    · rw [h]; exact hun
    · exact h.elim

theorem getModules_invariant (P : Prog) (lvl : Nat) (ext : Props) (Q : St → Prop)
    (B : String → Prop) (hforce : ∀ e s, B e → Q s → Q (forceDep P e lvl s).2)
    (ds : List Val) (hB : ∀ e, Val.str e ∈ ds → B e) (st : St) (hq : Q st) :
    Q (getModules (forceDep P) ext lvl ds st).2 := by
  induction ds generalizing st with
  | nil => exact hq
  | cons dep rest ih =>
    have ih2 := ih (fun e he => hB e (List.mem_cons_of_mem _ he))
    cases dep with
    | str e =>
      simp only [getModules]
      split
      · have h1 := hforce e st (hB e (List.mem_cons_self _ _)) hq
        rcases hr : forceDep P e lvl st with ⟨r1, s1⟩
        rw [hr] at h1
        cases r1 with
        | error err => exact h1
        | ok v =>
          have h2 := ih2 s1 h1
          show Q (match getModules (forceDep P) ext lvl rest s1 with
            | (.ok mods, st2) => (Except.ok (v :: mods), st2)
            | (.error e, st2) => (.error e, st2)).2
          rcases hr2 : getModules (forceDep P) ext lvl rest s1 with ⟨r2, s2⟩
          rw [hr2] at h2
          cases r2 <;> exact h2
      · cases ext.lookup e with
        | none => exact hq
        | some v =>
          have h2 := ih2 st hq
          show Q (match getModules (forceDep P) ext lvl rest st with
            | (.ok mods, st2) => (Except.ok (v :: mods), st2)
            | (.error e, st2) => (.error e, st2)).2
          rcases hr2 : getModules (forceDep P) ext lvl rest st with ⟨r2, s2⟩
          rw [hr2] at h2
          cases r2 <;> exact h2
    | _ => exact hq

/-- A property `Q` of states is kept by forcing a module of `A` when `A` is
closed under declared dependencies, `Q` is kept by the constructor calls of
modules of `A`, and `Q` is kept by caching the instance of a module of `A`
whose dependencies have just been resolved. -/
theorem getInstance_invariant (P : Prog) (A : String → Prop) (Q : St → Prop)
    (hA : ∀ d s w f ds e, Q s → A d → s.modules.lookup d = some w →
      declaration P s.heap w.constructor (.arr []) = .ok (f, ds) → Val.str e ∈ ds → A e)
    (hcall : ∀ d s (h : Heap) f mods ds, A d → Q s →
      Q { s with heap := h, log := s.log ++ [⟨.ctor d, f, .undefined, mods, ds⟩] })
    (hset : ∀ d s s1 w f ds mods (h : Heap) (l : List Event) obj, A d → Q s →
      s.modules.lookup d = some w → isObject w.inst = false →
      declaration P s.heap w.constructor (.arr []) = .ok (f, ds) → Grows s s1 →
      List.Forall₂ (ResolvedTo s s1 []) ds mods → isInstanciated s1 d = false →
      Q { heap := h, modules := s1.modules, log := l } → isObject obj = true →
      Q { heap := h, modules := setInstance d obj s1.modules, log := l })
    (d : String) (rl : Option Nat) (st : St) (hd : A d) (hq : Q st) :
    Q (getInstance P d rl st).2 := by
  revert hd hq
  refine getInstance_induction P (fun d rl st res => A d → Q st → Q res.2) ?_ d rl st
  intro d rl st ih hd hq
  unfold getInstanceBody
  cases hw : st.modules.lookup d with
  | none => exact hq
  | some w =>
    simp only
    cases hi : isObject w.inst with
    | true => simpa using hq
    | false =>
      simp only [Bool.false_eq_true, if_false]
      rw [resolve_eq]
      by_cases hl : nextLevel rl > 1000
      · simpa [hl] using hq
      · simp only [hl, if_false]
        cases hdecl : declaration P st.heap w.constructor (.arr []) with
        | error e => exact hq
        | ok fd =>
          obtain ⟨f, ds⟩ := fd
          obtain ⟨id, hf⟩ := declaration_fn hdecl
          subst hf
          have hgm := getModules_invariant P (nextLevel rl) [] Q A
            (fun e s hb hs => ih (by omega) e s hb hs) ds
            (fun e he => hA d st w _ ds e hq hd hw hdecl he) st hq
          have postl := getModules_ctor_post P d (nextLevel rl) st w _ ds hw hi hdecl
          simp only [resolveRun]
          rcases hr : getModules (forceDep P) [] (nextLevel rl) ds st with ⟨r1, s1⟩
          rw [hr] at hgm postl
          cases r1 with
          | error e => exact hgm
          | ok mods =>
            simp only [factory]
            rcases hcall2 : P.call id .undefined mods s1.heap with ⟨rc, h2⟩
            have hq2 := hcall d s1 h2 id mods ds hd hgm
            cases rc with
            | error e => exact hq2
            | ok obj =>
              simp only
              cases ho : isObject obj with
              | false => simpa using hq2
              | true =>
                simp only [Bool.not_true, Bool.false_eq_true, if_false]
                exact hset d st s1 w _ ds mods h2 _ obj hd hq hw hi hdecl postl.grows
                  (postl.ok mods rfl) (postl.pend d (Or.inl rfl)) hq2 ho

/-- A property `Q` of states is kept by a resolution started from outside
when it is kept by forcing the declared names and by the final call. -/
theorem resolve_invariant (P : Prog) (who : Label) (func deps : Val) (ext : Props) (lvl : Nat)
    (st : St) (Q : St → Prop) (B : String → Prop)
    (hforce : ∀ e s, B e → Q s → Q (forceDep P e lvl s).2)
    (hdeps : ∀ f ds e, declaration P st.heap func deps = .ok (f, ds) → Val.str e ∈ ds → B e)
    (hcall : ∀ s (h : Heap) f mods ds, Q s →
      Q { s with heap := h, log := s.log ++ [⟨who, f, .undefined, mods, ds⟩] })
    (hq : Q st) : Q (resolve P (forceDep P) who func deps ext lvl st).2 := by
  rw [resolve_eq]
  split
  · exact hq
  · cases hdecl : declaration P st.heap func deps with
    | error e => exact hq
    | ok fd =>
      obtain ⟨f, ds⟩ := fd
      obtain ⟨id, hf⟩ := declaration_fn hdecl
      subst hf
      have hgm := getModules_invariant P lvl ext Q B hforce ds
        (fun e he => hdeps _ ds e hdecl he) st hq
      simp only [resolveRun]
      rcases hr : getModules (forceDep P) ext lvl ds st with ⟨r1, s1⟩
      rw [hr] at hgm
      cases r1 with
      | error e => exact hgm
      | ok mods =>
        simp only [factory]
        exact hcall s1 _ id mods ds hgm

theorem boot_trace (P : Prog) (st : St) :
    ∃ (l0 l1 l2 l3 : List Event) (n1 n2 n3 : List String),
      (boot P st).2.log = st.log ++ (l0 ++ (l1 ++ (l2 ++ l3))) ∧ phaseTrace l0 = [] ∧
      phaseTrace l1 = n1.map (fun n => ("$init", n)) ∧
      phaseTrace l2 = n2.map (fun n => ("$build", n)) ∧
      phaseTrace l3 = n3.map (fun n => ("$final", n)) ∧
      n1.Sublist (enumKeys st.modules) ∧ n2.Sublist (enumKeys st.modules) ∧
      n3.Sublist (enumKeys st.modules) := by
  unfold boot
  obtain ⟨g0, l0, hl0, ht0⟩ := instanciate_adds P st
  rcases hr0 : instanciate P st with ⟨r0, s0⟩
  rw [hr0] at g0 hl0
  have hl0' : s0.log = st.log ++ l0 := hl0
  have hk0 : enumKeys s0.modules = enumKeys st.modules := g0.enumKeys
  cases r0 with
  | error e =>
    exact ⟨l0, [], [], [], [], [], [], by simpa using hl0', ht0, rfl, rfl, rfl,
      List.nil_sublist _, List.nil_sublist _, List.nil_sublist _⟩
  | ok u =>
    simp only
    obtain ⟨n1, hn1, g1, l1, hl1, ht1⟩ := execStep_adds P "$init" s0
    rcases hr1 : execStep P "$init" s0 with ⟨r1, s1⟩
    rw [hr1] at g1 hl1
    have hl1' : s1.log = s0.log ++ l1 := hl1
    have hk1 : enumKeys s1.modules = enumKeys st.modules := g1.enumKeys.trans hk0
    rw [hk0] at hn1
    cases r1 with
    | error e =>
      exact ⟨l0, l1, [], [], n1, [], [], by simp [hl1', hl0'], ht0, ht1, rfl, rfl,
        hn1, List.nil_sublist _, List.nil_sublist _⟩
    | ok u =>
      simp only
      obtain ⟨n2, hn2, g2, l2, hl2, ht2⟩ := execStep_adds P "$build" s1
      rcases hr2 : execStep P "$build" s1 with ⟨r2, s2⟩
      rw [hr2] at g2 hl2
      have hl2' : s2.log = s1.log ++ l2 := hl2
      have hk2 : enumKeys s2.modules = enumKeys st.modules := g2.enumKeys.trans hk1
      rw [hk1] at hn2
      cases r2 with
      | error e =>
        exact ⟨l0, l1, l2, [], n1, n2, [], by simp [hl2', hl1', hl0'], ht0, ht1, ht2, rfl,
          hn1, hn2, List.nil_sublist _⟩
      | ok u =>
        simp only
        obtain ⟨n3, hn3, g3, l3, hl3, ht3⟩ := execStep_adds P "$final" s2
        rw [hk2] at hn3
        exact ⟨l0, l1, l2, l3, n1, n2, n3, by simp [hl3, hl2', hl1', hl0'], ht0, ht1, ht2, ht3,
          hn1, hn2, hn3⟩

theorem enumNames_of_no_index (names : List String)
    (h : ∀ k ∈ names, arrayIndex? k = none) : enumNames names = names := by
  unfold enumNames
  have h1 : (names.filterMap fun k => (arrayIndex? k).map fun n => (n, k)) = [] := by
    rw [List.filterMap_eq_nil_iff]
    intro k hk
    simp [h k hk]
  have h2 : (names.filter fun k => (arrayIndex? k).isNone) = names := by
    rw [List.filter_eq_self]
    intro k hk
    simp [h k hk]
  rw [h1, h2]
  rfl

theorem mem_enumNames (names : List String) (k : String) :
    k ∈ enumNames names ↔ k ∈ names := by
  unfold enumNames
  rw [List.mem_append, List.mem_map, List.mem_filter]
  constructor
  · rintro (⟨a, ha, rfl⟩ | ⟨h, _⟩)
    · rw [(List.perm_insertionSort _ _).mem_iff, List.mem_filterMap] at ha
      obtain ⟨x, hx, hxa⟩ := ha
      cases hi : arrayIndex? x with
      | none => simp [hi] at hxa
      | some n =>
        simp only [hi, Option.map_some', Option.some.injEq] at hxa
        rw [← hxa]
        exact hx
    · exact h
  · intro hk
    cases hi : arrayIndex? k with
    | none => exact Or.inr ⟨hk, by simp⟩
    | some n =>
      refine Or.inl ⟨(n, k), ?_, rfl⟩
      rw [(List.perm_insertionSort _ _).mem_iff, List.mem_filterMap]
      exact ⟨k, hk, by simp [hi]⟩

theorem mem_enumKeys_of_lookup {ms : List (String × Wrapper)} {n : String} {w : Wrapper}
    (h : ms.lookup n = some w) : n ∈ enumKeys ms := by
  unfold enumKeys
  rw [mem_enumNames]
  induction ms with
  | nil => cases h
  | cons p ms ih =>
    obtain ⟨k, v⟩ := p
    simp only [List.lookup_cons] at h
    cases hk : n == k
    · rw [hk] at h
      exact List.mem_cons_of_mem _ (ih h)
    · have : n = k := by simpa using hk
      subst this
      exact List.mem_cons_self _ _

/-- A pass that completes has visited every name: each visit started from a
state reached from the initial one and ended in a state from which the final
one is reached. -/
theorem forEachLoop_visits (R : St → St → Prop) (hrefl : ∀ s, R s s)
    (htrans : ∀ a b c, R a b → R b c → R a c) (callback : String → St → Res Unit)
    (hcb : ∀ n s, R s (callback n s).2) (ns : List String) (st st2 : St)
    (h : forEachLoop callback ns st = (.ok (), st2)) (n : String) (hn : n ∈ ns) :
    ∃ s s1, R st s ∧ callback n s = (.ok (), s1) ∧ R s1 st2 := by
  induction ns generalizing st with
  | nil => cases hn
  | cons k ns ih =>
    simp only [forEachLoop] at h
    have h1 := hcb k st
    rcases hr : callback k st with ⟨r, s1⟩
    rw [hr] at h h1
    cases r with
    | error e => cases h
    | ok u =>
      simp only at h
      have hrest : R s1 st2 := by
        have := forEachLoop_rel R hrefl htrans callback hcb ns s1
        rw [h] at this
        exact this
      rcases List.mem_cons.1 hn with hk | hk
      · subst hk
        exact ⟨st, s1, hrefl st, hr, hrest⟩
      · obtain ⟨s, s2, ha, hb, hc⟩ := ih s1 h hk
        exact ⟨s, s2, htrans _ _ _ h1 ha, hb, hc⟩

theorem instanciateVisit_grows (P : Prog) (name : String) (st : St) :
    Grows st (instanciateVisit P name st).2 := (instanciateVisit_adds P name st).1

theorem execStepVisit_grows (P : Prog) (step name : String) (st : St) :
    Grows st (execStepVisit P step name st).2 := by
  rcases execStepVisit_adds P step name st with h | h <;> exact h.1

theorem execStep_grows (P : Prog) (step : String) (st : St) :
    Grows st (execStep P step st).2 := by
  obtain ⟨_, _, h⟩ := execStep_adds P step st
  exact h.1

theorem isInstanciated_kept {a b : St} (h : Grows a b) {n : String}
    (hn : isInstanciated a n = true) : isInstanciated b n = true := by
  unfold isInstanciated at hn ⊢
  cases hw : a.modules.lookup n with
  | none => rw [hw] at hn; cases hn
  | some w =>
    rw [hw] at hn
    rw [h.kept n w hw hn]
    exact hn

/-- When `instanciate` completes, every module flagged for startup is
instantiated. -/
theorem instanciate_startup (P : Prog) (st s1 : St) (h : instanciate P st = (.ok (), s1))
    (x : String) (w : Wrapper) (hw : st.modules.lookup x = some w)
    (hs : truthy w.loadOnStartup = true) : isInstanciated s1 x = true := by
  obtain ⟨s, s2, ha, hb, hc⟩ := forEachLoop_visits Grows Grows.grefl
    (fun _ _ _ => Grows.gtrans) _ (instanciateVisit_grows P) _ st s1 h x
    (mem_enumKeys_of_lookup hw)
  obtain ⟨w2, hw2, _, _, hlos⟩ := lookup_of_forget ha.shape hw
  unfold instanciateVisit at hb
  rw [hw2] at hb
  simp only [hlos, hs, if_true] at hb
  have post := getInstance_post P x none s (fun _ => False) (pending_none P s x)
  rcases hr : getInstance P x none s with ⟨r, s3⟩
  rw [hr] at hb post
  cases r with
  | error e => cases hb
  | ok v =>
    simp only [Prod.mk.injEq, true_and] at hb
    subst hb
    obtain ⟨hv, w3, hw3, hwv⟩ := post.ok v rfl
    apply isInstanciated_kept hc
    simp only [isInstanciated]
    rw [show s3.modules.lookup x = some w3 from hw3]
    show isObject w3.inst = true
    rw [hwv]
    exact hv

theorem boot_invariant (P : Prog) (Q : St → Prop)
    (hforce : ∀ d rl s, Q s → Q (getInstance P d rl s).2)
    (hres : ∀ step n m s, Q s → Q (injectorResolve P (.phase step n) m .undefined [] s).2)
    (st : St) (hq : Q st) : Q (boot P st).2 := by
  have hinst : ∀ n s, Q s → Q (instanciateVisit P n s).2 := by
    intro n s hs
    unfold instanciateVisit
    cases s.modules.lookup n with
    | none => exact hs
    | some w =>
      simp only
      split
      · have h := hforce n none s hs
        rcases hr : getInstance P n none s with ⟨r, s1⟩
        rw [hr] at h
        cases r <;> exact h
      · exact hs
  have hstep : ∀ step n s, Q s → Q (execStepVisit P step n s).2 := by
    intro step n s hs
    unfold execStepVisit
    cases s.modules.lookup n with
    | none => exact hs
    | some w =>
      simp only
      split
      · have h := hforce n none s hs
        rcases hr : getInstance P n none s with ⟨r, s1⟩
        rw [hr] at h
        cases r with
        | error e => exact h
        | ok obj =>
          cases obj with
          | obj a =>
            simp only
            cases (s1.heap.getD a []).lookup step with
            | none => exact h
            | some m =>
              simp only
              have h2 := hres step n m s1 h
              rcases hr2 : injectorResolve P (.phase step n) m .undefined [] s1 with ⟨r2, s2⟩
              rw [hr2] at h2
              cases r2 <;> exact h2
          | _ => exact h
      · exact hs
  have hloop1 : ∀ s, Q s → Q (instanciate P s).2 := fun s hs =>
    forEachLoop_rel (fun a b => Q a → Q b) (fun _ h => h) (fun _ _ _ h1 h2 h => h2 (h1 h))
      _ (fun n s => hinst n s) _ s hs
  have hloop2 : ∀ step s, Q s → Q (execStep P step s).2 := fun step s hs =>
    forEachLoop_rel (fun a b => Q a → Q b) (fun _ h => h) (fun _ _ _ h1 h2 h => h2 (h1 h))
      _ (fun n s => hstep step n s) _ s hs
  unfold boot
  have h1 := hloop1 st hq
  rcases hr1 : instanciate P st with ⟨r1, s1⟩
  rw [hr1] at h1
  cases r1 with
  | error e => exact h1
  | ok u =>
    simp only
    have h2 := hloop2 "$init" s1 h1
    rcases hr2 : execStep P "$init" s1 with ⟨r2, s2⟩
    rw [hr2] at h2
    cases r2 with
    | error e => exact h2
    | ok u =>
      simp only
      have h3 := hloop2 "$build" s2 h2
      rcases hr3 : execStep P "$build" s2 with ⟨r3, s3⟩
      rw [hr3] at h3
      cases r3 with
      | error e => exact h3
      | ok u => exact hloop2 "$final" s3 h3

theorem forall2_of_mem {α β : Type} {R : α → β → Prop} {l1 : List α} {l2 : List β}
    (h : List.Forall₂ R l1 l2) {a : α} (ha : a ∈ l1) : ∃ b, R a b := by
  induction h with
  | nil => cases ha
  | cons hr _ ih =>
    rcases List.mem_cons.1 ha with h1 | h1
    · subst h1
      exact ⟨_, hr⟩
    · exact ih h1

theorem grows_setInstance {a : St} {h : Heap} {ms : List (String × Wrapper)} {l : List Event}
    (hg : Grows a ⟨h, ms, l⟩) {d : String} (hd : isInstanciated a d = false) (obj : Val) :
    Grows a ⟨h, setInstance d obj ms, l⟩ := by
  refine ⟨?_, ?_⟩
  · show forget (setInstance d obj ms) = _
    rw [forget_setInstance]
    exact hg.shape
  · intro n w hw hi
    show (setInstance d obj ms).lookup n = _
    rw [lookup_setInstance]
    have hk : ms.lookup n = some w := hg.kept n w hw hi
    have hne : n ≠ d := by
      intro hnd
      subst hnd
      simp [isInstanciated, hw, hi] at hd
    simp only [hk, hne, if_false, Option.map_some']

theorem isInstanciated_setInstance {s : St} {h : Heap} {l : List Event} {d n : String}
    {obj : Val} (ho : isObject obj = true) (hn : isInstanciated s n = true) :
    isInstanciated ⟨h, setInstance d obj s.modules, l⟩ n = true := by
  simp only [isInstanciated, lookup_setInstance] at hn ⊢
  cases hw : s.modules.lookup n with
  | none => rw [hw] at hn; cases hn
  | some w =>
    rw [hw] at hn
    simp only [Option.map_some']
    split
    · exact ho
    · exact hn

/-- The dependencies of an instantiated module are instantiated: if the
module `x` declares the name `y`, then "`x` instantiated implies `y`
instantiated" is kept by every forcing. -/
theorem getInstance_dependency (P : Prog) (st0 : St) (x y : String) (wx : Wrapper) (f : Val)
    (ds : List Val) (hw : st0.modules.lookup x = some wx)
    (hdecl : declaration P st0.heap wx.constructor (.arr []) = .ok (f, ds))
    (hy : Val.str y ∈ ds) (d : String) (rl : Option Nat) (s : St)
    (hq : Grows st0 s ∧ (isInstanciated s x = true → isInstanciated s y = true)) :
    Grows st0 (getInstance P d rl s).2 ∧
      (isInstanciated (getInstance P d rl s).2 x = true →
        isInstanciated (getInstance P d rl s).2 y = true) := by
  refine getInstance_invariant P (fun _ => True)
    (fun s => Grows st0 s ∧ (isInstanciated s x = true → isInstanciated s y = true))
    (fun _ _ _ _ _ _ _ _ _ _ _ => trivial) ?_ ?_ d rl s trivial hq
  · intro d s h f mods ds _ hs
    exact ⟨hs.1.gtrans (Grows.of_modules_eq rfl), hs.2⟩
  · intro d s s1 w f2 ds2 mods h l obj _ hs0 hwd hid hdecl2 hg hres hun hs ho
    have hun0 : isInstanciated st0 d = false :=
      hs.1.guninst (by simpa [isInstanciated] using hun)
    refine ⟨grows_setInstance hs.1 hun0 obj, ?_⟩
    intro hx
    by_cases hdx : d = x
    · subst hdx
      obtain ⟨w2, hw2, _, hc, _⟩ := lookup_of_forget hs0.1.shape hw
      rw [hwd] at hw2
      cases hw2
      rw [hc, declaration_heap hdecl s.heap] at hdecl2
      cases hdecl2
      obtain ⟨b, q, hq1, hcase⟩ := forall2_of_mem hres hy
      cases hq1
      rcases hcase with ⟨_, hcached, _⟩ | ⟨_, hext⟩
      · obtain ⟨q, wq, hq2, hwq, hiq⟩ := hcached
        cases hq2
        have h1 : isInstanciated s1 y = true := by simp [isInstanciated, hwq, hiq]
        exact isInstanciated_setInstance ho h1
      · simp at hext
    · have hx1 : isInstanciated (⟨h, s1.modules, l⟩ : St) x = true := by
        rw [← @isInstanciated_setInstance_ne ⟨h, s1.modules, l⟩
          ⟨h, setInstance d obj s1.modules, l⟩ x d obj (fun hxd => hdx hxd.symm) rfl]
        exact hx
      exact isInstanciated_setInstance (s := ⟨h, s1.modules, l⟩) ho (hs.2 hx1)

theorem resolve_ok_calls (P : Prog) (who : Label) (hwho : ∀ n, who ≠ .ctor n)
    (func deps : Val) (ext : Props) (lvl : Nat) (st s1 : St) (v : Val)
    (h : resolve P (forceDep P) who func deps ext lvl st = (.ok v, s1)) :
    calls who s1.log = calls who st.log + 1 := by
  rw [resolve_eq] at h
  split at h
  · cases h
  · cases hdecl : declaration P st.heap func deps with
    | error e => rw [hdecl] at h; cases h
    | ok fd =>
      obtain ⟨f, ds⟩ := fd
      obtain ⟨id, hf⟩ := declaration_fn hdecl
      subst hf
      rw [hdecl] at h
      simp only [resolveRun] at h
      have postl := getModules_top P lvl ext ds st
      rcases hr : getModules (forceDep P) ext lvl ds st with ⟨r1, s2⟩
      rw [hr] at postl h
      cases r1 with
      | error e => cases h
      | ok mods =>
        simp only [factory, Prod.mk.injEq] at h
        obtain ⟨l, hlog, hle⟩ := postl.log
        rw [← h.2]
        show calls who (s2.log ++ _) = _
        rw [show s2.log = st.log ++ l from hlog, calls_append, calls_append,
          calls_eq_zero who l]
        · simp [calls]
        · intro e he heq
          obtain ⟨n, h1, _, _⟩ := hle e he
          rw [h1] at heq
          exact hwho n heq.symm

/-- A visit of `execStep(step)` that completes on an instantiated module
whose instance has an own property `step` has called that phase method
once. -/
theorem execStepVisit_calls (P : Prog) (step name : String) (s s1 : St) (w : Wrapper) (a : Nat)
    (h : execStepVisit P step name s = (.ok (), s1)) (hw : s.modules.lookup name = some w)
    (hi : w.inst = .obj a) (hown : hasOwn step (s.heap.getD a []) = true) :
    calls (.phase step name) s1.log = calls (.phase step name) s.log + 1 := by
  have hio : isObject w.inst = true := by rw [hi]; rfl
  unfold execStepVisit at h
  rw [hw] at h
  simp only [hio, if_true, getInstance_cached P hw hio none, hi, isObject] at h
  cases hm : (s.heap.getD a []).lookup step with
  | none =>
    rw [hasOwn, hm] at hown
    cases hown
  | some m =>
    rw [hm] at h
    simp only at h
    rcases hr : injectorResolve P (.phase step name) m .undefined [] s with ⟨r, s2⟩
    rw [hr] at h
    cases r with
    | error e => cases h
    | ok v =>
      simp only [Prod.mk.injEq, true_and] at h
      subst h
      exact resolve_ok_calls P (.phase step name) (fun n hn => by cases hn) m .undefined [] 0 s s2 v hr

/-! ## C5: phase ordering -/

theorem boot_ok_split (P : Prog) (st st2 : St) (h : boot P st = (.ok (), st2)) :
    ∃ s1 s2 s3, instanciate P st = (.ok (), s1) ∧ execStep P "$init" s1 = (.ok (), s2) ∧
      execStep P "$build" s2 = (.ok (), s3) ∧ execStep P "$final" s3 = (.ok (), st2) := by
  unfold boot at h
  rcases hr1 : instanciate P st with ⟨r1, s1⟩
  rw [hr1] at h
  cases r1 with
  | error e => cases h
  | ok u =>
    simp only at h
    rcases hr2 : execStep P "$init" s1 with ⟨r2, s2⟩
    rw [hr2] at h
    cases r2 with
    | error e => cases h
    | ok u =>
      simp only at h
      rcases hr3 : execStep P "$build" s2 with ⟨r3, s3⟩
      rw [hr3] at h
      cases r3 with
      | error e => cases h
      | ok u => exact ⟨s1, s2, s3, rfl, hr2, hr3, h⟩

/-- C5 (as stated, refuted). The module `2` is registered before the module
`1`; boot completes, and the initialization method of `1` is called before
that of `2`: within a phase the order is not the registration order. -/
theorem phase_order_not_registration_order :
    digitNamesReg.modules.map (fun p => p.1) = ["$injector", "2", "1"] ∧
      (boot phaseProg digitNamesReg).1 = .ok () ∧
      phaseTrace (boot phaseProg digitNamesReg).2.log = [("$init", "1"), ("$init", "2")] :=
  ⟨rfl, rfl, rfl⟩

theorem calls_snoc_ne (who : Label) (l : List Event) (ev : Event) (h : ev.who ≠ who) :
    calls who (l ++ [ev]) = calls who l := by
  rw [calls_append, calls_eq_zero who [ev], Nat.add_zero]
  intro e he
  rw [List.mem_singleton.1 he]
  exact h

theorem getInstance_untouched (P : Prog) (st0 : St) (R : String → Prop)
    (hclosed : ClosedUnder P st0 R) (d : String) (rl : Option Nat) (s : St) (hd : R d)
    (hq : Untouched st0 R s) : Untouched st0 R (getInstance P d rl s).2 := by
  refine getInstance_invariant P R (Untouched st0 R) ?_ ?_ ?_ d rl s hd hq
  · intro d s w f ds e hs hd hw hdecl he
    obtain ⟨w0, hw0, _, hc, _⟩ := @lookup_of_forget s.modules st0.modules
      hs.1.shape.symm _ _ hw
    refine hclosed d w0 f ds e hd hw0 ?_ he
    rw [hc]
    exact declaration_heap hdecl _
  · intro d s h f mods ds _ hs
    refine ⟨hs.1.gtrans (Grows.of_modules_eq rfl), hs.2.1, ?_⟩
    intro m step hm hun
    show calls _ (s.log ++ _) = _
    rw [calls_snoc_ne _ _ _ (by intro hc; cases hc)]
    exact hs.2.2 m step hm hun
  · intro d s s1 w f ds mods h l obj hd hs0 hw hi _ _ _ _ hs ho
    have hund : isInstanciated st0 d = false :=
      hs0.1.guninst (isInstanciated_false_of_lookup hw hi)
    refine ⟨grows_setInstance hs.1 hund obj, ?_, hs.2.2⟩
    intro m hm hun
    have hne : m ≠ d := fun hmd => hm (hmd ▸ hd)
    rw [@isInstanciated_setInstance_ne ⟨h, s1.modules, l⟩ ⟨h, setInstance d obj s1.modules, l⟩
      m d obj hne rfl]
    exact hs.2.1 m hm hun

theorem gatedStep_refl (st0 : St) (R : String → Prop) (a : St) : GatedStep st0 R a a :=
  ⟨⟨[], by simp⟩, fun _ h => h⟩

theorem gatedStep_trans (st0 : St) (R : String → Prop) (a b c : St)
    (h1 : GatedStep st0 R a b) (h2 : GatedStep st0 R b c) : GatedStep st0 R a c := by
  obtain ⟨⟨l1, hl1⟩, f1⟩ := h1
  obtain ⟨⟨l2, hl2⟩, f2⟩ := h2
  refine ⟨⟨l1 ++ l2, by rw [hl2, hl1, List.append_assoc]⟩, ?_⟩
  intro hp ha
  refine f2 hp (f1 ?_ ha)
  intro ev hev
  exact hp ev (by rw [hl2]; exact List.mem_append_left _ hev)

theorem forEachLoop_ok_rel (R : St → St → Prop) (hrefl : ∀ s, R s s)
    (htrans : ∀ a b c, R a b → R b c → R a c) (callback : String → St → Res Unit)
    (hcb : ∀ n s s1, callback n s = (.ok (), s1) → R s s1) (ns : List String) (st st2 : St)
    (h : forEachLoop callback ns st = (.ok (), st2)) : R st st2 := by
  induction ns generalizing st with
  | nil =>
    simp only [forEachLoop, Prod.mk.injEq, true_and] at h
    rw [← h]
    exact hrefl st
  | cons n ns ih =>
    simp only [forEachLoop] at h
    rcases hr : callback n st with ⟨r, s1⟩
    rw [hr] at h
    cases r with
    | error e => cases h
    | ok u => exact htrans _ _ _ (hcb n st s1 hr) (ih s1 h)

theorem instanciateVisit_gated (P : Prog) (st0 : St) (R : String → Prop)
    (hclosed : ClosedUnder P st0 R)
    (hstart : ∀ n w, st0.modules.lookup n = some w → truthy w.loadOnStartup = true → R n)
    (n : String) (s : St) : GatedStep st0 R s (instanciateVisit P n s).2 := by
  refine ⟨(instanciateVisit_adds P n s).2.imp (fun l h => h.1), ?_⟩
  intro _ hs
  unfold instanciateVisit
  cases hw : s.modules.lookup n with
  | none => exact hs
  | some w =>
    simp only
    split
    · rename_i ht
      obtain ⟨w0, hw0, _, _, hlos⟩ := @lookup_of_forget s.modules st0.modules
        hs.1.shape.symm _ _ hw
      have hn : R n := hstart n w0 hw0 (by rw [hlos]; exact ht)
      have h := getInstance_untouched P st0 R hclosed n none s hn hs
      rcases hr : getInstance P n none s with ⟨r, s1⟩
      rw [hr] at h
      cases r <;> exact h
    · exact hs

theorem execStepVisit_gated (P : Prog) (st0 : St) (R : String → Prop)
    (hclosed : ClosedUnder P st0 R) (step n : String) (s s1 : St)
    (h : execStepVisit P step n s = (.ok (), s1)) : GatedStep st0 R s s1 := by
  have hlog : ∃ l, s1.log = s.log ++ l := by
    rcases execStepVisit_adds P step n s with ha | ha
    · rw [h] at ha; exact ha.2.imp (fun l hl => hl.1)
    · rw [h] at ha; exact ha.2.imp (fun l hl => hl.1)
  refine ⟨hlog, ?_⟩
  intro hp hs
  unfold execStepVisit at h
  cases hw : s.modules.lookup n with
  | none => rw [hw] at h; cases h
  | some w =>
    rw [hw] at h
    simp only at h
    cases hi : isObject w.inst with
    | false =>
      simp only [hi, Bool.false_eq_true, if_false, Prod.mk.injEq, true_and] at h
      rw [← h]
      exact hs
    | true =>
      simp only [hi, if_true, getInstance_cached P hw hi none] at h
      cases hv : w.inst with
      | obj a =>
        rw [hv] at h
        simp only at h
        cases hm : (s.heap.getD a []).lookup step with
        | none =>
          rw [hm] at h
          simp only [Prod.mk.injEq, true_and] at h
          rw [← h]
          exact hs
        | some m =>
          rw [hm] at h
          simp only at h
          rcases hr : injectorResolve P (.phase step n) m .undefined [] s with ⟨r, s2⟩
          rw [hr] at h
          cases r with
          | error e => cases h
          | ok v =>
            simp only [Prod.mk.injEq, true_and] at h
            subst h
            unfold injectorResolve at hr
            rw [resolve_eq] at hr
            simp only [show ¬ (0 > 1000) by decide, if_false] at hr
            cases hdecl : declaration P s.heap m .undefined with
            | error e => rw [hdecl] at hr; cases hr
            | ok fd =>
              obtain ⟨f, ds⟩ := fd
              obtain ⟨id, hf⟩ := declaration_fn hdecl
              subst hf
              rw [hdecl] at hr
              simp only [resolveRun] at hr
              rcases hg : getModules (forceDep P) [] 0 ds s with ⟨r1, s3⟩
              rw [hg] at hr
              cases r1 with
              | error e => cases hr
              | ok mods =>
                simp only [factory, Prod.mk.injEq] at hr
                obtain ⟨_, hr2⟩ := hr
                subst hr2
                have hds : ∀ e, Val.str e ∈ ds → R e := by
                  intro e he
                  exact hp ⟨.phase step n, id, .undefined, mods, ds⟩
                    (List.mem_append_right _ (List.mem_singleton_self _)) step n rfl e he
                have h3 := getModules_invariant P 0 [] (Untouched st0 R) R
                  (fun e s hb hs => getInstance_untouched P st0 R hclosed e (some 0) s hb hs)
                  ds hds s hs
                rw [hg] at h3
                refine ⟨h3.1.gtrans (Grows.of_modules_eq rfl), h3.2.1, ?_⟩
                intro z step2 hz hun
                show calls _ (s3.log ++ _) = _
                rw [calls_snoc_ne]
                · exact h3.2.2 z step2 hz hun
                · intro hc
                  cases hc
                  have := hs.2.1 n hz hun
                  simp [isInstanciated, hw, hi] at this
      | _ =>
        rw [hv] at hi
        cases hi

/-- When boot completes and the phase methods it called only named modules
of `R`, a set closed under constructor declarations that contains the startup
modules, the modules outside `R` are untouched. -/
theorem boot_untouched (P : Prog) (st st2 : St) (R : String → Prop)
    (hboot : boot P st = (.ok (), st2)) (hclosed : ClosedUnder P st R)
    (hstart : ∀ n w, st.modules.lookup n = some w → truthy w.loadOnStartup = true → R n)
    (hphase : PhaseDepsIn R st2.log) : Untouched st R st2 := by
  obtain ⟨s1, s2, s3, h1, h2, h3, h4⟩ := boot_ok_split P st st2 hboot
  have g1 : GatedStep st R st s1 := by
    have := forEachLoop_rel (GatedStep st R) (gatedStep_refl st R) (gatedStep_trans st R) _
      (instanciateVisit_gated P st R hclosed hstart) (enumKeys st.modules) st
    rw [show forEachLoop (instanciateVisit P) (enumKeys st.modules) st = instanciate P st
      from rfl, h1] at this
    exact this
  have gs : ∀ step a b, execStep P step a = (.ok (), b) → GatedStep st R a b :=
    fun step a b h => forEachLoop_ok_rel (GatedStep st R) (gatedStep_refl st R)
      (gatedStep_trans st R) _ (fun n s s1 hv => execStepVisit_gated P st R hclosed step n s s1 hv)
      _ a b h
  have g := gatedStep_trans st R _ _ _ (gatedStep_trans st R _ _ _
    (gatedStep_trans st R _ _ _ g1 (gs _ _ _ h2)) (gs _ _ _ h3)) (gs _ _ _ h4)
  exact g.2 hphase ⟨Grows.grefl st, fun _ _ h => h, fun _ _ _ _ => rfl⟩

theorem OnCycle.uninst {P : Prog} {st : St} {S : String → Prop} (h : OnCycle P st S)
    {m : String} (hm : S m) : isInstanciated st m = false := by
  obtain ⟨w, _, _, _, hw, hi, _⟩ := h m hm
  exact isInstanciated_false_of_lookup hw hi

theorem OnCycle.registered {P : Prog} {st : St} {S : String → Prop} (h : OnCycle P st S)
    {m : String} (hm : S m) : hasOwn m st.modules = true := by
  obtain ⟨w, _, _, _, hw, _⟩ := h m hm
  simp [Bambo.hasOwn, hw]

theorem OnCycle.later {P : Prog} {st s : St} {S : String → Prop} (h : OnCycle P st S)
    (hc : CycleInv S st s) : OnCycle P s S := by
  intro n hn
  obtain ⟨w, f, ds, d, hw, _, hdecl, hd, hSd⟩ := h n hn
  obtain ⟨w2, hw2, _, hcon, _⟩ := lookup_of_forget hc.grows.shape hw
  refine ⟨w2, f, ds, d, hw2, ?_, ?_, hd, hSd⟩
  · simpa [isInstanciated, hw2] using hc.pend n hn
  · rw [hcon]
    exact declaration_heap hdecl _

theorem cycleInv_same {P : Prog} {st : St} {S : String → Prop} (h : OnCycle P st S) :
    CycleInv S st st :=
  ⟨Grows.grefl st, fun _ hm => h.uninst hm, fun _ _ => rfl⟩

theorem cycleInv_trans {S : String → Prop} {a b c : St} (h1 : CycleInv S a b)
    (h2 : CycleInv S b c) : CycleInv S a c :=
  ⟨h1.grows.gtrans h2.grows, h2.pend, fun m hm => (h2.quiet m hm).trans (h1.quiet m hm)⟩

theorem cycle_getModules (P : Prog) (S : String → Prop) (lvl : Nat) (ext : Props)
    (ih : ∀ e s, OnCycle P s S →
      CycleInv S s (forceDep P e lvl s).2 ∧ (S e → ∃ err, (forceDep P e lvl s).1 = .error err))
    (ds : List Val) (st : St) (hS : OnCycle P st S) :
    CycleInv S st (getModules (forceDep P) ext lvl ds st).2 ∧
      ((∃ d, Val.str d ∈ ds ∧ S d) →
        ∃ err, (getModules (forceDep P) ext lvl ds st).1 = .error err) := by
  induction ds generalizing st with
  | nil =>
    refine ⟨cycleInv_same hS, ?_⟩
    rintro ⟨d, hd, _⟩
    cases hd
  | cons dep rest ihl =>
    cases dep with
    | str e =>
      simp only [getModules]
      by_cases hown : hasOwn e st.modules = true
      · simp only [hown, if_true]
        obtain ⟨h1, h1e⟩ := ih e st hS
        rcases hr : forceDep P e lvl st with ⟨r1, s1⟩
        rw [hr] at h1 h1e
        cases r1 with
        | error err => exact ⟨h1, fun _ => ⟨err, rfl⟩⟩
        | ok v =>
          have hne : ¬ S e := fun hs => by
            obtain ⟨err, herr⟩ := h1e hs
            cases herr
          obtain ⟨h2, h2e⟩ := ihl s1 (hS.later h1)
          show CycleInv S st (match getModules (forceDep P) ext lvl rest s1 with
            | (.ok mods, st2) => (Except.ok (v :: mods), st2)
            | (.error e, st2) => (.error e, st2)).2 ∧ (_ → ∃ err,
            (match getModules (forceDep P) ext lvl rest s1 with
            | (.ok mods, st2) => (Except.ok (v :: mods), st2)
            | (.error e, st2) => (.error e, st2)).1 = .error err)
          rcases hr2 : getModules (forceDep P) ext lvl rest s1 with ⟨r2, s2⟩
          rw [hr2] at h2 h2e
          cases r2 with
          | error err => exact ⟨cycleInv_trans h1 h2, fun _ => ⟨err, rfl⟩⟩
          | ok mods =>
            refine ⟨cycleInv_trans h1 h2, ?_⟩
            rintro ⟨d, hd, hSd⟩
            rcases List.mem_cons.1 hd with hd1 | hd1
            · cases hd1
              exact absurd hSd hne
            · obtain ⟨err, herr⟩ := h2e ⟨d, hd1, hSd⟩
              cases herr
      · simp only [hown, Bool.false_eq_true, if_false]
        have hne : ¬ S e := fun hs => hown (hS.registered hs)
        cases ext.lookup e with
        | none => exact ⟨cycleInv_same hS, fun _ => ⟨_, rfl⟩⟩
        | some v =>
          obtain ⟨h2, h2e⟩ := ihl st hS
          show CycleInv S st (match getModules (forceDep P) ext lvl rest st with
            | (.ok mods, st2) => (Except.ok (v :: mods), st2)
            | (.error e, st2) => (.error e, st2)).2 ∧ (_ → ∃ err,
            (match getModules (forceDep P) ext lvl rest st with
            | (.ok mods, st2) => (Except.ok (v :: mods), st2)
            | (.error e, st2) => (.error e, st2)).1 = .error err)
          rcases hr2 : getModules (forceDep P) ext lvl rest st with ⟨r2, s2⟩
          rw [hr2] at h2 h2e
          cases r2 with
          | error err => exact ⟨h2, fun _ => ⟨err, rfl⟩⟩
          | ok mods =>
            refine ⟨h2, ?_⟩
            rintro ⟨d, hd, hSd⟩
            rcases List.mem_cons.1 hd with hd1 | hd1
            · cases hd1
              exact absurd hSd hne
            · obtain ⟨err, herr⟩ := h2e ⟨d, hd1, hSd⟩
              cases herr
    | _ => exact ⟨cycleInv_same hS, fun _ => ⟨_, rfl⟩⟩

/-- Forcing any module while the modules of `S` lie on dependency cycles
leaves the modules of `S` not instantiated and calls none of their
constructors; forcing a module of `S` fails. -/
theorem cycle_getInstance (P : Prog) (S : String → Prop) (d : String) (rl : Option Nat)
    (st : St) (hS : OnCycle P st S) :
    CycleInv S st (getInstance P d rl st).2 ∧
      (S d → ∃ err, (getInstance P d rl st).1 = .error err) := by
  revert hS
  refine getInstance_induction P (fun d rl st res => OnCycle P st S →
    CycleInv S st res.2 ∧ (S d → ∃ err, res.1 = .error err)) ?_ d rl st
  intro d rl st ih hS
  unfold getInstanceBody
  cases hw : st.modules.lookup d with
  | none => exact ⟨cycleInv_same hS, fun _ => ⟨_, rfl⟩⟩
  | some w =>
    simp only
    cases hi : isObject w.inst with
    | true =>
      simp only [if_true]
      refine ⟨cycleInv_same hS, fun hd => ?_⟩
      have := hS.uninst hd
      simp [isInstanciated, hw, hi] at this
    | false =>
      simp only [Bool.false_eq_true, if_false]
      rw [resolve_eq]
      by_cases hl : nextLevel rl > 1000
      · simp only [hl, if_true]
        exact ⟨cycleInv_same hS, fun _ => ⟨_, rfl⟩⟩
      · simp only [hl, if_false]
        cases hdecl : declaration P st.heap w.constructor (.arr []) with
        | error e => exact ⟨cycleInv_same hS, fun _ => ⟨_, rfl⟩⟩
        | ok fd =>
          obtain ⟨f, ds⟩ := fd
          obtain ⟨id, hf⟩ := declaration_fn hdecl
          subst hf
          obtain ⟨hg, hge⟩ := cycle_getModules P S (nextLevel rl) []
            (fun e s hs => ih (by omega) e s hs) ds st hS
          simp only [resolveRun]
          rcases hr : getModules (forceDep P) [] (nextLevel rl) ds st with ⟨r1, s1⟩
          rw [hr] at hg hge
          cases r1 with
          | error e => exact ⟨hg, fun _ => ⟨e, rfl⟩⟩
          | ok mods =>
            have hnS : ¬ S d := by
              intro hd
              obtain ⟨w2, f2, ds2, d2, hw2, _, hdecl2, hd2, hSd2⟩ := hS d hd
              rw [hw] at hw2
              cases hw2
              rw [hdecl] at hdecl2
              cases hdecl2
              obtain ⟨err, herr⟩ := hge ⟨d2, hd2, hSd2⟩
              cases herr
            simp only [factory]
            rcases hcall : P.call id .undefined mods s1.heap with ⟨rc, h2⟩
            have hq : ∀ m, S m →
                calls (.ctor m) (s1.log ++ [⟨.ctor d, id, .undefined, mods, ds⟩]) =
                  calls (.ctor m) st.log := by
              intro m hm
              rw [calls_snoc_ne]
              · exact hg.quiet m hm
              · intro hc
                cases hc
                exact hnS hm
            have hafter : CycleInv S st
                { s1 with heap := h2, log := s1.log ++ [⟨.ctor d, id, .undefined, mods, ds⟩] } :=
              ⟨hg.grows.gtrans (Grows.of_modules_eq rfl), hg.pend, hq⟩
            cases rc with
            | error e => exact ⟨hafter, fun hd => absurd hd hnS⟩
            | ok obj =>
              simp only
              cases ho : isObject obj with
              | false =>
                simp only [Bool.not_false, if_true]
                exact ⟨hafter, fun hd => absurd hd hnS⟩
              | true =>
                simp only [Bool.not_true, Bool.false_eq_true, if_false]
                refine ⟨⟨grows_setInstance hafter.grows (isInstanciated_false_of_lookup hw hi)
                  obj, ?_, hq⟩, fun hd => absurd hd hnS⟩
                intro m hm
                have hne : m ≠ d := fun hmd => hnS (hmd ▸ hm)
                rw [@isInstanciated_setInstance_ne ⟨h2, s1.modules, _⟩
                  ⟨h2, setInstance d obj s1.modules, _⟩ m d obj hne rfl]
                exact hafter.pend m hm

theorem Stuck.onCycle {P : Prog} {st : St} {S : String → Prop} (h : Stuck P st S) :
    OnCycle P st S := by
  intro n hn
  obtain ⟨w, f, pre, d, post, hw, hi, hdecl, _, hd⟩ := h n hn
  exact ⟨w, f, pre ++ Val.str d :: post, d, hw, hi, hdecl, by simp, hd⟩

/-! ## C2: cycle detection, in general -/

theorem Reaches.cyclic {P : Prog} {st : St} {S : String → Prop} (h : Reaches P st S) :
    OnCycle P st S := by
  intro n hn
  obtain ⟨w, f, pre, d, post, hw, hi, hdecl, _, hd⟩ := h n hn
  exact ⟨w, f, pre ++ Val.str d :: post, d, hw, hi, hdecl, by simp, hd⟩

theorem Stuck.reaches {P : Prog} {st : St} {S : String → Prop} (h : Stuck P st S) :
    Reaches P st S := by
  intro n hn
  obtain ⟨w, f, pre, d, post, hw, hi, hdecl, hpre, hd⟩ := h n hn
  refine ⟨w, f, pre, d, post, hw, hi, hdecl, ?_, hd⟩
  intro p hp
  obtain ⟨q, wq, hq, hwq, hiq⟩ := hpre p hp
  refine ⟨q, hq, by simp [hasOwn, hwq], ?_⟩
  intro lvl s e s1 hg hf
  have := getInstance_cached P (hg.kept q wq hwq hiq) hiq (some lvl)
  rw [show forceDep P q lvl s = getInstance P q (some lvl) s from rfl, this] at hf
  cases hf

/-- Resolving a dependency list whose first name in `S` comes after names
that resolve ends with the loop error, once forcing that name does. -/
theorem reaches_getModules (P : Prog) (S : String → Prop) (st : St) (lvl : Nat) (d : String)
    (post : List Val) (hS : OnCycle P st S) (hd : S d)
    (ihd : ∀ s, CycleInv S st s →
      (forceDep P d lvl s).1 = .error (.error "Loop in module dependencies detected"))
    (pre : List Val) (hpre : ∀ p ∈ pre, Resolves P st p) (s : St) (hc : CycleInv S st s) :
    (getModules (forceDep P) [] lvl (pre ++ Val.str d :: post) s).1 =
      .error (.error "Loop in module dependencies detected") := by
  induction pre generalizing s with
  | nil =>
    have hown : hasOwn d s.modules = true := by
      rw [hc.grows.hasOwn]
      exact hS.registered hd
    have h1 := ihd s hc
    simp only [List.nil_append, getModules, hown, if_true]
    rcases hr : forceDep P d lvl s with ⟨r, s1⟩
    rw [hr] at h1
    simp only at h1
    subst h1
    rfl
  | cons p pre ih =>
    obtain ⟨q, hq, hown0, hres⟩ := hpre p (List.mem_cons_self _ _)
    subst hq
    have hown : hasOwn q s.modules = true := by
      rw [hc.grows.hasOwn]
      exact hown0
    simp only [List.cons_append, getModules, hown, if_true]
    have hinv := (cycle_getInstance P S q (some lvl) s (hS.later hc)).1
    rcases hr : forceDep P q lvl s with ⟨r, s1⟩
    rw [show getInstance P q (some lvl) s = forceDep P q lvl s from rfl, hr] at hinv
    cases r with
    | error e =>
      have := hres lvl s e s1 hc.grows hr
      subst this
      rfl
    | ok v =>
      have h2 := ih (fun x hx => hpre x (List.mem_cons_of_mem _ hx)) s1 (cycleInv_trans hc hinv)
      show (match getModules (forceDep P) [] lvl (pre ++ Val.str d :: post) s1 with
        | (.ok mods, st2) => (Except.ok (v :: mods), st2)
        | (.error e, st2) => (.error e, st2)).1 = _
      rcases hr2 : getModules (forceDep P) [] lvl (pre ++ Val.str d :: post) s1 with ⟨r2, s2⟩
      rw [hr2] at h2
      simp only at h2
      subst h2
      rfl

/-- Forcing a module of `S`, when the declarations of `S` reach `S` again,
ends with the loop error of the depth guard. -/
theorem reaches_getInstance (P : Prog) (S : String → Prop) (st : St) (hS : Reaches P st S)
    (n : String) (rl : Option Nat) (s : St) (hn : S n) (hc : CycleInv S st s) :
    (getInstance P n rl s).1 = .error (.error "Loop in module dependencies detected") := by
  revert hn hc
  refine getInstance_induction P (fun n rl s res => S n → CycleInv S st s →
    res.1 = .error (.error "Loop in module dependencies detected")) ?_ n rl s
  intro n rl s ih hn hc
  obtain ⟨w, f, pre, d, post, hw, hi, hdecl, hpre, hd⟩ := hS n hn
  obtain ⟨w2, hw2, _, hcon, _⟩ := lookup_of_forget hc.grows.shape hw
  have hi2 : isObject w2.inst = false := by
    simpa [isInstanciated, hw2] using hc.pend n hn
  unfold getInstanceBody
  simp only [hw2, hi2, Bool.false_eq_true, if_false, resolve_eq]
  by_cases hl : nextLevel rl > 1000
  · simp only [hl, if_true]
  · have hdecl2 : declaration P s.heap w2.constructor (.arr []) =
        .ok (f, pre ++ Val.str d :: post) := by
      rw [hcon]
      exact declaration_heap hdecl _
    simp only [hl, if_false, hdecl2, resolveRun]
    have hg := reaches_getModules P S st (nextLevel rl) d post hS.cyclic hd
      (fun s2 hc2 => ih (by omega) d s2 hd hc2) pre hpre s hc
    rcases hr : getModules (forceDep P) [] (nextLevel rl) (pre ++ Val.str d :: post) s with
      ⟨r, s1⟩
    rw [hr] at hg
    simp only at hg
    subst hg
    rfl

/-- The first declared name that fails decides the error of a forcing: when
the names before `p` in the declaration of the module `n` resolve, forcing `n`
fails as `p` does, with the error of a name that is not a string, of a name
that nothing provides, or of the forcing of the module that `p` names. -/
theorem getInstance_first_failure (P : Prog) (n : String) (rl : Option Nat) (st : St)
    (w : Wrapper) (f : Val) (pre : List Val) (p : Val) (post : List Val) (mods : List Val)
    (s0 : St) (hw : st.modules.lookup n = some w) (hi : isObject w.inst = false)
    (hdecl : declaration P st.heap w.constructor (.arr []) = .ok (f, pre ++ p :: post))
    (hl : nextLevel rl ≤ 1000)
    (hpre : getModules (forceDep P) [] (nextLevel rl) pre st = (.ok mods, s0)) :
    ((∀ q, p ≠ .str q) →
        getInstance P n rl st = (.error (.error "Dependency must be a string"), s0)) ∧
      (∀ q, p = .str q → hasOwn q s0.modules = false →
        getInstance P n rl st =
          (.error (.error ("Dependency module " ++ q ++ " not found !")), s0)) ∧
      (∀ q e s1, p = .str q → hasOwn q s0.modules = true →
        forceDep P q (nextLevel rl) s0 = (.error e, s1) →
        getInstance P n rl st = (.error e, s1)) := by
  have hl2 : ¬ nextLevel rl > 1000 := by omega
  have hbody : getInstance P n rl st =
      match getModules (forceDep P) [] (nextLevel rl) (p :: post) s0 with
      | (.ok ws, s2) =>
        getInstanceBody P (forceDep P) n rl st
      | (.error e, s2) => (.error e, s2) := by
    rw [getInstance_eq]
    rcases hr : getModules (forceDep P) [] (nextLevel rl) (p :: post) s0 with ⟨r, s2⟩
    cases r with
    | ok ws => rfl
    | error e =>
      unfold getInstanceBody
      simp only [hw, hi, Bool.false_eq_true, if_false, resolve_eq, hl2, hdecl, resolveRun,
        getModules_append, hpre, hr]
  refine ⟨?_, ?_, ?_⟩
  · intro hp
    rw [hbody]
    cases p with
    | str q => exact absurd rfl (hp q)
    | _ => rfl
  · intro q hq hown
    subst hq
    rw [hbody]
    simp only [getModules, hown, Bool.false_eq_true, if_false, List.lookup_nil]
  · intro q e s1 hq hown hf
    subst hq
    rw [hbody]
    simp only [getModules, hown, if_true, hf]

/-- C2 (amended). Cycle detection: when every module of `S` is registered,
not instantiated, well declared, and declares a module of `S` (the declared
dependencies of each lead back into `S`), forcing a module of `S` fails, no
constructor of a module of `S` is called and every module of `S` is still not
instantiated. When the names declared before the one that continues the cycle
resolve (modules already instantiated, or modules whose forcing succeeds or
fails by the depth guard only), the failure is the loop error of the depth
guard; when they are already instantiated, it is raised with the state
unchanged. A declared name that fails after the names before it have resolved
makes the forcing fail with its own error: that of a name that is not a
string, of a name that nothing provides, or of the forcing of the module it
names. -/
theorem cycle_detection (P : Prog) (n : String) (rl : Option Nat) (st : St)
    (S : String → Prop) (hS : OnCycle P st S) (hn : S n) :
    (∃ err, (getInstance P n rl st).1 = .error err) ∧
      (∀ m, S m → isInstanciated (getInstance P n rl st).2 m = false) ∧
      (∀ m, S m → calls (.ctor m) (getInstance P n rl st).2.log = calls (.ctor m) st.log) ∧
      (Reaches P st S →
        (getInstance P n rl st).1 = .error (.error "Loop in module dependencies detected")) ∧
      (Stuck P st S →
        getInstance P n rl st =
          (.error (.error "Loop in module dependencies detected"), st)) ∧
      (∀ w f pre p post mods s0, st.modules.lookup n = some w →
        declaration P st.heap w.constructor (.arr []) = .ok (f, pre ++ p :: post) →
        nextLevel rl ≤ 1000 →
        getModules (forceDep P) [] (nextLevel rl) pre st = (.ok mods, s0) →
        ((∀ q, p ≠ .str q) →
          getInstance P n rl st = (.error (.error "Dependency must be a string"), s0)) ∧
        (∀ q, p = .str q → hasOwn q s0.modules = false →
          getInstance P n rl st =
            (.error (.error ("Dependency module " ++ q ++ " not found !")), s0)) ∧
        (∀ q e s1, p = .str q → hasOwn q s0.modules = true →
          forceDep P q (nextLevel rl) s0 = (.error e, s1) →
          getInstance P n rl st = (.error e, s1))) := by
  obtain ⟨hc, he⟩ := cycle_getInstance P S n rl st hS
  refine ⟨he hn, hc.pend, hc.quiet,
    fun hr => reaches_getInstance P S st hr n rl st hn (cycleInv_same hS),
    fun hst => stuck_getInstance P n rl st S hst hn, ?_⟩
  intro w f pre p post mods s0 hw hdecl hl hpre
  obtain ⟨w2, _, _, _, hw2, hi2, _⟩ := hS n hn
  rw [hw] at hw2
  cases hw2
  exact getInstance_first_failure P n rl st w f pre p post mods s0 hw hi2 hdecl hl hpre

theorem reachReg_reaches : Reaches phaseProg reachReg (fun x => x = "a") := by
  intro n hn
  subst hn
  refine ⟨⟨"a", .arr [.str "p", .str "a", .fn 0], .bool true, .undefined⟩, .fn 0,
    [.str "p"], "a", [], rfl, rfl, rfl, ?_, rfl⟩
  intro p hp
  rw [List.mem_singleton.1 hp]
  refine ⟨"p", rfl, rfl, ?_⟩
  intro lvl s e s1 hg hf
  have hw : reachReg.modules.lookup "p" = some ⟨"p", .fn 0, .bool false, .undefined⟩ := rfl
  obtain ⟨w2, hw2, _, hcon, _⟩ := lookup_of_forget hg.shape hw
  rw [show forceDep phaseProg "p" lvl s = getInstance phaseProg "p" (some lvl) s from rfl,
    getInstance_eq] at hf
  unfold getInstanceBody at hf
  simp only [hw2, resolve_eq, hcon] at hf
  cases hi : isObject w2.inst with
  | true =>
    simp only [hi, if_true] at hf
    cases hf
  | false =>
    simp only [hi, Bool.false_eq_true, if_false] at hf
    by_cases hl : nextLevel (some lvl) > 1000
    · simp only [hl, if_true, Prod.mk.injEq, Except.error.injEq] at hf
      exact hf.1.symm
    · have hd : declaration phaseProg s.heap (.fn 0) (.arr []) = .ok (.fn 0, []) := rfl
      simp only [hl, if_false, hd, resolveRun, getModules, factory] at hf
      have hcall : phaseProg.call 0 .undefined [] s.heap =
          (.ok (.obj s.heap.length), s.heap ++ [[("$init", .fn 1)]]) := rfl
      simp only [hcall, isObject, Bool.not_true, Bool.false_eq_true, if_false] at hf
      cases hf

theorem selfAfterMissingReg_onCycle :
    OnCycle exampleProg selfAfterMissingReg (fun x => x = "a") := by
  intro n hn
  subst hn
  exact ⟨⟨"a", .arr [.str "nope", .str "a", .fn 0], .bool true, .undefined⟩, .fn 0,
    [.str "nope", .str "a"], "a", rfl, rfl, rfl, by simp, rfl⟩

theorem cycle_detection_witness :
    OnCycle phaseProg reachReg (fun x => x = "a") ∧
      Reaches phaseProg reachReg (fun x => x = "a") ∧
      (getInstance phaseProg "a" none reachReg).1 =
        .error (.error "Loop in module dependencies detected") ∧
      isInstanciated (getInstance phaseProg "a" none reachReg).2 "a" = false ∧
      OnCycle exampleProg selfAfterMissingReg (fun x => x = "a") ∧
      getInstance exampleProg "a" none selfAfterMissingReg =
        (.error (.error "Dependency module nope not found !"), selfAfterMissingReg) :=
  ⟨Reaches.cyclic reachReg_reaches, reachReg_reaches,
    (cycle_detection phaseProg "a" none reachReg (fun x => x = "a")
      (Reaches.cyclic reachReg_reaches) rfl).2.2.2.1 reachReg_reaches,
    (cycle_detection phaseProg "a" none reachReg (fun x => x = "a")
      (Reaches.cyclic reachReg_reaches) rfl).2.1 "a" rfl,
    selfAfterMissingReg_onCycle,
    ((cycle_detection exampleProg "a" none selfAfterMissingReg (fun x => x = "a")
      selfAfterMissingReg_onCycle rfl).2.2.2.2.2
        ⟨"a", .arr [.str "nope", .str "a", .fn 0], .bool true, .undefined⟩ (.fn 0) []
        (.str "nope") [.str "a"] [] selfAfterMissingReg rfl rfl (by decide) rfl).2.1
      "nope" rfl rfl⟩

/-! ## C15: the default startup flag -/

theorem lookup_append_new {ms : List (String × Wrapper)} {n : String}
    (h : hasOwn n ms = false) (w : Wrapper) : (ms ++ [(n, w)]).lookup n = some w := by
  have hnone : ms.lookup n = none := by simpa [hasOwn] using h
  rw [List.lookup_append, hnone]
  simp [List.lookup_cons]

/-- A registration that succeeds appends one wrapper and changes nothing
else. -/
theorem module_ok {name constructor loadOnStartup : Val} {st st2 : St}
    (h : module name constructor loadOnStartup st = (.ok (), st2)) :
    ∃ n, name = .str n ∧ n ≠ "" ∧ hasOwn n st.modules = false ∧
      st2 = { st with modules := st.modules ++
        [(n, singletonFactory n constructor
          (jsOr (if isBoolean loadOnStartup then loadOnStartup else .bool true) (.bool false))
          .undefined)] } := by
  unfold module at h
  cases name with
  | str n =>
    simp only at h
    by_cases hn : n = ""
    · simp [hn] at h
    · simp only [hn, if_false, register, addModule] at h
      cases ho : hasOwn n st.modules with
      | true => simp [ho] at h
      | false =>
        simp only [ho, Bool.false_eq_true, if_false, Prod.mk.injEq, true_and] at h
        exact ⟨n, rfl, hn, ho, h.symm⟩
  | _ => simp at h

/-- C15. Default startup flag: after a successful
`module(name, constructor, loadOnStartup)` the wrapper stored under `name`
answers `loadOnStartup()` with the supplied value when it is a boolean, and
with `true` when the argument is omitted (`undefined`) or is not a boolean. -/
theorem default_startup_flag (name constructor loadOnStartup : Val) (st st2 : St)
    (h : module name constructor loadOnStartup st = (.ok (), st2)) :
    ∃ n w, name = .str n ∧ st2.modules.lookup n = some w ∧
      (∀ b, loadOnStartup = .bool b → w.loadOnStartup = .bool b) ∧
      (isBoolean loadOnStartup = false → w.loadOnStartup = .bool true) := by
  obtain ⟨n, hname, _, hfresh, hst⟩ := module_ok h
  refine ⟨n, singletonFactory n constructor
    (jsOr (if isBoolean loadOnStartup then loadOnStartup else .bool true) (.bool false))
    .undefined, hname, ?_, ?_, ?_⟩
  · rw [hst]
    exact lookup_append_new hfresh _
  · intro b hb
    subst hb
    cases b <;> rfl
  · intro hb
    simp only [singletonFactory, hb, Bool.false_eq_true, if_false]
    rfl

theorem default_startup_flag_witness :
    ∃ n w, Val.str "low" = .str n ∧
      (module (.str "low") (.fn 0) (.bool false) init).2.modules.lookup n = some w ∧
      (∀ b, Val.bool false = .bool b → w.loadOnStartup = .bool b) ∧
      (isBoolean (.bool false) = false → w.loadOnStartup = .bool true) :=
  default_startup_flag (.str "low") (.fn 0) (.bool false) init
    (module (.str "low") (.fn 0) (.bool false) init).2 rfl

/-! ## C14: callables that cannot be invoked -/

/-- C14 (as stated, refuted). Three inputs of `resolve` whose callable is not
a function and that do not fail with the error of a non-function: an object
whose own `$inject` is not an array fails with the `$inject` error; any
callable past the depth bound fails with the loop error; `null` (as for a
module registered without a constructor, here `undefined`) fails with the
`TypeError` of the property access `func.hasOwnProperty`. -/
theorem non_function_other_errors :
    resolve exampleProg (forceDep exampleProg) .direct (.obj 0) .undefined [] 0
        ⟨[[("$inject", .num 5)]], [], []⟩ =
        (.error (.error "$inject parameter must be an array"),
          ⟨[[("$inject", .num 5)]], [], []⟩) ∧
      resolve exampleProg (forceDep exampleProg) .direct (.num 3) .undefined [] 1001 init =
        (.error (.error "Loop in module dependencies detected"), init) ∧
      resolve exampleProg (forceDep exampleProg) .direct .null .undefined [] 0 init =
        (.error .typeError, init) ∧
      getInstance exampleProg "m" none (module (.str "m") .undefined .undefined init).2 =
        (.error .typeError, (module (.str "m") .undefined .undefined init).2) :=
  ⟨rfl, rfl, rfl, rfl⟩

/-- C14 (amended). Callables that cannot be invoked: below the depth bound,
`resolve` fails with the error of a non-function, in an unchanged state (so
nothing has been invoked), for an array, the empty array included, whose last
element is not a function (`Last element must be a function`), and for a value
that is neither an array, nor a function, nor `undefined` or `null`, on which
`hasOwnProperty` is the built-in method (a boolean, a number, a string, or an
object without an own property of that name), and that has no own `$inject`
other than an array (`First element must be a function`). -/
theorem non_invocable_callable (P : Prog) (force : String → Nat → St → Res Val) (who : Label)
    (func deps : Val) (ext : Props) (lvl : Nat) (st : St) (hl : lvl ≤ 1000) :
    (∀ array, func = .arr array → isFunction (array.getLast?.getD .undefined) = false →
      resolve P force who func deps ext lvl st =
        (.error (.error "Last element must be a function"), st)) ∧
    (isArray func = false → isFunction func = false → isUndefinedOrNull func = false →
      builtinHasOwnProperty st.heap func = true →
      (∀ inj, ownInject P st.heap func = .ok (some inj) → isArray inj = true) →
      resolve P force who func deps ext lvl st =
        (.error (.error "First element must be a function"), st)) := by
  have hl2 : ¬ lvl > 1000 := by omega
  refine ⟨?_, ?_⟩
  · intro array hf hlast
    subst hf
    simp only [resolve, hl2, if_false, hlast, Bool.not_false, if_true]
  · intro ha hf hn _ hinj
    cases func with
    | arr a => simp [isArray] at ha
    | fn f => simp [isFunction] at hf
    | undefined => simp [isUndefinedOrNull] at hn
    | null => simp [isUndefinedOrNull] at hn
    | obj a =>
      simp only [resolve, hl2, if_false, ownInject]
      cases hi : (st.heap.getD a []).lookup "$inject" with
      | none => simp [resolveCall, isFunction]
      | some inj =>
        have := hinj inj (by simp only [ownInject, hi])
        simp [this, resolveCall, isFunction]
    | _ => simp [resolve, hl2, ownInject, resolveCall, isFunction]

theorem non_invocable_callable_witness :
    resolve exampleProg (forceDep exampleProg) .direct (.arr []) .undefined [] 0 init =
        (.error (.error "Last element must be a function"), init) ∧
      resolve exampleProg (forceDep exampleProg) .direct (.arr [.str "low", .num 1]) .undefined
          [] 0 init = (.error (.error "Last element must be a function"), init) ∧
      resolve exampleProg (forceDep exampleProg) .direct (.obj 0) .undefined [] 0
          ⟨[[("value", .num 1)]], [], []⟩ =
        (.error (.error "First element must be a function"), ⟨[[("value", .num 1)]], [], []⟩) ∧
      resolve exampleProg (forceDep exampleProg) .direct (.str "f") (.arr []) [] 1000 init =
        (.error (.error "First element must be a function"), init) :=
  ⟨(non_invocable_callable exampleProg (forceDep exampleProg) .direct (.arr []) .undefined [] 0
      init (by decide)).1 [] rfl rfl,
    (non_invocable_callable exampleProg (forceDep exampleProg) .direct
      (.arr [.str "low", .num 1]) .undefined [] 0 init (by decide)).1 [.str "low", .num 1] rfl
      rfl,
    (non_invocable_callable exampleProg (forceDep exampleProg) .direct (.obj 0) .undefined [] 0
      ⟨[[("value", .num 1)]], [], []⟩ (by decide)).2 rfl rfl rfl rfl
      (fun inj h => by cases h),
    (non_invocable_callable exampleProg (forceDep exampleProg) .direct (.str "f") (.arr []) []
      1000 init (by decide)).2 rfl rfl rfl rfl (fun inj h => by cases h)⟩

/-! ## C13: failures during boot -/

theorem forEachLoop_append (callback : String → St → Res Unit) (pre rest : List String)
    (st : St) :
    forEachLoop callback (pre ++ rest) st =
      match forEachLoop callback pre st with
      | (.ok _, s) => forEachLoop callback rest s
      | (.error e, s) => (.error e, s) := by
  induction pre generalizing st with
  | nil => rfl
  | cons n pre ih =>
    simp only [List.cons_append, forEachLoop]
    rcases callback n st with ⟨r, s1⟩
    cases r with
    | error e => rfl
    | ok u => exact ih s1

theorem forEachLoop_failsAt {callback : String → St → Res Unit} {ns : List String} {st : St}
    {e : Err} {s1 : St} (h : FailsAt callback ns st e s1) :
    forEachLoop callback ns st = (.error e, s1) := by
  obtain ⟨pre, n, post, s, hns, hpre, hn⟩ := h
  rw [hns, forEachLoop_append, hpre]
  simp only [forEachLoop, hn]

theorem getInstance_grows (P : Prog) (d : String) (rl : Option Nat) (st : St) :
    Grows st (getInstance P d rl st).2 :=
  (getInstance_post P d rl st (fun _ => False) (pending_none P st d)).grows

theorem boot_grows (P : Prog) (st : St) : Grows st (boot P st).2 :=
  boot_invariant P (Grows st)
    (fun d rl s hq => hq.gtrans (getInstance_grows P d rl s))
    (fun step n m s hq => hq.gtrans (injectorResolve_post P (.phase step n) m .undefined [] s).grows)
    st (Grows.grefl st)

/-- C13. Boot failure semantics: when the visit of a module fails during
the instantiating pass or during a phase (because forcing a startup module or
resolving a phase method raised the error `e`, which the visit passes on),
`boot` returns exactly that error in exactly the state `s1` in which the
failing visit ended: the rest of the pass and the later passes are not run,
so no further constructor or phase method is called. Nothing is rolled back:
every visit, failing or not, and `boot` as a whole keep every registration
and every instance cached so far. -/
theorem boot_failure (P : Prog) (st : St) :
    (∀ e s1, FailsAt (instanciateVisit P) (enumKeys st.modules) st e s1 →
      boot P st = (.error e, s1)) ∧
    (∀ s0 e s1, instanciate P st = (.ok (), s0) →
      FailsAt (execStepVisit P "$init") (enumKeys s0.modules) s0 e s1 →
      boot P st = (.error e, s1)) ∧
    (∀ s0 s2 e s1, instanciate P st = (.ok (), s0) → execStep P "$init" s0 = (.ok (), s2) →
      FailsAt (execStepVisit P "$build") (enumKeys s2.modules) s2 e s1 →
      boot P st = (.error e, s1)) ∧
    (∀ s0 s2 s3 e s1, instanciate P st = (.ok (), s0) → execStep P "$init" s0 = (.ok (), s2) →
      execStep P "$build" s2 = (.ok (), s3) →
      FailsAt (execStepVisit P "$final") (enumKeys s3.modules) s3 e s1 →
      boot P st = (.error e, s1)) ∧
    (∀ n s w e s1, s.modules.lookup n = some w → truthy w.loadOnStartup = true →
      getInstance P n none s = (.error e, s1) → instanciateVisit P n s = (.error e, s1)) ∧
    (∀ step n s w a m e s1, s.modules.lookup n = some w → w.inst = .obj a →
      (s.heap.getD a []).lookup step = some m →
      injectorResolve P (.phase step n) m .undefined [] s = (.error e, s1) →
      execStepVisit P step n s = (.error e, s1)) ∧
    (∀ n s, Grows s (instanciateVisit P n s).2) ∧
    (∀ step n s, Grows s (execStepVisit P step n s).2) ∧
    Grows st (boot P st).2 := by
  refine ⟨?_, ?_, ?_, ?_, ?_, ?_, fun n s => instanciateVisit_grows P n s,
    fun step n s => execStepVisit_grows P step n s, boot_grows P st⟩
  · intro e s1 h
    have h1 : instanciate P st = (.error e, s1) := forEachLoop_failsAt h
    simp only [boot, h1]
  · intro s0 e s1 h0 h
    have h1 : execStep P "$init" s0 = (.error e, s1) := forEachLoop_failsAt h
    simp only [boot, h0, h1]
  · intro s0 s2 e s1 h0 h2 h
    have h1 : execStep P "$build" s2 = (.error e, s1) := forEachLoop_failsAt h
    simp only [boot, h0, h2, h1]
  · intro s0 s2 s3 e s1 h0 h2 h3 h
    have h1 : execStep P "$final" s3 = (.error e, s1) := forEachLoop_failsAt h
    simp only [boot, h0, h2, h3, h1]
  · intro n s w e s1 hw ht hg
    simp only [instanciateVisit, hw, ht, if_true, hg]
  · intro step n s w a m e s1 hw hi hm hr
    have hio : isObject w.inst = true := by rw [hi]; rfl
    simp only [execStepVisit, hw, hio, if_true, getInstance_cached P hw hio none, hi, hm, hr,
      isObject]

/-! ## C12: the order of `forEachModules` -/

theorem indexPart_map_snd (names : List String) :
    ((names.filterMap fun k => (arrayIndex? k).map fun n => (n, k)).map fun a => a.2) =
      names.filter fun k => (arrayIndex? k).isSome := by
  induction names with
  | nil => rfl
  | cons k ks ih =>
    cases h : arrayIndex? k with
    | none => simp [List.filterMap_cons, List.filter_cons, h, ih]
    | some n => simp [List.filterMap_cons, List.filter_cons, h, ih]

theorem indexPart_perm (names : List String) :
    (indexPart names).Perm (names.filter fun k => (arrayIndex? k).isSome) := by
  unfold indexPart
  rw [← indexPart_map_snd]
  exact (List.perm_insertionSort _ _).map _

theorem enumNames_eq (names : List String) :
    enumNames names = indexPart names ++ names.filter fun k => (arrayIndex? k).isNone := rfl

theorem enumNames_perm (names : List String) : (enumNames names).Perm names := by
  rw [enumNames_eq]
  have h1 := (indexPart_perm names).append_right (names.filter fun k => (arrayIndex? k).isNone)
  refine h1.trans ?_
  have h2 := List.filter_append_perm (fun k => (arrayIndex? k).isSome) names
  have h3 : (fun k => !(arrayIndex? k).isSome) = fun k => (arrayIndex? k).isNone := by
    funext k
    cases arrayIndex? k <;> rfl
  rw [h3] at h2
  exact h2

theorem indexPart_isSome (names : List String) (k : String) (hk : k ∈ indexPart names) :
    (arrayIndex? k).isSome = true := by
  have := (indexPart_perm names).mem_iff.1 hk
  rw [List.mem_filter] at this
  exact this.2

theorem indexPart_sorted (names : List String) :
    List.Pairwise (fun a b => ∀ i j, arrayIndex? a = some i → arrayIndex? b = some j → i ≤ j)
      (indexPart names) := by
  unfold indexPart
  haveI : IsTotal (Nat × String) (fun a b => a.1 ≤ b.1) := ⟨fun a b => Nat.le_total a.1 b.1⟩
  haveI : IsTrans (Nat × String) (fun a b => a.1 ≤ b.1) := ⟨fun _ _ _ h1 h2 => Nat.le_trans h1 h2⟩
  have hs := List.sorted_insertionSort (fun a b : Nat × String => a.1 ≤ b.1)
    (names.filterMap fun k => (arrayIndex? k).map fun n => (n, k))
  rw [List.pairwise_map]
  refine List.Pairwise.imp_of_mem ?_ hs
  intro a b ha hb hab i j hi hj
  have hmem : ∀ p : Nat × String,
      p ∈ (names.filterMap fun k => (arrayIndex? k).map fun n => (n, k)).insertionSort
        (fun a b => a.1 ≤ b.1) → arrayIndex? p.2 = some p.1 := by
    intro p hp
    rw [(List.perm_insertionSort _ _).mem_iff, List.mem_filterMap] at hp
    obtain ⟨k, _, hk⟩ := hp
    cases hx : arrayIndex? k with
    | none => simp [hx] at hk
    | some n =>
      simp only [hx, Option.map_some', Option.some.injEq] at hk
      rw [← hk]
      exact hx
  have h1 := hmem a ha
  have h2 := hmem b hb
  rw [h1] at hi
  rw [h2] at hj
  cases hi
  cases hj
  exact hab

theorem indexPart_cons_none (k : String) (names : List String) (h : arrayIndex? k = none) :
    indexPart (k :: names) = indexPart names := by
  simp [indexPart, List.filterMap_cons, h]

theorem not_mem_keys_of_hasOwn {ms : List (String × Wrapper)} {n : String}
    (h : hasOwn n ms = false) : n ∉ ms.map fun p => p.1 := by
  induction ms with
  | nil => simp
  | cons p ms ih =>
    obtain ⟨k, w⟩ := p
    simp only [hasOwn, List.lookup_cons] at h ih
    cases hk : n == k with
    | true => rw [hk] at h; simp at h
    | false =>
      rw [hk] at h
      have hne : n ≠ k := by simpa using hk
      simp only [List.map_cons, List.mem_cons, not_or]
      exact ⟨hne, ih h⟩

theorem registerAll_keys (rs : List (Val × Val × Val)) (st st2 : St)
    (h : registerAll rs st = (.ok (), st2)) :
    (st2.modules.map fun p => p.1) = (st.modules.map fun p => p.1) ++ rs.map (fun r => nameOf r.1) ∧
      ((st.modules.map fun p => p.1).Nodup → (st2.modules.map fun p => p.1).Nodup) := by
  induction rs generalizing st with
  | nil =>
    simp only [registerAll, Prod.mk.injEq, true_and] at h
    subst h
    simp
  | cons r rs ih =>
    obtain ⟨n, c, l⟩ := r
    simp only [registerAll] at h
    rcases hm : module n c l st with ⟨r1, s1⟩
    rw [hm] at h
    cases r1 with
    | error e => cases h
    | ok u =>
      simp only at h
      obtain ⟨k, hname, _, hfresh, hs1⟩ := module_ok hm
      obtain ⟨h1, h2⟩ := ih s1 h
      have hk1 : (s1.modules.map fun p => p.1) = (st.modules.map fun p => p.1) ++ [k] := by
        rw [hs1]
        simp
      refine ⟨?_, ?_⟩
      · rw [h1, hk1, hname]
        simp [nameOf]
      · intro hnd
        apply h2
        rw [hk1]
        exact List.Nodup.append hnd (List.nodup_singleton k)
          (by
            intro x hx hx2
            rw [List.mem_singleton] at hx2
            subst hx2
            exact not_mem_keys_of_hasOwn hfresh hx)

theorem forEachLoop_total (callback : String → St → Res Unit)
    (hcb : ∀ n s, (callback n s).1 = .ok ()) (ns : List String) (st : St) :
    forEachLoop callback ns st = (.ok (), ns.foldl (fun s n => (callback n s).2) st) := by
  induction ns generalizing st with
  | nil => rfl
  | cons n ns ih =>
    simp only [forEachLoop, List.foldl_cons]
    have h := hcb n st
    rcases hr : callback n st with ⟨r, s1⟩
    rw [hr] at h
    simp only at h
    subst h
    exact ih s1

/-! ## C18: the depth guard on an acyclic chain -/

theorem Chain.head {P : Prog} {st : St} {m : String} {rest : List String}
    (h : Chain P st (m :: rest)) :
    ChainLink P st m (match rest with | [] => [] | m2 :: _ => [.str m2]) := by
  cases rest with
  | nil => exact h
  | cons m2 rest => exact h.1

theorem Chain.suffix {P : Prog} {st : St} (pre : List String) {m : String} {suf : List String}
    (h : Chain P st (pre ++ m :: suf)) : Chain P st (m :: suf) := by
  induction pre with
  | nil => exact h
  | cons p pre ih =>
    cases pre with
    | nil => exact h.2
    | cons p2 pre => exact ih h.2

theorem Chain.unique {P : Prog} {st : St} {m : String} {r1 r2 : List String}
    (h1 : Chain P st (m :: r1)) (h2 : Chain P st (m :: r2)) : r1 = r2 := by
  induction r1 generalizing m r2 with
  | nil =>
    cases r2 with
    | nil => rfl
    | cons b r2 =>
      obtain ⟨w, f, hw, _, hd, _⟩ := h1
      obtain ⟨⟨w2, f2, hw2, _, hd2, _⟩, _⟩ := h2
      rw [hw] at hw2
      cases hw2
      rw [hd] at hd2
      cases hd2
  | cons a r1 ih =>
    cases r2 with
    | nil =>
      obtain ⟨⟨w, f, hw, _, hd, _⟩, _⟩ := h1
      obtain ⟨w2, f2, hw2, _, hd2, _⟩ := h2
      rw [hw] at hw2
      cases hw2
      rw [hd] at hd2
      cases hd2
    | cons b r2 =>
      obtain ⟨⟨w, f, hw, _, hd, _⟩, ht1⟩ := h1
      obtain ⟨⟨w2, f2, hw2, _, hd2, _⟩, ht2⟩ := h2
      rw [hw] at hw2
      cases hw2
      rw [hd] at hd2
      cases hd2
      rw [ih ht1 ht2]

/-- A chain names each module once: the dependency graph has no cycle. -/
theorem Chain.nodup {P : Prog} {st : St} {ms : List String} (h : Chain P st ms) : ms.Nodup := by
  induction ms with
  | nil => exact List.nodup_nil
  | cons m rest ih =>
    rw [List.nodup_cons]
    constructor
    · intro hm
      obtain ⟨a, b, hab⟩ := List.append_of_mem hm
      have h2 : Chain P st (m :: b) := by
        have h3 : Chain P st ((m :: a) ++ m :: b) := by
          rw [List.cons_append, ← hab]
          exact h
        exact Chain.suffix (m :: a) h3
      have h4 := Chain.unique h h2
      have h5 := congrArg List.length h4
      rw [hab] at h5
      simp at h5
      omega
    · cases rest with
      | nil => exact List.nodup_nil
      | cons m2 rest => exact ih h.2

/-- Beyond the bound: forcing the head of a chain whose last module would be
resolved at a nesting level above 1000 raises the loop error, and nothing has
changed. -/
theorem chain_too_deep (P : Prog) (st : St) (ms : List String) (rl : Option Nat)
    (h : Chain P st ms) (hk : 1001 < nextLevel rl + ms.length) :
    getInstance P (ms.headD "") rl st =
      (.error (.error "Loop in module dependencies detected"), st) := by
  induction ms generalizing rl with
  | nil => exact h.elim
  | cons m rest ih =>
    obtain ⟨w, f, hw, hi, hd, _⟩ := Chain.head h
    rw [List.headD_cons, getInstance_eq]
    unfold getInstanceBody
    simp only [hw, hi, resolve_eq]
    by_cases hl : nextLevel rl > 1000
    · simp only [hl, if_true, Bool.false_eq_true, if_false]
    · cases rest with
      | nil =>
        simp only [List.length_cons, List.length_nil] at hk
        omega
      | cons m2 rest =>
        obtain ⟨w2, _, hw2, _⟩ := Chain.head h.2
        have hown : hasOwn m2 st.modules = true := by simp [hasOwn, hw2]
        have hrec := ih (some (nextLevel rl)) h.2 (by
          simp only [List.length_cons, nextLevel] at hk ⊢
          omega)
        rw [List.headD_cons] at hrec
        simp only [hl, if_false, Bool.false_eq_true, hd, resolveRun, getModules, hown, if_true,
          forceDep, hrec]

/-- Within the bound: forcing the head of a chain whose last module is
resolved at a nesting level of at most 1000 succeeds, and every module of the
chain is instantiated afterwards. -/
theorem chain_within_bound (P : Prog) (st : St) (ms : List String) (rl : Option Nat)
    (h : Chain P st ms) (hk : nextLevel rl + ms.length ≤ 1001) :
    ∃ v s1, getInstance P (ms.headD "") rl st = (.ok v, s1) ∧ isObject v = true ∧
      Grows st s1 ∧ ∀ n ∈ ms, isInstanciated s1 n = true := by
  induction ms generalizing rl with
  | nil => exact h.elim
  | cons m rest ih =>
    obtain ⟨w, f, hw, hi, hd, hcall⟩ := Chain.head h
    have hun : isInstanciated st m = false := isInstanciated_false_of_lookup hw hi
    have hl : ¬ nextLevel rl > 1000 := by
      simp only [List.length_cons] at hk
      omega
    rw [List.headD_cons, getInstance_eq]
    unfold getInstanceBody
    simp only [hw, hi, resolve_eq, hl, if_false, Bool.false_eq_true, hd, resolveRun]
    cases rest with
    | nil =>
      obtain ⟨a, ha⟩ := hcall .undefined [] st.heap
      simp only [getModules, factory]
      rcases hc : P.call f .undefined [] st.heap with ⟨r, h2⟩
      rw [hc] at ha
      simp only at ha
      subst ha
      simp only [isObject, Bool.not_true, Bool.false_eq_true, if_false]
      have hg2 : Grows st ⟨h2, st.modules, st.log ++ [⟨.ctor m, f, .undefined, [], []⟩]⟩ :=
        Grows.of_modules_eq rfl
      refine ⟨_, _, rfl, rfl, grows_setInstance hg2 hun _, ?_⟩
      intro n hn
      rw [List.mem_singleton] at hn
      subst hn
      simp [isInstanciated, lookup_setInstance, hw, isObject]
    | cons m2 rest =>
      obtain ⟨w2, _, hw2, _⟩ := Chain.head h.2
      have hown : hasOwn m2 st.modules = true := by simp [hasOwn, hw2]
      obtain ⟨v, s1, hrec, hv, hg, hall⟩ := ih (some (nextLevel rl)) h.2 (by
        simp only [List.length_cons, nextLevel] at hk ⊢
        omega)
      rw [List.headD_cons] at hrec
      obtain ⟨a, ha⟩ := hcall .undefined [v] s1.heap
      simp only [getModules, hown, if_true, forceDep, hrec, factory]
      rcases hc : P.call f .undefined [v] s1.heap with ⟨r, h2⟩
      rw [hc] at ha
      simp only at ha
      subst ha
      simp only [isObject, Bool.not_true, Bool.false_eq_true, if_false]
      have hg2 : Grows st ⟨h2, s1.modules, s1.log ++ [⟨.ctor m, f, .undefined, [v], [.str m2]⟩]⟩ :=
        hg.gtrans (Grows.of_modules_eq rfl)
      refine ⟨_, _, rfl, rfl, grows_setInstance hg2 hun _, ?_⟩
      intro n hn
      rcases List.mem_cons.1 hn with h1 | h1
      · subst h1
        obtain ⟨w3, hw3, _⟩ := lookup_of_forget hg.shape hw
        simp [isInstanciated, lookup_setInstance, hw3, isObject]
      · exact isInstanciated_setInstance rfl (hall n h1)

/-- C18. Depth bound counts nesting, not cycles: for a chain of
uninstantiated modules `m0 :: rest` in which each module declares exactly the
next one and the last declares none, all constructors returning objects, no
module occurs twice (the graph is acyclic), and forcing `m0` at the nesting
level `rl` (`none` when forced from outside any resolution, as `boot` does)
succeeds, instantiating the whole chain, when the last module is resolved at a
level of at most 1000, and otherwise fails with the loop error, leaving the
state as it was. Forced from outside, with `k = rest.length`: success when
`k ≤ 1000`, the loop error when `k > 1000`. -/
theorem depth_bound (P : Prog) (st : St) (m0 : String) (rest : List String) (rl : Option Nat)
    (h : Chain P st (m0 :: rest)) :
    (m0 :: rest).Nodup ∧
      (nextLevel rl + rest.length ≤ 1000 →
        ∃ v s1, getInstance P m0 rl st = (.ok v, s1) ∧ isObject v = true ∧
          ∀ n ∈ m0 :: rest, isInstanciated s1 n = true) ∧
      (1000 < nextLevel rl + rest.length →
        getInstance P m0 rl st =
          (.error (.error "Loop in module dependencies detected"), st)) ∧
      (rest.length ≤ 1000 ↔ ∃ v s1, getInstance P m0 none st = (.ok v, s1)) ∧
      (1000 < rest.length ↔ getInstance P m0 none st =
        (.error (.error "Loop in module dependencies detected"), st)) := by
  have hok : ∀ rl, nextLevel rl + rest.length ≤ 1000 →
      ∃ v s1, getInstance P m0 rl st = (.ok v, s1) ∧ isObject v = true ∧
        ∀ n ∈ m0 :: rest, isInstanciated s1 n = true := by
    intro rl hk
    obtain ⟨v, s1, h1, h2, _, h3⟩ := chain_within_bound P st (m0 :: rest) rl h (by
      simp only [List.length_cons]
      omega)
    exact ⟨v, s1, h1, h2, h3⟩
  have hbad : ∀ rl, 1000 < nextLevel rl + rest.length →
      getInstance P m0 rl st = (.error (.error "Loop in module dependencies detected"), st) := by
    intro rl hk
    exact chain_too_deep P st (m0 :: rest) rl h (by
      simp only [List.length_cons]
      omega)
  refine ⟨Chain.nodup h, hok rl, hbad rl, ⟨fun hk => ?_, fun hs => ?_⟩, ⟨fun hk => ?_, fun hs => ?_⟩⟩
  · obtain ⟨v, s1, h1, _⟩ := hok none (by simpa [nextLevel] using hk)
    exact ⟨v, s1, h1⟩
  · by_contra hk
    obtain ⟨v, s1, h1⟩ := hs
    rw [hbad none (by simp only [nextLevel]; omega)] at h1
    cases h1
  · exact hbad none (by simpa [nextLevel] using hk)
  · by_contra hk
    obtain ⟨v, s1, h1, _⟩ := hok none (by simp only [nextLevel]; omega)
    rw [h1] at hs
    cases hs

theorem chainReg_chain : Chain phaseProg chainReg ["a", "b"] :=
  ⟨⟨_, 0, rfl, rfl, rfl, fun _ _ h => ⟨h.length, rfl⟩⟩,
    ⟨_, 0, rfl, rfl, rfl, fun _ _ h => ⟨h.length, rfl⟩⟩⟩

theorem depth_bound_witness :
    Chain phaseProg chainReg ["a", "b"] ∧
      (∃ v s1, getInstance phaseProg "a" none chainReg = (.ok v, s1) ∧ isObject v = true ∧
        ∀ n ∈ ["a", "b"], isInstanciated s1 n = true) ∧
      getInstance phaseProg "a" (some 999) chainReg =
        (.error (.error "Loop in module dependencies detected"), chainReg) :=
  ⟨chainReg_chain,
    (depth_bound phaseProg chainReg "a" ["b"] none chainReg_chain).2.1 (by decide),
    (depth_bound phaseProg chainReg "a" ["b"] (some 999) chainReg_chain).2.2.1 (by decide)⟩

/-! ## C11: the order of registration -/

theorem Sim.srefl (st : St) : Sim st st := ⟨rfl, rfl, fun _ => rfl⟩

theorem Sim.own {st st2 : St} (h : Sim st st2) (d : String) :
    hasOwn d st.modules = hasOwn d st2.modules := by
  simp only [hasOwn, h.2.2 d]

theorem getModules_sim (force : String → Nat → St → Res Val) (ext : Props) (lvl : Nat)
    (hforce : ∀ d s s2, Sim s s2 →
      (force d lvl s).1 = (force d lvl s2).1 ∧ Sim (force d lvl s).2 (force d lvl s2).2)
    (ds : List Val) (st st2 : St) (h : Sim st st2) :
    (getModules force ext lvl ds st).1 = (getModules force ext lvl ds st2).1 ∧
      Sim (getModules force ext lvl ds st).2 (getModules force ext lvl ds st2).2 := by
  induction ds generalizing st st2 with
  | nil => exact ⟨rfl, h⟩
  | cons dep rest ih =>
    cases dep with
    | str d =>
      simp only [getModules]
      rw [h.own d]
      cases ho : hasOwn d st2.modules with
      | true =>
        simp only [if_true]
        have hf := hforce d st st2 h
        rcases hr : force d lvl st with ⟨r, s1⟩
        rcases hr2 : force d lvl st2 with ⟨r2, t1⟩
        rw [hr, hr2] at hf
        obtain ⟨h1, h2⟩ := hf
        simp only at h1 h2
        subst h1
        cases r with
        | error e => exact ⟨rfl, h2⟩
        | ok v =>
          simp only
          have hg := ih s1 t1 h2
          rcases hq : getModules force ext lvl rest s1 with ⟨q, s2⟩
          rcases hq2 : getModules force ext lvl rest t1 with ⟨q2, t2⟩
          rw [hq, hq2] at hg
          obtain ⟨h3, h4⟩ := hg
          simp only at h3 h4
          subst h3
          cases q with
          | error e => exact ⟨rfl, h4⟩
          | ok mods => exact ⟨rfl, h4⟩
      | false =>
        simp only [Bool.false_eq_true, if_false]
        cases ext.lookup d with
        | none => exact ⟨rfl, h⟩
        | some v =>
          simp only
          have hg := ih st st2 h
          rcases hq : getModules force ext lvl rest st with ⟨q, s2⟩
          rcases hq2 : getModules force ext lvl rest st2 with ⟨q2, t2⟩
          rw [hq, hq2] at hg
          obtain ⟨h3, h4⟩ := hg
          simp only at h3 h4
          subst h3
          cases q with
          | error e => exact ⟨rfl, h4⟩
          | ok mods => exact ⟨rfl, h4⟩
    | _ => exact ⟨rfl, h⟩

/-- Forcing a module only reads the registry through its names: on two
registries that hold the same wrapper under every name it gives the same
result and leaves two such registries. -/
theorem getInstance_sim (P : Prog) (d : String) (rl : Option Nat) (st st2 : St)
    (h : Sim st st2) :
    (getInstance P d rl st).1 = (getInstance P d rl st2).1 ∧
      Sim (getInstance P d rl st).2 (getInstance P d rl st2).2 := by
  revert st2
  refine getInstance_induction P (fun d rl st res => ∀ st2, Sim st st2 →
    res.1 = (getInstance P d rl st2).1 ∧ Sim res.2 (getInstance P d rl st2).2) ?_ d rl st
  intro d rl st ih st2 h
  rw [getInstance_eq P d rl st2]
  unfold getInstanceBody
  rw [← h.2.2 d]
  cases hw : st.modules.lookup d with
  | none => exact ⟨rfl, h⟩
  | some w =>
    simp only
    cases hi : isObject w.inst with
    | true => exact ⟨rfl, h⟩
    | false =>
      simp only [Bool.false_eq_true, if_false, resolve_eq]
      by_cases hl : nextLevel rl > 1000
      · rw [if_pos hl, if_pos hl]
        exact ⟨rfl, h⟩
      · rw [if_neg hl, if_neg hl, ← h.1]
        cases hdecl : declaration P st.heap w.constructor (.arr []) with
        | error e => exact ⟨rfl, h⟩
        | ok fd =>
          obtain ⟨f, ds⟩ := fd
          obtain ⟨id, hf⟩ := declaration_fn hdecl
          subst hf
          simp only [resolveRun]
          have hg := getModules_sim (forceDep P) [] (nextLevel rl)
            (fun e s s2 hs => ih (by omega) e s s2 hs) ds st st2 h
          rcases hr : getModules (forceDep P) [] (nextLevel rl) ds st with ⟨r, s1⟩
          rcases hr2 : getModules (forceDep P) [] (nextLevel rl) ds st2 with ⟨r2, t1⟩
          rw [hr, hr2] at hg
          obtain ⟨h1, h2⟩ := hg
          simp only at h1 h2
          subst h1
          cases r with
          | error e => exact ⟨rfl, h2⟩
          | ok mods =>
            simp only [factory]
            rw [← h2.1, ← h2.2.1]
            rcases hc : P.call id .undefined mods s1.heap with ⟨rv, hp⟩
            cases rv with
            | error e => exact ⟨rfl, rfl, rfl, h2.2.2⟩
            | ok obj =>
              simp only
              cases ho : isObject obj with
              | false => exact ⟨rfl, rfl, rfl, h2.2.2⟩
              | true =>
                refine ⟨rfl, rfl, rfl, ?_⟩
                intro n
                show (setInstance d obj s1.modules).lookup n =
                  (setInstance d obj t1.modules).lookup n
                rw [lookup_setInstance, lookup_setInstance, h2.2.2 n]

theorem forall2_mem_left {α β : Type} {R : α → β → Prop} {l1 : List α} {l2 : List β}
    (h : List.Forall₂ R l1 l2) {a : α} (ha : a ∈ l1) : ∃ b ∈ l2, R a b := by
  induction h with
  | nil => cases ha
  | cons hr _ ih =>
    rcases List.mem_cons.1 ha with h1 | h1
    · subst h1
      exact ⟨_, List.mem_cons_self _ _, hr⟩
    · obtain ⟨b, hb, hab⟩ := ih h1
      exact ⟨b, List.mem_cons_of_mem _ hb, hab⟩

/-- What a first, successful forcing of the module `n` did: after the
constructors of other modules, its constructor was called once, with the
instances cached for the declared names, and the result was cached. -/
theorem getInstance_ok_args (P : Prog) (n : String) (rl : Option Nat) (st s1 : St) (v : Val)
    (w : Wrapper) (f : Val) (ds : List Val) (hw : st.modules.lookup n = some w)
    (hi : isObject w.inst = false)
    (hdecl : declaration P st.heap w.constructor (.arr []) = .ok (f, ds))
    (h : getInstance P n rl st = (.ok v, s1)) :
    ∃ id l mods wn, f = .fn id ∧
      s1.log = st.log ++ l ++ [⟨.ctor n, id, .undefined, mods, ds⟩] ∧
      (∀ e ∈ l, ∃ m, e.who = .ctor m ∧ m ≠ n) ∧
      List.Forall₂ (fun dep arg => Cached s1 dep ∧ depInst s1 dep = arg) ds mods ∧
      s1.modules.lookup n = some wn ∧ wn.inst = v ∧ isObject v = true := by
  obtain ⟨id, hf⟩ := declaration_fn hdecl
  subst hf
  have postl := getModules_ctor_post P n (nextLevel rl) st w _ ds hw hi hdecl
  rw [getInstance_eq] at h
  unfold getInstanceBody at h
  simp only [hw, hi, Bool.false_eq_true, if_false, resolve_eq, hdecl, resolveRun] at h
  by_cases hl : nextLevel rl > 1000
  · simp only [hl, if_true] at h
    cases h
  · simp only [hl, if_false] at h
    rcases hr : getModules (forceDep P) [] (nextLevel rl) ds st with ⟨r, s0⟩
    rw [hr] at h postl
    cases r with
    | error e => cases h
    | ok mods =>
      simp only [factory] at h
      rcases hc : P.call id .undefined mods s0.heap with ⟨rv, hp⟩
      rw [hc] at h
      cases rv with
      | error e => cases h
      | ok obj =>
        simp only at h
        cases ho : isObject obj with
        | false =>
          simp only [ho, Bool.not_false, if_true] at h
          cases h
        | true =>
          simp only [ho, Bool.not_true, Bool.false_eq_true, if_false, Prod.mk.injEq,
            Except.ok.injEq] at h
          obtain ⟨hv, hs1⟩ := h
          subst hv
          obtain ⟨l, hlog, hl2⟩ := postl.log
          have hun0 : isInstanciated s0 n = false := postl.pend n (Or.inl rfl)
          have hg0 : Grows s0 ⟨hp, s0.modules,
              s0.log ++ [⟨.ctor n, id, .undefined, mods, ds⟩]⟩ := Grows.of_modules_eq rfl
          have hg1 : Grows s0 s1 := by
            rw [← hs1]
            exact grows_setInstance hg0 hun0 obj
          obtain ⟨w0, hw0, _⟩ := lookup_of_forget postl.grows.shape hw
          refine ⟨id, l, mods, { w0 with inst := obj }, rfl, ?_, ?_, ?_, ?_, rfl, ho⟩
          · rw [← hs1]
            show s0.log ++ _ = _
            rw [hlog]
          · intro e he
            obtain ⟨m, hm, hne, _⟩ := hl2 e he
            exact ⟨m, hm, fun hmn => hne (Or.inl hmn)⟩
          · refine (postl.ok mods rfl).imp ?_
            intro dep arg hres
            obtain ⟨q, hq, hcase⟩ := hres
            rcases hcase with ⟨_, hcached, hinst⟩ | ⟨_, hext⟩
            · have hc1 := hg1.cached hcached
              refine ⟨hc1, ?_⟩
              obtain ⟨q2, wq, hq2, hwq, hiq⟩ := hcached
              subst hq2
              rw [← hinst]
              simp only [depInst, hwq, hg1.kept q2 wq hwq hiq]
            · simp at hext
          · rw [← hs1]
            show (setInstance n obj s0.modules).lookup n = _
            rw [lookup_setInstance, hw0]
            simp

theorem module_fresh (n : String) (constructor loadOnStartup : Val) (st : St) (hn : n ≠ "")
    (ho : hasOwn n st.modules = false) :
    module (.str n) constructor loadOnStartup st =
      (.ok (), { st with modules := st.modules ++
        [(n, singletonFactory n constructor
          (jsOr (if isBoolean loadOnStartup then loadOnStartup else .bool true) (.bool false))
          .undefined)] }) := by
  simp only [module, hn, if_false, register, addModule, ho, Bool.false_eq_true]

theorem hasOwn_append (k : String) (ms extra : List (String × Wrapper)) :
    hasOwn k (ms ++ extra) = (hasOwn k ms || hasOwn k extra) := by
  simp only [hasOwn, List.lookup_append]
  cases ms.lookup k <;> simp

theorem lookup_swap (ms : List (String × Wrapper)) (n m : String) (wn wm : Wrapper)
    (hne : n ≠ m) (k : String) :
    (ms ++ [(n, wn)] ++ [(m, wm)]).lookup k = (ms ++ [(m, wm)] ++ [(n, wn)]).lookup k := by
  simp only [List.lookup_append, List.lookup_cons, List.lookup_nil]
  cases ms.lookup k with
  | some w => rfl
  | none =>
    simp only [Option.none_or]
    by_cases h1 : k = n
    · subst h1
      have : (k == m) = false := by simpa using hne
      simp [this]
    · have : (k == n) = false := by simpa using h1
      simp [this]

theorem hasOwn_single (k n : String) (w : Wrapper) :
    hasOwn k [(n, w)] = decide (k = n) := by
  by_cases h : k = n
  · subst h
    simp [hasOwn, List.lookup_cons]
  · have : (k == n) = false := by simpa using h
    simp [hasOwn, List.lookup_cons, this, h]

/-- Registering a module only reads the registry through its names. -/
theorem module_sim (name constructor loadOnStartup : Val) (st st2 : St) (h : Sim st st2) :
    (module name constructor loadOnStartup st).1 = (module name constructor loadOnStartup st2).1 ∧
      Sim (module name constructor loadOnStartup st).2
        (module name constructor loadOnStartup st2).2 := by
  unfold module
  cases name with
  | str n =>
    simp only
    by_cases hn : n = ""
    · rw [if_pos hn, if_pos hn]
      exact ⟨rfl, h⟩
    · rw [if_neg hn, if_neg hn]
      simp only [register, addModule]
      rw [h.own n]
      cases hasOwn n st2.modules with
      | true => exact ⟨rfl, h⟩
      | false =>
        refine ⟨rfl, h.1, h.2.1, fun k => ?_⟩
        show (st.modules ++ _).lookup k = (st2.modules ++ _).lookup k
        rw [List.lookup_append, List.lookup_append, h.2.2 k]
  | _ => exact ⟨rfl, h⟩

theorem registerAll_sim (rs : List (Val × Val × Val)) (st st2 : St) (h : Sim st st2) :
    (registerAll rs st).1 = (registerAll rs st2).1 ∧
      Sim (registerAll rs st).2 (registerAll rs st2).2 := by
  induction rs generalizing st st2 with
  | nil => exact ⟨rfl, h⟩
  | cons r rs ih =>
    obtain ⟨n, c, l⟩ := r
    simp only [registerAll]
    have hm := module_sim n c l st st2 h
    rcases h1 : module n c l st with ⟨r1, s1⟩
    rcases h2 : module n c l st2 with ⟨r2, t1⟩
    rw [h1, h2] at hm
    obtain ⟨e1, e2⟩ := hm
    simp only at e1 e2
    subst e1
    cases r1 with
    | error e => exact ⟨rfl, e2⟩
    | ok u => exact ih s1 t1 e2

/-- Two registrations that succeed in one order succeed in the other, and the
two registries hold the same wrappers under the same names. -/
theorem registerAll_swap (st sBA : St) (a b ca cb la lb : Val)
    (hBA : registerAll [(b, cb, lb), (a, ca, la)] st = (.ok (), sBA)) :
    ∃ sAB wa, registerAll [(a, ca, la), (b, cb, lb)] st = (.ok (), sAB) ∧ Sim sAB sBA ∧
      sBA.heap = st.heap ∧ sBA.modules.lookup (nameOf a) = some wa ∧
      wa.constructor = ca ∧ isObject wa.inst = false := by
  simp only [registerAll] at hBA
  rcases hm1 : module b cb lb st with ⟨r1, s1⟩
  rw [hm1] at hBA
  cases r1 with
  | error e => cases hBA
  | ok u1 =>
    simp only at hBA
    rcases hm2 : module a ca la s1 with ⟨r2, s2⟩
    rw [hm2] at hBA
    cases r2 with
    | error e => cases hBA
    | ok u2 =>
      simp only [Prod.mk.injEq, true_and] at hBA
      subst hBA
      obtain ⟨m, hb, hm, hom, hs1⟩ := module_ok hm1
      obtain ⟨n, ha, hn, hon, hs2⟩ := module_ok hm2
      subst hb ha hs1
      simp only [hasOwn_append, hasOwn_single, Bool.or_eq_false_iff, decide_eq_false_iff_not]
        at hon
      obtain ⟨hon1, hne⟩ := hon
      have hom2 : hasOwn m (st.modules ++ [(n, singletonFactory n ca
          (jsOr (if isBoolean la then la else .bool true) (.bool false)) .undefined)]) =
          false := by
        simp only [hasOwn_append, hasOwn_single, Bool.or_eq_false_iff, decide_eq_false_iff_not]
        exact ⟨hom, fun h => hne h.symm⟩
      subst hs2
      refine ⟨⟨st.heap, st.modules ++ [(n, singletonFactory n ca
          (jsOr (if isBoolean la then la else .bool true) (.bool false)) .undefined)] ++
          [(m, singletonFactory m cb
            (jsOr (if isBoolean lb then lb else .bool true) (.bool false)) .undefined)], st.log⟩,
        singletonFactory n ca
          (jsOr (if isBoolean la then la else .bool true) (.bool false)) .undefined,
        ?_, ?_, rfl, ?_, rfl, rfl⟩
      · simp only [registerAll, module_fresh n ca la st hn hon1]
        rw [module_fresh m cb lb _ hm hom2]
      · exact ⟨rfl, rfl, fun k => lookup_swap st.modules n m _ _ hne k⟩
      · show (_ ++ [(n, _)]).lookup n = _
        apply lookup_append_new
        simp only [hasOwn_append, hasOwn_single, Bool.or_eq_false_iff, decide_eq_false_iff_not]
        exact ⟨hon1, hne⟩

/-- C11. Order independence of registration: when the registrations of B and
then A succeed, so do the registrations of A and then B, and the two
registries hold the same wrappers under the same names; forcing any module,
at any nesting level, gives the same result (the same instance or the same
error) in both, and leaves registries that again agree, also after any
further registrations. In particular, for A declaring B among its dependencies, when forcing A succeeds in one order it
succeeds in the other with the same instance, A's constructor is called once
with the instances cached for the declared names, in declared order, and the
argument it receives for B is the instance cached in B's wrapper. -/
theorem registration_order_independence (P : Prog) (st sBA : St) (a b ca cb la lb : Val)
    (hBA : registerAll [(b, cb, lb), (a, ca, la)] st = (.ok (), sBA)) :
    ∃ sAB, registerAll [(a, ca, la), (b, cb, lb)] st = (.ok (), sAB) ∧ Sim sAB sBA ∧
      (∀ d rl, (getInstance P d rl sAB).1 = (getInstance P d rl sBA).1 ∧
        Sim (getInstance P d rl sAB).2 (getInstance P d rl sBA).2) ∧
      (∀ rs d rl, (registerAll rs sAB).1 = (registerAll rs sBA).1 ∧
        (getInstance P d rl (registerAll rs sAB).2).1 =
          (getInstance P d rl (registerAll rs sBA).2).1) ∧
      (∀ rl f ds v s1, declaration P st.heap ca (.arr []) = .ok (f, ds) →
        Val.str (nameOf b) ∈ ds → getInstance P (nameOf a) rl sBA = (.ok v, s1) →
        ∃ t1 id l mods arg wb, getInstance P (nameOf a) rl sAB = (.ok v, t1) ∧ Sim t1 s1 ∧
          f = .fn id ∧
          s1.log = sBA.log ++ l ++ [⟨.ctor (nameOf a), id, .undefined, mods, ds⟩] ∧
          (∀ e ∈ l, ∃ m, e.who = .ctor m ∧ m ≠ nameOf a) ∧
          List.Forall₂ (fun dep x => Cached s1 dep ∧ depInst s1 dep = x) ds mods ∧
          arg ∈ mods ∧ s1.modules.lookup (nameOf b) = some wb ∧ wb.inst = arg ∧
          isObject arg = true) := by
  obtain ⟨sAB, wa, hreg, hsim, hheap, hwa, hca, hia⟩ := registerAll_swap st sBA a b ca cb la lb hBA
  refine ⟨sAB, hreg, hsim, fun d rl => getInstance_sim P d rl sAB sBA hsim,
    fun rs d rl => ⟨(registerAll_sim rs sAB sBA hsim).1,
      (getInstance_sim P d rl _ _ (registerAll_sim rs sAB sBA hsim).2).1⟩, ?_⟩
  intro rl f ds v s1 hdecl hb hforce
  have hs := getInstance_sim P (nameOf a) rl sAB sBA hsim
  rw [hforce] at hs
  rcases hr : getInstance P (nameOf a) rl sAB with ⟨r, t1⟩
  rw [hr] at hs
  obtain ⟨h1, h2⟩ := hs
  simp only at h1 h2
  subst h1
  obtain ⟨id, l, mods, wn, hf, hlog, hl, hall, _, _, _⟩ :=
    getInstance_ok_args P (nameOf a) rl sBA s1 v wa f ds hwa hia
      (by rw [hca, hheap]; exact hdecl) hforce
  obtain ⟨arg, harg, hcached, hinst⟩ := forall2_mem_left hall hb
  obtain ⟨q, wb, hq, hwb, hib⟩ := hcached
  cases hq
  simp only [depInst, hwb] at hinst
  exact ⟨t1, id, l, mods, arg, wb, rfl, h2, hf, hlog, hl, hall, harg, hwb, hinst,
    by rw [← hinst]; exact hib⟩

theorem registration_order_independence_witness :
    registerAll [(.str "low", .fn 0, .bool false),
        (.str "high", .arr [.str "low", .fn 1], .bool true)] init = (.ok (), exampleReg) ∧
      (getInstance exampleProg "high" none exampleReg).1 = .ok (.obj 2) ∧
      ∃ sAB, registerAll [(.str "high", .arr [.str "low", .fn 1], .bool true),
          (.str "low", .fn 0, .bool false)] init = (.ok (), sAB) ∧ Sim sAB exampleReg ∧
        (∀ d rl, (getInstance exampleProg d rl sAB).1 = (getInstance exampleProg d rl exampleReg).1 ∧
          Sim (getInstance exampleProg d rl sAB).2 (getInstance exampleProg d rl exampleReg).2) ∧
        (∀ rs d rl, (registerAll rs sAB).1 = (registerAll rs exampleReg).1 ∧
          (getInstance exampleProg d rl (registerAll rs sAB).2).1 =
            (getInstance exampleProg d rl (registerAll rs exampleReg).2).1) ∧
        (∀ rl f ds v s1,
          declaration exampleProg init.heap (.arr [.str "low", .fn 1]) (.arr []) = .ok (f, ds) →
          Val.str (nameOf (.str "low")) ∈ ds →
          getInstance exampleProg (nameOf (.str "high")) rl exampleReg = (.ok v, s1) →
          ∃ t1 id l mods arg wb,
            getInstance exampleProg (nameOf (.str "high")) rl sAB = (.ok v, t1) ∧ Sim t1 s1 ∧
            f = .fn id ∧
            s1.log = exampleReg.log ++ l ++
              [⟨.ctor (nameOf (.str "high")), id, .undefined, mods, ds⟩] ∧
            (∀ e ∈ l, ∃ m, e.who = .ctor m ∧ m ≠ nameOf (.str "high")) ∧
            List.Forall₂ (fun dep x => Cached s1 dep ∧ depInst s1 dep = x) ds mods ∧
            arg ∈ mods ∧ s1.modules.lookup (nameOf (.str "low")) = some wb ∧ wb.inst = arg ∧
            isObject arg = true) :=
  ⟨rfl, rfl,
    registration_order_independence exampleProg init exampleReg (.str "high") (.str "low")
    (.arr [.str "low", .fn 1]) (.fn 0) (.bool true) (.bool false) rfl⟩

/-! ## Visits of a pass -/

theorem forEachLoop_ok_append (callback : String → St → Res Unit) (pre rest : List String)
    (st st2 : St) (h : forEachLoop callback (pre ++ rest) st = (.ok (), st2)) :
    ∃ s, forEachLoop callback pre st = (.ok (), s) ∧ forEachLoop callback rest s = (.ok (), st2) := by
  rw [forEachLoop_append] at h
  rcases hr : forEachLoop callback pre st with ⟨r, s⟩
  rw [hr] at h
  cases r with
  | error e => cases h
  | ok u => exact ⟨s, rfl, h⟩

theorem visitedAt_of_ok (callback : String → St → Res Unit) (pre : List String) (n : String)
    (post : List String) (sa sb : St)
    (h : forEachLoop callback (pre ++ n :: post) sa = (.ok (), sb)) :
    ∃ t t1, VisitedAt callback pre n post sa t t1 sb := by
  obtain ⟨t, h1, h2⟩ := forEachLoop_ok_append callback pre (n :: post) sa sb h
  simp only [forEachLoop] at h2
  rcases hr : callback n t with ⟨r, t1⟩
  rw [hr] at h2
  cases r with
  | error e => cases h2
  | ok u => exact ⟨t, t1, h1, hr, h2⟩

theorem calls_phase_count (s m : String) (l : List Event) :
    calls (.phase s m) l = (phaseTrace l).count (s, m) := by
  induction l with
  | nil => rfl
  | cons e l ih =>
    have h1 : calls (.phase s m) (e :: l) = calls (.phase s m) [e] + calls (.phase s m) l :=
      calls_append (.phase s m) [e] l
    have h2 : phaseTrace (e :: l) = phaseTrace [e] ++ phaseTrace l := phaseTrace_append [e] l
    rw [h1, h2, List.count_append, ih]
    congr 1
    obtain ⟨who, f, t, args, deps⟩ := e
    cases who with
    | phase s2 m2 =>
      by_cases h : (s2, m2) = (s, m)
      · cases h
        simp [calls, phaseTrace, phaseOf]
      · have h3 : Label.phase s2 m2 ≠ Label.phase s m := by
          intro h4
          cases h4
          exact h rfl
        have h5 : ¬ (s2 = s ∧ m2 = m) := fun h6 => h (by rw [h6.1, h6.2])
        simp [calls, phaseTrace, phaseOf, h3, List.count_cons, h5]
    | _ => simp [calls, phaseTrace, phaseOf]

/-- What a pass adds to the number of calls of a phase method. -/
theorem adds_calls {step : String} {ms : List String} {st st2 : St} (h : Adds step ms st st2)
    (s m : String) :
    calls (.phase s m) st2.log =
      calls (.phase s m) st.log + (if s = step then ms.count m else 0) := by
  obtain ⟨_, l, hl, ht⟩ := h
  rw [hl, calls_append, calls_phase_count s m l, ht]
  congr 1
  clear ht
  induction ms with
  | nil => simp
  | cons k ks ih =>
    rw [List.map_cons, List.count_cons, ih, List.count_cons]
    by_cases hs : s = step
    · subst hs
      by_cases hk : k = m
      · subst hk
        simp
      · have : ¬ (s, k) = (s, m) := fun h => hk (by cases h; rfl)
        simp [hk, this]
    · have : ¬ (step, k) = (s, m) := fun h => hs (by cases h; rfl)
      simp [hs, this]

/-- A pass calls no phase method of another phase, and none of a module it
does not visit. -/
theorem execStepLoop_quiet (P : Prog) (step : String) (ns : List String) (st : St)
    (s m : String) (h : s ≠ step ∨ m ∉ ns) :
    calls (.phase s m) (forEachLoop (execStepVisit P step) ns st).2.log =
      calls (.phase s m) st.log := by
  obtain ⟨ms, hsub, hadds⟩ := execStepLoop_adds P step ns st
  rw [adds_calls hadds s m]
  rcases h with h | h
  · simp [h]
  · have : m ∉ ms := fun hm => h (hsub.subset hm)
    simp [List.count_eq_zero_of_not_mem this]

theorem execStepVisit_quiet (P : Prog) (step n : String) (st : St) (s m : String)
    (h : s ≠ step ∨ m ≠ n) :
    calls (.phase s m) (execStepVisit P step n st).2.log = calls (.phase s m) st.log := by
  have hq := execStepLoop_quiet P step [n] st s m (by
    rcases h with h | h
    · exact Or.inl h
    · exact Or.inr (by simpa using h))
  simp only [forEachLoop] at hq
  rcases hr : execStepVisit P step n st with ⟨r, s1⟩
  rw [hr] at hq
  cases r <;> exact hq

theorem instanciate_quiet (P : Prog) (st : St) (s m : String) :
    calls (.phase s m) (instanciate P st).2.log = calls (.phase s m) st.log := by
  rw [adds_calls (instanciate_adds P st) s m]
  simp

/-- The visit of a module that is not instantiated does nothing. -/
theorem execStepVisit_uninst (P : Prog) (step n : String) (s s1 : St)
    (hn : isInstanciated s n = false) (h : execStepVisit P step n s = (.ok (), s1)) :
    s1 = s := by
  unfold execStepVisit at h
  unfold isInstanciated at hn
  cases hw : s.modules.lookup n with
  | none =>
    rw [hw] at h
    cases h
  | some w =>
    rw [hw] at h hn
    simp only at hn
    simp only [hn, Bool.false_eq_true, if_false, Prod.mk.injEq, true_and] at h
    exact h.symm

/-- The visit of an instantiated module calls its method for the phase once
when the instance has it, and calls nothing otherwise. -/
theorem execStepVisit_inst_calls (P : Prog) (step name : String) (s s1 : St) (w : Wrapper)
    (a : Nat) (h : execStepVisit P step name s = (.ok (), s1))
    (hw : s.modules.lookup name = some w) (hi : w.inst = .obj a) :
    calls (.phase step name) s1.log =
      calls (.phase step name) s.log + (if hasOwn step (s.heap.getD a []) then 1 else 0) := by
  cases hown : hasOwn step (s.heap.getD a []) with
  | true =>
    simp only [if_true]
    exact execStepVisit_calls P step name s s1 w a h hw hi hown
  | false =>
    have hio : isObject w.inst = true := by rw [hi]; rfl
    have hm : (s.heap.getD a []).lookup step = none := by simpa [hasOwn] using hown
    unfold execStepVisit at h
    rw [hw] at h
    simp only [hio, if_true, getInstance_cached P hw hio none, hi, hm, isObject, Prod.mk.injEq,
      true_and] at h
    subst h
    simp

theorem execStepLoop_grows (P : Prog) (step : String) (ns : List String) (st : St) :
    Grows st (forEachLoop (execStepVisit P step) ns st).2 :=
  forEachLoop_rel Grows Grows.grefl (fun _ _ _ h1 h2 => h1.gtrans h2) _
    (execStepVisit_grows P step) ns st

theorem enumKeys_nodup {ms : List (String × Wrapper)} (h : (ms.map fun p => p.1).Nodup) :
    (enumKeys ms).Nodup := by
  unfold enumKeys
  rw [(enumNames_perm _).nodup_iff]
  exact h

/-- In a pass that completes, a module that is instantiated when the pass
starts is visited once, and its method for the phase is called in that visit
only. -/
theorem pass_visitedOnce (P : Prog) (step : String) (ns : List String) (sa sb : St)
    (h : forEachLoop (execStepVisit P step) ns sa = (.ok (), sb)) (hnd : ns.Nodup) (n : String)
    (hn : n ∈ ns) (w : Wrapper) (a : Nat) (hw : sa.modules.lookup n = some w)
    (hi : w.inst = .obj a) : VisitedOnce P step n a ns sa sb := by
  obtain ⟨pre, post, hsplit⟩ := List.append_of_mem hn
  subst hsplit
  obtain ⟨t, t1, hv⟩ := visitedAt_of_ok _ pre n post sa sb h
  have hnd2 : n ∉ pre ∧ n ∉ post := by
    rw [List.nodup_append] at hnd
    obtain ⟨_, h2, h3⟩ := hnd
    rw [List.nodup_cons] at h2
    exact ⟨fun hp => h3 hp (List.mem_cons_self _ _), h2.1⟩
  have hio : isObject w.inst = true := by rw [hi]; rfl
  have hg : Grows sa t := by
    have := execStepLoop_grows P step pre sa
    rw [hv.1] at this
    exact this
  have hwt : t.modules.lookup n = some w := hg.kept n w hw hio
  refine ⟨pre, post, t, t1, w, rfl, hv, hwt, hi, ?_, ?_, ?_⟩
  · have := execStepLoop_quiet P step pre sa step n (Or.inr hnd2.1)
    rw [hv.1] at this
    exact this
  · exact execStepVisit_inst_calls P step n t t1 w a hv.2.1 hwt hi
  · have := execStepLoop_quiet P step post t1 step n (Or.inr hnd2.2)
    rw [hv.2.2] at this
    exact this

/-! ## C16: a second boot -/

theorem bootPasses_of_ok (P : Prog) (st st2 : St) (h : boot P st = (.ok (), st2)) :
    ∃ s1 s2 s3, BootPasses P st s1 s2 s3 st2 := by
  obtain ⟨s1, s2, s3, h1, h2, h3, h4⟩ := boot_ok_split P st st2 h
  exact ⟨s1, s2, s3, h1, h2, h3, h4⟩

theorem BootPasses.grows1 {P : Prog} {st s1 s2 s3 st2 : St} (h : BootPasses P st s1 s2 s3 st2) :
    Grows st s1 := by
  have := (instanciate_adds P st).1
  rw [h.inst] at this
  exact this

theorem BootPasses.grows2 {P : Prog} {st s1 s2 s3 st2 : St} (h : BootPasses P st s1 s2 s3 st2) :
    Grows s1 s2 := by
  have := execStep_grows P "$init" s1
  rw [h.init] at this
  exact this

theorem BootPasses.grows3 {P : Prog} {st s1 s2 s3 st2 : St} (h : BootPasses P st s1 s2 s3 st2) :
    Grows s2 s3 := by
  have := execStep_grows P "$build" s2
  rw [h.build] at this
  exact this

theorem BootPasses.grows4 {P : Prog} {st s1 s2 s3 st2 : St} (h : BootPasses P st s1 s2 s3 st2) :
    Grows s3 st2 := by
  have := execStep_grows P "$final" s3
  rw [h.final] at this
  exact this

/-- Outside the pass of a phase, a boot that completes calls no method of
that phase. -/
theorem BootPasses.quiet {P : Prog} {st s1 s2 s3 st2 : St} (h : BootPasses P st s1 s2 s3 st2)
    (m : String) : QuietOutside m st s1 s2 s3 st2 := by
  have hi := fun s => instanciate_quiet P st s m
  rw [h.inst] at hi
  have h1 := fun s (hs : s ≠ "$init") =>
    execStepLoop_quiet P "$init" (enumKeys s1.modules) s1 s m (Or.inl hs)
  have h2 := fun s (hs : s ≠ "$build") =>
    execStepLoop_quiet P "$build" (enumKeys s2.modules) s2 s m (Or.inl hs)
  have h3 := fun s (hs : s ≠ "$final") =>
    execStepLoop_quiet P "$final" (enumKeys s3.modules) s3 s m (Or.inl hs)
  have e1 : forEachLoop (execStepVisit P "$init") (enumKeys s1.modules) s1 = (.ok (), s2) :=
    h.init
  have e2 : forEachLoop (execStepVisit P "$build") (enumKeys s2.modules) s2 = (.ok (), s3) :=
    h.build
  have e3 : forEachLoop (execStepVisit P "$final") (enumKeys s3.modules) s3 = (.ok (), st2) :=
    h.final
  rw [e1] at h1
  rw [e2] at h2
  rw [e3] at h3
  simp only at hi h1 h2 h3
  refine ⟨hi "$init", ?_, ?_, ?_, ?_⟩
  · rw [h3 "$init" (by decide), h2 "$init" (by decide)]
  · rw [h1 "$build" (by decide), hi "$build"]
  · rw [h3 "$build" (by decide)]
  · rw [h2 "$final" (by decide), h1 "$final" (by decide), hi "$final"]

/-- In a boot that completes, from a registry that holds each name once, a
module that is instantiated when the pass of a phase starts is visited once in
that pass. -/
theorem execStep_visitedOnce (P : Prog) (step : String) (st sa sb : St)
    (hreg : (st.modules.map fun p => p.1).Nodup) (hg : Grows st sa)
    (h : execStep P step sa = (.ok (), sb)) (n : String) (w : Wrapper) (a : Nat)
    (hw : sa.modules.lookup n = some w) (hi : w.inst = .obj a) :
    VisitedOnce P step n a (enumKeys st.modules) sa sb := by
  have hk : enumKeys sa.modules = enumKeys st.modules := hg.enumKeys
  have h2 : forEachLoop (execStepVisit P step) (enumKeys st.modules) sa = (.ok (), sb) := by
    rw [← hk]
    exact h
  refine pass_visitedOnce P step _ sa sb h2 (enumKeys_nodup hreg) n ?_ w a hw hi
  rw [← hk]
  exact mem_enumKeys_of_lookup hw

/-- C16 (as stated, refuted). Two second boots. In the registry where `2`
is registered before `1`, both boots complete and the second one calls the
initialization method of `1` before that of `2`: not the registration order.
In the registry of `onceProg`, the first boot completes and the second one
fails in the initialization method of `a`, so that the method of `b`, which is
present, is not called a second time. -/
theorem second_boot_unordered_or_aborted :
    digitNamesReg.modules.map (fun p => p.1) = ["$injector", "2", "1"] ∧
      (boot phaseProg digitNamesReg).1 = .ok () ∧
      (boot phaseProg (boot phaseProg digitNamesReg).2).1 = .ok () ∧
      phaseTrace (boot phaseProg (boot phaseProg digitNamesReg).2).2.log =
        [("$init", "1"), ("$init", "2"), ("$init", "1"), ("$init", "2")] ∧
      (boot onceProg onceReg).1 = .ok () ∧
      phaseTrace (boot onceProg onceReg).2.log = [("$init", "a"), ("$init", "b")] ∧
      (boot onceProg (boot onceProg onceReg).2).1 = .error (.error "started twice") ∧
      phaseTrace (boot onceProg (boot onceProg onceReg).2).2.log =
        [("$init", "a"), ("$init", "b"), ("$init", "a")] :=
  ⟨rfl, rfl, rfl, rfl, rfl, rfl, rfl, rfl⟩

/-- C16 (amended). Unguarded boot: nothing stops a second boot. After a
boot that completes (every startup module is then instantiated), booting again
runs no constructor of an already instantiated module and keeps its instance;
the calls it adds are ordered as in any boot (instantiating pass, then
`$init`, `$build`, `$final`, within a phase in the order in which the registry
enumerates its names, which is the same as in the first boot); and when the
second boot completes, every module that was instantiated is visited once in
each of the three passes, where its method for the phase is called once if
the instance has it then, no method of a phase being called outside the pass
of that phase. -/
theorem second_boot (P : Prog) (st0 st : St) (hreg : (st0.modules.map fun p => p.1).Nodup)
    (h1 : boot P st0 = (.ok (), st)) :
    Keeps st (boot P st).2 ∧
      (∀ x w, st0.modules.lookup x = some w → truthy w.loadOnStartup = true →
        isInstanciated st x = true) ∧
      enumKeys st.modules = enumKeys st0.modules ∧
      (∃ (l0 l1 l2 l3 : List Event) (n1 n2 n3 : List String),
        (boot P st).2.log = st.log ++ (l0 ++ (l1 ++ (l2 ++ l3))) ∧ phaseTrace l0 = [] ∧
        phaseTrace l1 = n1.map (fun n => ("$init", n)) ∧
        phaseTrace l2 = n2.map (fun n => ("$build", n)) ∧
        phaseTrace l3 = n3.map (fun n => ("$final", n)) ∧
        n1.Sublist (enumKeys st.modules) ∧ n2.Sublist (enumKeys st.modules) ∧
        n3.Sublist (enumKeys st.modules)) ∧
      (∀ st2, boot P st = (.ok (), st2) → ∃ s1 s2 s3, BootPasses P st s1 s2 s3 st2 ∧
        ∀ n w a, st.modules.lookup n = some w → w.inst = .obj a →
          VisitedOnce P "$init" n a (enumKeys st.modules) s1 s2 ∧
          VisitedOnce P "$build" n a (enumKeys st.modules) s2 s3 ∧
          VisitedOnce P "$final" n a (enumKeys st.modules) s3 st2 ∧
          QuietOutside n st s1 s2 s3 st2) := by
  have hg0 : Grows st0 st := by
    have := boot_grows P st0
    rw [h1] at this
    exact this
  have hreg2 : (st.modules.map fun p => p.1).Nodup := by
    rw [keys_of_forget hg0.shape]
    exact hreg
  refine ⟨boot_keeps P st, ?_, hg0.enumKeys, boot_trace P st, ?_⟩
  · intro x w hw hs
    obtain ⟨s1, s2, s3, hp⟩ := bootPasses_of_ok P st0 st h1
    have := instanciate_startup P st0 s1 hp.inst x w hw hs
    exact isInstanciated_kept (hp.grows2.gtrans (hp.grows3.gtrans hp.grows4)) this
  · intro st2 h2
    obtain ⟨s1, s2, s3, hp⟩ := bootPasses_of_ok P st st2 h2
    refine ⟨s1, s2, s3, hp, ?_⟩
    intro n w a hw hi
    have hio : isObject w.inst = true := by rw [hi]; rfl
    have hw1 := hp.grows1.kept n w hw hio
    have hw2 := hp.grows2.kept n w hw1 hio
    have hw3 := hp.grows3.kept n w hw2 hio
    exact ⟨execStep_visitedOnce P "$init" st s1 s2 hreg2 hp.grows1 hp.init n w a hw1 hi,
      execStep_visitedOnce P "$build" st s2 s3 hreg2 (hp.grows1.gtrans hp.grows2) hp.build n w a
        hw2 hi,
      execStep_visitedOnce P "$final" st s3 st2 hreg2
        (hp.grows1.gtrans (hp.grows2.gtrans hp.grows3)) hp.final n w a hw3 hi,
      hp.quiet n⟩

theorem second_boot_witness :
    (digitNamesReg.modules.map fun p => p.1).Nodup ∧
      boot phaseProg digitNamesReg = (.ok (), (boot phaseProg digitNamesReg).2) ∧
      Keeps (boot phaseProg digitNamesReg).2
        (boot phaseProg (boot phaseProg digitNamesReg).2).2 :=
  ⟨by decide, rfl,
    (second_boot phaseProg digitNamesReg (boot phaseProg digitNamesReg).2 (by decide) rfl).1⟩

/-! ## C17: modules instantiated during a phase -/

theorem boot_of_passes {P : Prog} {st s1 s2 s3 st2 : St} (h : BootPasses P st s1 s2 s3 st2) :
    boot P st = (.ok (), st2) := by
  unfold boot
  rw [h.inst]
  simp only
  rw [h.init]
  simp only
  rw [h.build]
  exact h.final

theorem isInstanciated_obj {s : St} {n : String} (h : isInstanciated s n = true) :
    ∃ w a, s.modules.lookup n = some w ∧ w.inst = .obj a := by
  unfold isInstanciated at h
  cases hw : s.modules.lookup n with
  | none =>
    rw [hw] at h
    cases h
  | some w =>
    rw [hw] at h
    simp only at h
    cases hi : w.inst with
    | obj a => exact ⟨w, a, rfl, hi⟩
    | _ =>
      rw [hi] at h
      cases h

theorem forEachLoop_compose (callback : String → St → Res Unit) (pre rest : List String)
    (st s : St) (r : Res Unit) (h1 : forEachLoop callback pre st = (.ok (), s))
    (h2 : forEachLoop callback rest s = r) : forEachLoop callback (pre ++ rest) st = r := by
  rw [forEachLoop_append, h1]
  exact h2

/-- A visit that happens after a first part of the pass which called no
method of the module is a visit of the whole pass. -/
theorem VisitedOnce.prepend {P : Prog} {step z : String} {a : Nat} {pre0 rest : List String}
    {sa sm sb : St} (hloop : forEachLoop (execStepVisit P step) pre0 sa = (.ok (), sm))
    (hq : calls (.phase step z) sm.log = calls (.phase step z) sa.log)
    (hv : VisitedOnce P step z a rest sm sb) : VisitedOnce P step z a (pre0 ++ rest) sa sb := by
  obtain ⟨p, q, t, t1, w, hsplit, ⟨h1, h2, h3⟩, hw, hi, c1, c2, c3⟩ := hv
  refine ⟨pre0 ++ p, q, t, t1, w, ?_, ⟨forEachLoop_compose _ pre0 p sa sm _ hloop h1, h2, h3⟩,
    hw, hi, ?_, c2, c3⟩
  · rw [hsplit, List.append_assoc]
  · rw [c1, hq]

/-- The pass of a phase in which the visit of `x` instantiates `z`: `z` is
another name of the registry; if it is enumerated before `x`, its method for
the phase is not called in the pass; if it is enumerated after `x`, it is
visited once, instantiated, later in the pass. -/
theorem pass_instantiatedIn (P : Prog) (step : String) (pre : List String) (x : String)
    (post : List String) (z : String) (sa sb : St) (hnd : (pre ++ x :: post).Nodup)
    (hkeys : enumKeys sa.modules = pre ++ x :: post)
    (h : InstantiatedIn P step pre x post z sa sb) :
    (z ∈ pre ∨ z ∈ post) ∧
      (z ∈ pre → calls (.phase step z) sb.log = calls (.phase step z) sa.log) ∧
      (z ∈ post → ∃ a, VisitedOnce P step z a (pre ++ x :: post) sa sb) ∧
      ∃ w a, sb.modules.lookup z = some w ∧ w.inst = .obj a := by
  obtain ⟨sx, sx1, ⟨hpre, hx, hpost⟩, hun, hin⟩ := h
  obtain ⟨w, a, hw, hi⟩ := isInstanciated_obj hin
  have hio : isObject w.inst = true := by rw [hi]; rfl
  have g1 : Grows sa sx := by
    have := execStepLoop_grows P step pre sa
    rw [hpre] at this
    exact this
  have g2 : Grows sx sx1 := by
    have := execStepVisit_grows P step x sx
    rw [hx] at this
    exact this
  have g3 : Grows sx1 sb := by
    have := execStepLoop_grows P step post sx1
    rw [hpost] at this
    exact this
  have hzx : z ≠ x := by
    intro hzx
    subst hzx
    have := execStepVisit_uninst P step z sx sx1 hun hx
    subst this
    rw [hun] at hin
    cases hin
  have hmem : z ∈ pre ++ x :: post := by
    rw [← hkeys, ← (g1.gtrans g2).enumKeys]
    exact mem_enumKeys_of_lookup hw
  have hnd2 := hnd
  rw [List.nodup_append] at hnd2
  obtain ⟨ndpre, ndrest, hdisj⟩ := hnd2
  rw [List.nodup_cons] at ndrest
  have qx : calls (.phase step z) sx1.log = calls (.phase step z) sx.log := by
    have := execStepVisit_quiet P step x sx step z (Or.inr hzx)
    rw [hx] at this
    exact this
  refine ⟨?_, ?_, ?_, w, a, g3.kept z w hw hio, hi⟩
  · rcases List.mem_append.1 hmem with h1 | h1
    · exact Or.inl h1
    · rcases List.mem_cons.1 h1 with h2 | h2
      · exact (hzx h2).elim
      · exact Or.inr h2
  · intro hz
    have hzpost : z ∉ post := fun hp => hdisj hz (List.mem_cons_of_mem _ hp)
    obtain ⟨p1, p2, hsplit⟩ := List.append_of_mem hz
    subst hsplit
    obtain ⟨t, t1, hv1, hv2, hv3⟩ := visitedAt_of_ok _ p1 z p2 sa sx hpre
    rw [List.nodup_append] at ndpre
    obtain ⟨_, nd2, hdisj2⟩ := ndpre
    rw [List.nodup_cons] at nd2
    have hzp1 : z ∉ p1 := fun hp => hdisj2 hp (List.mem_cons_self _ _)
    have gt : Grows t sx := by
      have e1 := execStepVisit_grows P step z t
      rw [hv2] at e1
      have e2 := execStepLoop_grows P step p2 t1
      rw [hv3] at e2
      exact e1.gtrans e2
    have hunt : isInstanciated t z = false := gt.guninst hun
    have ht := execStepVisit_uninst P step z t t1 hunt hv2
    subst ht
    have q1 := execStepLoop_quiet P step p1 sa step z (Or.inr hzp1)
    rw [hv1] at q1
    have q2 := execStepLoop_quiet P step p2 t1 step z (Or.inr nd2.1)
    rw [hv3] at q2
    have q3 := execStepLoop_quiet P step post sx1 step z (Or.inr hzpost)
    rw [hpost] at q3
    simp only at q1 q2 q3
    rw [q3, qx, q2, q1]
  · intro hz
    have hzpre : z ∉ pre := fun hp => hdisj hp (List.mem_cons_of_mem _ hz)
    have hv := pass_visitedOnce P step post sx1 sb hpost ndrest.2 z hz w a hw hi
    have hloop : forEachLoop (execStepVisit P step) (pre ++ [x]) sa = (.ok (), sx1) := by
      apply forEachLoop_compose _ pre [x] sa sx _ hpre
      simp only [forEachLoop, hx]
    have q1 := execStepLoop_quiet P step pre sa step z (Or.inr hzpre)
    rw [hpre] at q1
    simp only at q1
    have hq : calls (.phase step z) sx1.log = calls (.phase step z) sa.log := by
      rw [qx, q1]
    have := VisitedOnce.prepend hloop hq hv
    rw [List.append_assoc] at this
    exact ⟨a, this⟩

/-- C17 (as stated, refuted). Two boots in which the initialization method
of `x` instantiates another module. In the first, the module `1` is registered
after `x` but is enumerated before it: the boot completes, `1` is instantiated
and has an initialization method, which is not called. In the second, `z`
comes after `x` and its initialization method is called, but the `$build`
method of `x` then fails, so that the `$build` method of `z`, which is
present, is never called in that boot. -/
theorem late_module_not_by_registration_order :
    lateReg.modules.map (fun p => p.1) = ["$injector", "x", "1"] ∧
      isInstanciated lateReg "1" = false ∧
      (boot lateProg lateReg).1 = .ok () ∧
      (boot lateProg lateReg).2.modules.lookup "1" =
        some ⟨"1", .fn 0, .bool false, .obj 2⟩ ∧
      (boot lateProg lateReg).2.heap.getD 2 [] = [("$init", .fn 1), ("$build", .fn 1)] ∧
      phaseTrace (boot lateProg lateReg).2.log = [("$init", "x"), ("$build", "1")] ∧
      abortLateReg.modules.map (fun p => p.1) = ["$injector", "x", "z"] ∧
      isInstanciated abortLateReg "z" = false ∧
      (boot lateProg abortLateReg).1 = .error (.error "build failed") ∧
      (boot lateProg abortLateReg).2.modules.lookup "z" =
        some ⟨"z", .fn 0, .bool false, .obj 2⟩ ∧
      phaseTrace (boot lateProg abortLateReg).2.log =
        [("$init", "x"), ("$init", "z"), ("$build", "x")] :=
  ⟨rfl, rfl, rfl, rfl, rfl, rfl, rfl, rfl, rfl, rfl, rfl⟩

/-- C17 (amended). Modules instantiated during a phase: in a boot that
completes, from a registry that holds each name once and enumerates its names
as `pre ++ x :: post`, let the visit of `x` in the pass of a phase instantiate
the module `z` (as when the array-form method of `x` for that phase names
`z`). Then `z` is enumerated before `x` or after `x`; in every later phase of
the boot `z` is visited once, where its method for that phase is called once
if its instance has it then; and for the phase itself, if `z` is enumerated
after `x` it is visited once later in the pass, its method being called once
if present then, whereas if `z` is enumerated before `x` its method for the
phase is not called in that boot. The enumeration lists the array-index names
in ascending order before the other names, which come in registration
order. -/
theorem late_instantiation (P : Prog) (st s1 s2 s3 st2 : St)
    (hreg : (st.modules.map fun p => p.1).Nodup) (hp : BootPasses P st s1 s2 s3 st2)
    (pre : List String) (x : String) (post : List String) (z : String)
    (hkeys : enumKeys st.modules = pre ++ x :: post) :
    boot P st = (.ok (), st2) ∧ QuietOutside z st s1 s2 s3 st2 ∧
      enumKeys st.modules = indexPart (st.modules.map fun p => p.1) ++
        (st.modules.map fun p => p.1).filter (fun k => (arrayIndex? k).isNone) ∧
      (InstantiatedIn P "$init" pre x post z s1 s2 →
        (z ∈ pre ∨ z ∈ post) ∧
        (z ∈ pre → calls (.phase "$init" z) st2.log = calls (.phase "$init" z) st.log) ∧
        (z ∈ post → ∃ a, VisitedOnce P "$init" z a (enumKeys st.modules) s1 s2) ∧
        ∃ a, VisitedOnce P "$build" z a (enumKeys st.modules) s2 s3 ∧
          VisitedOnce P "$final" z a (enumKeys st.modules) s3 st2) ∧
      (InstantiatedIn P "$build" pre x post z s2 s3 →
        (z ∈ pre ∨ z ∈ post) ∧
        (z ∈ pre → calls (.phase "$build" z) st2.log = calls (.phase "$build" z) st.log) ∧
        (z ∈ post → ∃ a, VisitedOnce P "$build" z a (enumKeys st.modules) s2 s3) ∧
        ∃ a, VisitedOnce P "$final" z a (enumKeys st.modules) s3 st2) ∧
      (InstantiatedIn P "$final" pre x post z s3 st2 →
        (z ∈ pre ∨ z ∈ post) ∧
        (z ∈ pre → calls (.phase "$final" z) st2.log = calls (.phase "$final" z) st.log) ∧
        (z ∈ post → ∃ a, VisitedOnce P "$final" z a (enumKeys st.modules) s3 st2)) := by
  have hnd : (pre ++ x :: post).Nodup := by
    rw [← hkeys]
    exact enumKeys_nodup hreg
  have g1 := hp.grows1
  have g2 := g1.gtrans hp.grows2
  have g3 := g2.gtrans hp.grows3
  have k1 : enumKeys s1.modules = pre ++ x :: post := by rw [g1.enumKeys, hkeys]
  have k2 : enumKeys s2.modules = pre ++ x :: post := by rw [g2.enumKeys, hkeys]
  have k3 : enumKeys s3.modules = pre ++ x :: post := by rw [g3.enumKeys, hkeys]
  obtain ⟨q1, q2, q3, q4, q5⟩ := hp.quiet z
  refine ⟨boot_of_passes hp, hp.quiet z, enumNames_eq _, ?_, ?_, ?_⟩
  · intro h
    obtain ⟨hm, hb, ha, w, a, hw, hi⟩ :=
      pass_instantiatedIn P "$init" pre x post z s1 s2 hnd k1 h
    have hio : isObject w.inst = true := by rw [hi]; rfl
    refine ⟨hm, fun hz => ?_, fun hz => ?_, a,
      execStep_visitedOnce P "$build" st s2 s3 hreg g2 hp.build z w a hw hi,
      execStep_visitedOnce P "$final" st s3 st2 hreg g3 hp.final z w a
        (hp.grows3.kept z w hw hio) hi⟩
    · rw [q2, hb hz, q1]
    · rw [hkeys]
      exact ha hz
  · intro h
    obtain ⟨hm, hb, ha, w, a, hw, hi⟩ :=
      pass_instantiatedIn P "$build" pre x post z s2 s3 hnd k2 h
    refine ⟨hm, fun hz => ?_, fun hz => ?_, a,
      execStep_visitedOnce P "$final" st s3 st2 hreg g3 hp.final z w a hw hi⟩
    · rw [q4, hb hz, q3]
    · rw [hkeys]
      exact ha hz
  · intro h
    obtain ⟨hm, hb, ha, _⟩ := pass_instantiatedIn P "$final" pre x post z s3 st2 hnd k3 h
    refine ⟨hm, fun hz => ?_, fun hz => ?_⟩
    · rw [hb hz, q5]
    · rw [hkeys]
      exact ha hz

theorem late_instantiation_witness :
    (phaseDepReg.modules.map fun p => p.1).Nodup ∧
      InstantiatedIn phaseProg "$init" ["$injector"] "x" ["z"] "z"
        (instanciate phaseProg phaseDepReg).2
        (execStep phaseProg "$init" (instanciate phaseProg phaseDepReg).2).2 ∧
      ∃ a, VisitedOnce phaseProg "$init" "z" a (enumKeys phaseDepReg.modules)
        (instanciate phaseProg phaseDepReg).2
        (execStep phaseProg "$init" (instanciate phaseProg phaseDepReg).2).2 :=
  ⟨by decide,
    ⟨(instanciate phaseProg phaseDepReg).2,
      (execStepVisit phaseProg "$init" "x" (instanciate phaseProg phaseDepReg).2).2,
      ⟨rfl, rfl, rfl⟩, rfl, rfl⟩,
    ((late_instantiation phaseProg phaseDepReg (instanciate phaseProg phaseDepReg).2
      (execStep phaseProg "$init" (instanciate phaseProg phaseDepReg).2).2
      (execStep phaseProg "$build"
        (execStep phaseProg "$init" (instanciate phaseProg phaseDepReg).2).2).2
      (boot phaseProg phaseDepReg).2 (by decide) ⟨rfl, rfl, rfl, rfl⟩
      ["$injector"] "x" ["z"] "z" rfl).2.2.2.1
      ⟨(instanciate phaseProg phaseDepReg).2,
        (execStepVisit phaseProg "$init" "x" (instanciate phaseProg phaseDepReg).2).2,
        ⟨rfl, rfl, rfl⟩, rfl, rfl⟩).2.2.1 (List.mem_singleton.2 rfl)⟩

/-! ## C5: phase ordering, in a boot that completes -/

theorem instanciate_invariant (P : Prog) (Q : St → Prop)
    (hforce : ∀ d rl s, Q s → Q (getInstance P d rl s).2) (st : St) (hq : Q st) :
    Q (instanciate P st).2 := by
  have hinst : ∀ n s, Q s → Q (instanciateVisit P n s).2 := by
    intro n s hs
    unfold instanciateVisit
    cases s.modules.lookup n with
    | none => exact hs
    | some w =>
      simp only
      split
      · have h := hforce n none s hs
        rcases hr : getInstance P n none s with ⟨r, s1⟩
        rw [hr] at h
        cases r <;> exact h
      · exact hs
  exact forEachLoop_rel (fun a b => Q a → Q b) (fun _ h => h) (fun _ _ _ h1 h2 h => h2 (h1 h))
    _ (fun n s => hinst n s) _ st hq

/-- What the pass of a phase adds to the trace: calls of methods of that
phase, for modules taken in enumeration order, each counted once per call. -/
theorem execStep_trace (P : Prog) (step : String) (st sa sb : St) (hg : Grows st sa)
    (h : execStep P step sa = (.ok (), sb)) :
    ∃ (l : List Event) (ns : List String), sb.log = sa.log ++ l ∧
      phaseTrace l = ns.map (fun n => (step, n)) ∧ ns.Sublist (enumKeys st.modules) ∧
      ∀ n, calls (.phase step n) sb.log = calls (.phase step n) sa.log + ns.count n := by
  obtain ⟨ms, hsub, hadds⟩ := execStepLoop_adds P step (enumKeys sa.modules) sa
  rw [show forEachLoop (execStepVisit P step) (enumKeys sa.modules) sa = execStep P step sa
    from rfl, h] at hadds
  obtain ⟨l, hl, ht⟩ := hadds.2
  refine ⟨l, ms, hl, ht, ?_, ?_⟩
  · rw [← hg.enumKeys]
    exact hsub
  · intro n
    rw [adds_calls hadds step n]
    simp

/-- C5 (amended). Phase ordering: in a boot that completes, from a registry
that holds each name once, the calls added to the trace are those of the
instantiating pass (no phase method), then the `$init` calls, then the
`$build` calls, then the `$final` calls; within each phase the modules whose
method is called appear in the order in which the registry enumerates its
names (array-index names in ascending order first, then the other names in
registration order: this is the registration order when no module name is an
array index), and every module that is instantiated when the phase starts is
visited once, its method for the phase being called once if its instance has
it then; every startup module is instantiated when the first phase starts, as
is every module named in the constructor declaration of a startup module
(provided that, if the startup module was instantiated before boot, the named
module was too), so that both take part in each of the three phases. -/
theorem phase_ordering (P : Prog) (st s1 s2 s3 st2 : St)
    (hreg : (st.modules.map fun p => p.1).Nodup) (hp : BootPasses P st s1 s2 s3 st2) :
    boot P st = (.ok (), st2) ∧
      (∃ (l0 l1 l2 l3 : List Event) (n1 n2 n3 : List String),
        s1.log = st.log ++ l0 ∧ s2.log = s1.log ++ l1 ∧ s3.log = s2.log ++ l2 ∧
        st2.log = s3.log ++ l3 ∧ phaseTrace l0 = [] ∧
        phaseTrace l1 = n1.map (fun n => ("$init", n)) ∧
        phaseTrace l2 = n2.map (fun n => ("$build", n)) ∧
        phaseTrace l3 = n3.map (fun n => ("$final", n)) ∧
        n1.Sublist (enumKeys st.modules) ∧ n2.Sublist (enumKeys st.modules) ∧
        n3.Sublist (enumKeys st.modules) ∧
        (∀ n, calls (.phase "$init" n) s2.log = calls (.phase "$init" n) s1.log + n1.count n) ∧
        (∀ n, calls (.phase "$build" n) s3.log =
          calls (.phase "$build" n) s2.log + n2.count n) ∧
        (∀ n, calls (.phase "$final" n) st2.log =
          calls (.phase "$final" n) s3.log + n3.count n)) ∧
      (∀ n w a, s1.modules.lookup n = some w → w.inst = .obj a →
        VisitedOnce P "$init" n a (enumKeys st.modules) s1 s2) ∧
      (∀ n w a, s2.modules.lookup n = some w → w.inst = .obj a →
        VisitedOnce P "$build" n a (enumKeys st.modules) s2 s3) ∧
      (∀ n w a, s3.modules.lookup n = some w → w.inst = .obj a →
        VisitedOnce P "$final" n a (enumKeys st.modules) s3 st2) ∧
      (∀ n, QuietOutside n st s1 s2 s3 st2) ∧
      enumKeys st.modules = indexPart (st.modules.map fun p => p.1) ++
        (st.modules.map fun p => p.1).filter (fun k => (arrayIndex? k).isNone) ∧
      ((∀ k ∈ st.modules.map (fun p => p.1), arrayIndex? k = none) →
        enumKeys st.modules = st.modules.map (fun p => p.1)) ∧
      (∀ x wx, st.modules.lookup x = some wx → truthy wx.loadOnStartup = true →
        (∃ w a, s1.modules.lookup x = some w ∧ w.inst = .obj a ∧
          s2.modules.lookup x = some w ∧ s3.modules.lookup x = some w) ∧
        ∀ f ds y, (isInstanciated st x = true → isInstanciated st y = true) →
          declaration P st.heap wx.constructor (.arr []) = .ok (f, ds) → Val.str y ∈ ds →
          ∃ w a, s1.modules.lookup y = some w ∧ w.inst = .obj a ∧
            s2.modules.lookup y = some w ∧ s3.modules.lookup y = some w) := by
  have g1 := hp.grows1
  have g2 := g1.gtrans hp.grows2
  have g3 := g2.gtrans hp.grows3
  have hkept : ∀ n, isInstanciated s1 n = true →
      ∃ w a, s1.modules.lookup n = some w ∧ w.inst = .obj a ∧
        s2.modules.lookup n = some w ∧ s3.modules.lookup n = some w := by
    intro n hn
    obtain ⟨w, a, hw, hi⟩ := isInstanciated_obj hn
    have hio : isObject w.inst = true := by rw [hi]; rfl
    have hw2 := hp.grows2.kept n w hw hio
    exact ⟨w, a, hw, hi, hw2, hp.grows3.kept n w hw2 hio⟩
  refine ⟨boot_of_passes hp, ?_,
    fun n w a hw hi => execStep_visitedOnce P "$init" st s1 s2 hreg g1 hp.init n w a hw hi,
    fun n w a hw hi => execStep_visitedOnce P "$build" st s2 s3 hreg g2 hp.build n w a hw hi,
    fun n w a hw hi => execStep_visitedOnce P "$final" st s3 st2 hreg g3 hp.final n w a hw hi,
    fun n => hp.quiet n, enumNames_eq _, fun h => enumNames_of_no_index _ h, ?_⟩
  · obtain ⟨_, l0, hl0, ht0⟩ := instanciate_adds P st
    rw [hp.inst] at hl0
    obtain ⟨l1, n1, hl1, ht1, hs1, hc1⟩ := execStep_trace P "$init" st s1 s2 g1 hp.init
    obtain ⟨l2, n2, hl2, ht2, hs2, hc2⟩ := execStep_trace P "$build" st s2 s3 g2 hp.build
    obtain ⟨l3, n3, hl3, ht3, hs3, hc3⟩ := execStep_trace P "$final" st s3 st2 g3 hp.final
    exact ⟨l0, l1, l2, l3, n1, n2, n3, hl0, hl1, hl2, hl3, ht0, ht1, ht2, ht3, hs1, hs2, hs3,
      hc1, hc2, hc3⟩
  · intro x wx hw hs
    have hx1 : isInstanciated s1 x = true := instanciate_startup P st s1 hp.inst x wx hw hs
    refine ⟨hkept x hx1, ?_⟩
    intro f ds y hun hdecl hy
    have hinv := instanciate_invariant P
      (fun s => Grows st s ∧ (isInstanciated s x = true → isInstanciated s y = true))
      (fun d rl s hq => getInstance_dependency P st x y wx f ds hw hdecl hy d rl s hq)
      st ⟨Grows.grefl st, hun⟩
    rw [hp.inst] at hinv
    exact hkept y (hinv.2 hx1)

theorem phase_ordering_witness :
    (chainReg.modules.map fun p => p.1).Nodup ∧
      BootPasses phaseProg chainReg (instanciate phaseProg chainReg).2
        (execStep phaseProg "$init" (instanciate phaseProg chainReg).2).2
        (execStep phaseProg "$build"
          (execStep phaseProg "$init" (instanciate phaseProg chainReg).2).2).2
        (boot phaseProg chainReg).2 ∧
      phaseTrace (boot phaseProg chainReg).2.log = [("$init", "a"), ("$init", "b")] ∧
      VisitedOnce phaseProg "$init" "b" 1 (enumKeys chainReg.modules)
        (instanciate phaseProg chainReg).2
        (execStep phaseProg "$init" (instanciate phaseProg chainReg).2).2 :=
  ⟨by decide, ⟨rfl, rfl, rfl, rfl⟩, rfl,
    (phase_ordering phaseProg chainReg (instanciate phaseProg chainReg).2
      (execStep phaseProg "$init" (instanciate phaseProg chainReg).2).2
      (execStep phaseProg "$build"
        (execStep phaseProg "$init" (instanciate phaseProg chainReg).2).2).2
      (boot phaseProg chainReg).2 (by decide) ⟨rfl, rfl, rfl, rfl⟩).2.2.1 "b"
      ⟨"b", .fn 0, .bool false, .obj 1⟩ 1 rfl rfl⟩

/-! ## C12: the order of `forEachModules`, on the plain object -/

theorem hasOwn_false_of_not_mem {ms : List (String × Wrapper)} {n : String}
    (h : n ∉ ms.map fun p => p.1) : hasOwn n ms = false := by
  induction ms with
  | nil => rfl
  | cons p ms ih =>
    obtain ⟨k, w⟩ := p
    simp only [List.map_cons, List.mem_cons, not_or] at h
    have hk : (n == k) = false := by simpa using h.1
    simp only [hasOwn, List.lookup_cons, hk]
    exact ih h.2

/-- For a name other than `__proto__`, on a registry where no module is
named `hasOwnProperty`, registering on the plain object is registering in the
map. -/
theorem plain_module_eq (name constructor loadOnStartup : Val) (st : St)
    (hreg : hasOwn "hasOwnProperty" st.modules = false) (hname : nameOf name ≠ "__proto__") :
    Plain.module name constructor loadOnStartup st = module name constructor loadOnStartup st := by
  cases name with
  | str n =>
    have hn : n ≠ "__proto__" := hname
    simp only [Plain.module, module, Plain.register, register, Plain.addModule, addModule,
      Plain.ownProperty, hreg, Bool.false_eq_true, if_false]
    by_cases he : n = ""
    · simp only [he, if_true]
    · simp only [he, if_false]
      cases hasOwn n st.modules with
      | true => rfl
      | false => simp only [hn, if_false, Bool.false_eq_true]
  | _ => rfl

theorem plain_registerAll_eq (rs : List (Val × Val × Val)) (st : St)
    (hreg : hasOwn "hasOwnProperty" st.modules = false)
    (hnames : ∀ r ∈ rs, nameOf r.1 ≠ "hasOwnProperty" ∧ nameOf r.1 ≠ "__proto__") :
    Plain.registerAll rs st = registerAll rs st ∧
      hasOwn "hasOwnProperty" (registerAll rs st).2.modules = false := by
  induction rs generalizing st with
  | nil => exact ⟨rfl, hreg⟩
  | cons r rs ih =>
    obtain ⟨n, c, l⟩ := r
    have hr := hnames (n, c, l) (List.mem_cons_self _ _)
    simp only [Plain.registerAll, registerAll, plain_module_eq n c l st hreg hr.2]
    rcases hm : module n c l st with ⟨r1, s1⟩
    cases r1 with
    | error e =>
      have h2 : s1 = st := by
        have := module_keeps n c l st
        unfold module at hm
        cases n with
        | str k =>
          simp only at hm
          by_cases hk : k = ""
          · simp only [hk, if_true, Prod.mk.injEq] at hm
            exact hm.2.symm
          · simp only [hk, if_false, register, addModule] at hm
            cases ho : hasOwn k st.modules with
            | true =>
              simp only [ho, if_true, Prod.mk.injEq] at hm
              exact hm.2.symm
            | false =>
              simp only [ho, Bool.false_eq_true, if_false, Prod.mk.injEq] at hm
              cases hm.1
        | _ =>
          simp only [Prod.mk.injEq] at hm
          exact hm.2.symm
      subst h2
      exact ⟨rfl, hreg⟩
    | ok u =>
      obtain ⟨k, hname, _, _, hs1⟩ := module_ok hm
      have hreg1 : hasOwn "hasOwnProperty" s1.modules = false := by
        rw [hs1]
        show hasOwn "hasOwnProperty" (st.modules ++ _) = false
        rw [hasOwn_append, hreg, hasOwn_single]
        have : "hasOwnProperty" ≠ k := by
          intro hk
          apply hr.1
          rw [hname, ← hk]
          rfl
        simp [this]
      exact ih s1 hreg1 (fun x hx => hnames x (List.mem_cons_of_mem _ hx))

/-- On the plain object, a visitor that keeps the registrations is given
the names of the enumeration as in the map, as long as no module is named
`hasOwnProperty`. -/
theorem plain_forEachLoop_total (callback : String → St → Res Unit)
    (hcb : ∀ n s, (callback n s).1 = .ok () ∧
      forget (callback n s).2.modules = forget s.modules)
    (ns : List String) (st : St) (hreg : hasOwn "hasOwnProperty" st.modules = false)
    (hns : ∀ n ∈ ns, hasOwn n st.modules = true) :
    Plain.forEachLoop callback ns st =
      (.ok (), ns.foldl (fun s n => (callback n s).2) st) := by
  induction ns generalizing st with
  | nil => rfl
  | cons n ns ih =>
    have hn := hns n (List.mem_cons_self _ _)
    simp only [Plain.forEachLoop, Plain.ownProperty, hreg, Bool.false_eq_true, if_false, hn,
      List.foldl_cons]
    obtain ⟨h1, h2⟩ := hcb n st
    rcases hr : callback n st with ⟨r, s1⟩
    rw [hr] at h1 h2
    simp only at h1 h2
    subst h1
    simp only
    apply ih s1
    · rw [hasOwn_of_forget h2]
      exact hreg
    · intro m hm
      rw [hasOwn_of_forget h2]
      exact hns m (List.mem_cons_of_mem _ hm)

theorem hasOwn_of_mem_enumKeys {ms : List (String × Wrapper)} {n : String}
    (h : n ∈ enumKeys ms) : hasOwn n ms = true := by
  unfold enumKeys at h
  rw [mem_enumNames] at h
  cases ho : hasOwn n ms with
  | true => rfl
  | false => exact absurd h (not_mem_keys_of_hasOwn ho)

/-- C12 (as stated, refuted). After the successful registrations of `10`
and then `2`, the visitor of `forEachModules` is given `2`, then `10`, then
`$injector`: not the registration order, and `$injector` is not first. -/
theorem iteration_not_registration_order :
    Plain.registerAll [(.str "10", .null, .undefined), (.str "2", .null, .undefined)] init =
        (.ok (), digitsReg) ∧
      (digitsReg.modules.map fun p => p.1) = ["$injector", "10", "2"] ∧
      (Plain.forEachModules recordVisit digitsReg).1 = .ok () ∧
      (Plain.forEachModules recordVisit digitsReg).2.heap =
        digitsReg.heap ++ [[("2", .undefined)], [("10", .undefined)],
          [("$injector", .undefined)]] :=
  ⟨rfl, rfl, rfl, rfl⟩

/-- C12 (amended). Registry iteration order: after any sequence of
successful registrations under names other than `hasOwnProperty` and
`__proto__`, the registry holds `$injector` followed by the registered names,
all distinct; `forEachModules` gives a visitor that succeeds and keeps the
registrations each of these names exactly once, in the order in which the
registry object enumerates them: first the names that are array indices (such
as `2` and `10`), in ascending numeric order, then `$injector` and the other
names in registration order. When no registered name is an array index this is
the registration order, with `$injector` first. -/
theorem iteration_order (rs : List (Val × Val × Val)) (st : St)
    (hnames : ∀ r ∈ rs, nameOf r.1 ≠ "hasOwnProperty" ∧ nameOf r.1 ≠ "__proto__")
    (h : Plain.registerAll rs init = (.ok (), st)) :
    (st.modules.map fun p => p.1) = "$injector" :: rs.map (fun r => nameOf r.1) ∧
      (∀ callback, (∀ n s, (callback n s).1 = .ok () ∧
          forget (callback n s).2.modules = forget s.modules) →
        Plain.forEachModules callback st =
          (.ok (), (enumKeys st.modules).foldl (fun s n => (callback n s).2) st)) ∧
      (enumKeys st.modules).Perm ("$injector" :: rs.map (fun r => nameOf r.1)) ∧
      (enumKeys st.modules).Nodup ∧
      enumKeys st.modules = indexPart (rs.map fun r => nameOf r.1) ++
        "$injector" :: (rs.map fun r => nameOf r.1).filter (fun k => (arrayIndex? k).isNone) ∧
      (∀ k ∈ indexPart (rs.map fun r => nameOf r.1), (arrayIndex? k).isSome = true) ∧
      List.Pairwise (fun a b => ∀ i j, arrayIndex? a = some i → arrayIndex? b = some j → i ≤ j)
        (indexPart (rs.map fun r => nameOf r.1)) ∧
      ((∀ k ∈ rs.map (fun r => nameOf r.1), arrayIndex? k = none) →
        enumKeys st.modules = "$injector" :: rs.map (fun r => nameOf r.1)) := by
  obtain ⟨heq, hreg⟩ := plain_registerAll_eq rs init rfl hnames
  rw [heq] at h
  rw [h] at hreg
  obtain ⟨hk, hnd⟩ := registerAll_keys rs init st h
  have hkeys : (st.modules.map fun p => p.1) = "$injector" :: rs.map (fun r => nameOf r.1) := by
    rw [hk]
    rfl
  have hnd2 : (st.modules.map fun p => p.1).Nodup := hnd (by decide)
  have hinj : arrayIndex? "$injector" = none := by decide
  have hperm : (enumKeys st.modules).Perm ("$injector" :: rs.map (fun r => nameOf r.1)) := by
    unfold enumKeys
    rw [hkeys]
    exact enumNames_perm _
  refine ⟨hkeys, fun callback hcb => plain_forEachLoop_total callback hcb _ st hreg
      (fun n hn => hasOwn_of_mem_enumKeys hn), hperm, ?_, ?_,
    fun k hk => indexPart_isSome _ k hk, indexPart_sorted _, ?_⟩
  · rw [hperm.nodup_iff, ← hkeys]
    exact hnd2
  · unfold enumKeys
    rw [hkeys, enumNames_eq, indexPart_cons_none _ _ hinj, List.filter_cons]
    simp [hinj]
  · intro hno
    unfold enumKeys
    rw [hkeys]
    apply enumNames_of_no_index
    intro k hk
    rcases List.mem_cons.1 hk with h1 | h1
    · rw [h1]; exact hinj
    · exact hno k h1

theorem iteration_order_witness :
    (∀ r ∈ [(Val.str "10", Val.null, Val.undefined), (.str "2", .null, .undefined)],
        nameOf r.1 ≠ "hasOwnProperty" ∧ nameOf r.1 ≠ "__proto__") ∧
      Plain.registerAll [(.str "10", .null, .undefined), (.str "2", .null, .undefined)] init =
        (.ok (), digitsReg) ∧
      enumKeys digitsReg.modules =
        indexPart ([(Val.str "10", Val.null, Val.undefined), (.str "2", .null, .undefined)].map
          fun r => nameOf r.1) ++
        "$injector" :: ([(Val.str "10", Val.null, Val.undefined),
          (.str "2", .null, .undefined)].map fun r => nameOf r.1).filter
            (fun k => (arrayIndex? k).isNone) ∧
      Plain.forEachModules recordVisit digitsReg =
        (.ok (), (enumKeys digitsReg.modules).foldl (fun s n => (recordVisit n s).2)
          digitsReg) :=
  ⟨by decide, rfl,
    (iteration_order [(.str "10", .null, .undefined), (.str "2", .null, .undefined)] digitsReg
      (by decide) rfl).2.2.2.2.1,
    (iteration_order [(.str "10", .null, .undefined), (.str "2", .null, .undefined)] digitsReg
      (by decide) rfl).2.1 recordVisit (fun _ _ => ⟨rfl, rfl⟩)⟩

/-! ## C8: registration under the names `hasOwnProperty` and `__proto__` -/

/-- C8 (the slip). On the plain object that holds the registry: once a
module is registered under `hasOwnProperty`, registering under the unused name
`a` raises a `TypeError`, as does `forEachModules`; and registering under
`__proto__` succeeds twice in a row, without any duplicate being reported and
without any wrapper being stored. -/
theorem registration_on_plain_object :
    Plain.module (.str "hasOwnProperty") (.fn 0) .undefined init =
        (.ok (), (module (.str "hasOwnProperty") (.fn 0) .undefined init).2) ∧
      Plain.module (.str "a") (.fn 0) .undefined
          (Plain.module (.str "hasOwnProperty") (.fn 0) .undefined init).2 =
        (.error .typeError, (Plain.module (.str "hasOwnProperty") (.fn 0) .undefined init).2) ∧
      (Plain.forEachModules recordVisit
          (Plain.module (.str "hasOwnProperty") (.fn 0) .undefined init).2).1 =
        .error .typeError ∧
      Plain.module (.str "__proto__") (.fn 0) .undefined init = (.ok (), init) ∧
      Plain.registerAll [(.str "__proto__", .fn 0, .undefined),
          (.str "__proto__", .fn 1, .undefined)] init = (.ok (), init) ∧
      hasOwn "__proto__" init.modules = false :=
  ⟨rfl, rfl, rfl, rfl, rfl, rfl⟩

/-! ## C1 and C6: module code that calls the container -/

namespace Reentrant

theorem resolveCall_unfold (P : Prog) (sm : Sem) (who : Label) (func deps : Val) (ext : Props)
    (lvl : Nat) (st : St) :
    resolveCall P sm who func deps ext lvl st =
      match declarationCheck func deps with
      | .error e => (.error e, st)
      | .ok (f, ds) => resolveRun P sm who f ds ext lvl st := by
  unfold resolveCall declarationCheck resolveRun
  split
  · rfl
  · cases deps <;> rfl

theorem resolve_unfold (P : Prog) (sm : Sem) (who : Label) (func deps : Val) (ext : Props)
    (lvl : Nat) (st : St) :
    resolve P sm who func deps ext lvl st =
      if lvl > 1000 then (.error (.error "Loop in module dependencies detected"), st)
      else
        match declaration P st.heap func deps with
        | .error e => (.error e, st)
        | .ok (f, ds) => resolveRun P sm who f ds ext lvl st := by
  unfold resolve
  split
  · rfl
  · simp only [resolveCall_unfold]
    unfold declaration
    cases func with
    | arr array =>
      simp only
      split
      · rfl
      · rfl
    | _ =>
      simp only
      split <;> first | rfl | (split <;> rfl)

theorem declaration_isFn {P : Prog} {h : Heap} {func deps f : Val} {ds : List Val}
    (hd : declaration P h func deps = .ok (f, ds)) : ∃ id, f = .fn id := by
  unfold declaration at hd
  split at hd
  · split at hd
    · cases hd
    · exact (declarationCheck_ok hd).1
  · split at hd
    · cases hd
    · split at hd
      · cases hd
      · exact (declarationCheck_ok hd).1
    · exact (declarationCheck_ok hd).1

theorem declaration_anyHeap {P : Prog} {h : Heap} {func deps f : Val} {ds : List Val}
    (hd : declaration P h func deps = .ok (f, ds)) (h2 : Heap) :
    declaration P h2 func deps = .ok (f, ds) := by
  cases func with
  | obj a =>
    exfalso
    unfold declaration at hd
    simp only [ownInject] at hd
    split at hd
    · cases hd
    · split at hd
      · cases hd
      · obtain ⟨⟨id, h1⟩, h2, _⟩ := declarationCheck_ok hd
        rw [h1] at h2
        cases h2
    · obtain ⟨⟨id, h1⟩, h2, _⟩ := declarationCheck_ok hd
      rw [h1] at h2
      cases h2
  | _ => exact hd

theorem getModules_force_invariant (force : String → Nat → St → Res Val) (ext : Props)
    (lvl : Nat) (Q : St → Prop) (B : String → Prop)
    (hforce : ∀ e s, B e → Q s → Q (force e lvl s).2) (ds : List Val)
    (hB : ∀ e, Val.str e ∈ ds → B e) (st : St) (hq : Q st) :
    Q (getModules force ext lvl ds st).2 := by
  induction ds generalizing st with
  | nil => exact hq
  | cons dep rest ih =>
    have ih2 := ih (fun e he => hB e (List.mem_cons_of_mem _ he))
    cases dep with
    | str e =>
      simp only [getModules]
      split
      · have h1 := hforce e st (hB e (List.mem_cons_self _ _)) hq
        rcases hr : force e lvl st with ⟨r1, s1⟩
        rw [hr] at h1
        cases r1 with
        | error err => exact h1
        | ok v =>
          have h2 := ih2 s1 h1
          show Q (match getModules force ext lvl rest s1 with
            | (.ok mods, st2) => (Except.ok (v :: mods), st2)
            | (.error e, st2) => (.error e, st2)).2
          rcases hr2 : getModules force ext lvl rest s1 with ⟨r2, s2⟩
          rw [hr2] at h2
          cases r2 <;> exact h2
      · cases ext.lookup e with
        | none => exact hq
        | some v =>
          have h2 := ih2 st hq
          show Q (match getModules force ext lvl rest st with
            | (.ok mods, st2) => (Except.ok (v :: mods), st2)
            | (.error e, st2) => (.error e, st2)).2
          rcases hr2 : getModules force ext lvl rest st with ⟨r2, s2⟩
          rw [hr2] at h2
          cases r2 <;> exact h2
    | _ => exact hq

theorem logExt_trans {a b c : St} (h1 : ∃ l, b.log = a.log ++ l) (h2 : ∃ l, c.log = b.log ++ l) :
    ∃ l, c.log = a.log ++ l := by
  obtain ⟨l1, hl1⟩ := h1
  obtain ⟨l2, hl2⟩ := h2
  exact ⟨l1 ++ l2, by rw [hl2, hl1, List.append_assoc]⟩

theorem run_ext (P : Prog) (st0 : St) (R : String → Prop) (sm : Sem) (hg : Good P st0 R sm)
    (c : Code) (s : St) : ∃ l, (run sm c s).2.log = s.log ++ l := by
  induction c generalizing s with
  | done r h => exact ⟨[], by simp [run]⟩
  | resolve h func deps ext k ih =>
    have h1 := hg.ext2 .direct func deps ext 0 { s with heap := h }
    exact logExt_trans (a := s) h1 (ih _ _ _)
  | getInstance h name rl k ih =>
    have h1 := hg.ext1 name rl { s with heap := h }
    exact logExt_trans (a := s) h1 (ih _ _ _)
  | forEachModules k ih => exact ih s.modules s

theorem run_safe (P : Prog) (st0 : St) (R : String → Prop) (sm : Sem) (hg : Good P st0 R sm)
    (c : Code) (hc : Asks P R c) (s : St) (hs : Untouched st0 R s) :
    Untouched st0 R (run sm c s).2 := by
  induction hc generalizing s with
  | done r h => exact hs
  | resolve h func deps ext k hd _ ih =>
    have h1 := hg.safe2 .direct func deps ext 0 { s with heap := h }
      (fun _ _ hw => by cases hw) hd hs
    exact ih _ _ _ h1
  | getInstance h name rl k hn _ ih =>
    have h1 := hg.safe1 name rl { s with heap := h } hn hs
    exact ih _ _ _ h1
  | forEachModules k _ ih => exact ih s.modules s hs

theorem untouched_event {st0 : St} {R : String → Prop} {s : St} (hs : Untouched st0 R s)
    (ev : Event) (hw : OkWho st0 R ev.who) (h : Heap) :
    Untouched st0 R { s with heap := h, log := s.log ++ [ev] } := by
  refine ⟨hs.1, hs.2.1, ?_⟩
  intro m step hm hun
  show calls _ (s.log ++ [ev]) = _
  rw [calls_snoc_ne]
  · exact hs.2.2 m step hm hun
  · intro hc
    have := hw step m hc hm
    rw [hun] at this
    cases this

theorem factory_ext (P : Prog) (st0 : St) (R : String → Prop) (sm : Sem) (hg : Good P st0 R sm)
    (who : Label) (ds : List Val) (func : Val) (mods : List Val) (s : St) :
    ∃ l, (factory P sm who ds func mods s).2.log = s.log ++ l := by
  unfold factory
  cases func with
  | fn f =>
    simp only
    obtain ⟨l, hl⟩ := run_ext P st0 R sm hg (P.call f .undefined mods s.heap)
      { s with log := s.log ++ [⟨who, f, .undefined, mods, ds⟩] }
    exact ⟨[⟨who, f, .undefined, mods, ds⟩] ++ l, by rw [hl, List.append_assoc]⟩
  | _ => exact ⟨[], by simp⟩

theorem factory_safe (P : Prog) (st0 : St) (R : String → Prop) (sm : Sem) (hg : Good P st0 R sm)
    (hcode : ∀ f t a h, Asks P R (P.call f t a h)) (who : Label) (hw : OkWho st0 R who)
    (ds : List Val) (func : Val) (mods : List Val) (s : St) (hs : Untouched st0 R s) :
    Untouched st0 R (factory P sm who ds func mods s).2 := by
  unfold factory
  cases func with
  | fn f =>
    simp only
    exact run_safe P st0 R sm hg _ (hcode f .undefined mods s.heap) _
      (untouched_event hs ⟨who, f, .undefined, mods, ds⟩ hw s.heap)
  | _ => exact hs

theorem resolve_ext (P : Prog) (st0 : St) (R : String → Prop) (sm : Sem) (hg : Good P st0 R sm)
    (who : Label) (func deps : Val) (ext : Props) (lvl : Nat) (s : St) :
    ∃ l, (resolve P sm who func deps ext lvl s).2.log = s.log ++ l := by
  rw [resolve_unfold]
  split
  · exact ⟨[], by simp⟩
  · cases declaration P s.heap func deps with
    | error e => exact ⟨[], by simp⟩
    | ok fd =>
      obtain ⟨f, ds⟩ := fd
      simp only [resolveRun]
      have h1 := getModules_force_invariant (fun d l s => sm.getInstance d (some l) s) ext lvl
        (fun s2 => ∃ l, s2.log = s.log ++ l) (fun _ => True)
        (fun e s2 _ h2 => logExt_trans (a := s) h2 (hg.ext1 e (some lvl) s2)) ds
        (fun _ _ => trivial) s ⟨[], by simp⟩
      rcases hr : getModules (fun d l s => sm.getInstance d (some l) s) ext lvl ds s with
        ⟨r, s1⟩
      rw [hr] at h1
      cases r with
      | error e => exact h1
      | ok mods => exact logExt_trans (a := s) h1 (factory_ext P st0 R sm hg who ds f mods s1)

theorem resolve_safe (P : Prog) (st0 : St) (R : String → Prop) (sm : Sem) (hg : Good P st0 R sm)
    (hcode : ∀ f t a h, Asks P R (P.call f t a h)) (who : Label) (hw : OkWho st0 R who)
    (func deps : Val) (ext : Props) (lvl : Nat) (s : St)
    (hd : ∀ f ds, declaration P s.heap func deps = .ok (f, ds) → ∀ e, Val.str e ∈ ds → R e)
    (hs : Untouched st0 R s) : Untouched st0 R (resolve P sm who func deps ext lvl s).2 := by
  rw [resolve_unfold]
  split
  · exact hs
  · cases hdecl : declaration P s.heap func deps with
    | error e => exact hs
    | ok fd =>
      obtain ⟨f, ds⟩ := fd
      simp only [resolveRun]
      have h1 := getModules_force_invariant (fun d l s => sm.getInstance d (some l) s) ext lvl
        (Untouched st0 R) R (fun e s2 he h2 => hg.safe1 e (some lvl) s2 he h2) ds
        (hd f ds hdecl) s hs
      rcases hr : getModules (fun d l s => sm.getInstance d (some l) s) ext lvl ds s with
        ⟨r, s1⟩
      rw [hr] at h1
      cases r with
      | error e => exact h1
      | ok mods => exact factory_safe P st0 R sm hg hcode who hw ds f mods s1 h1

theorem getInstanceBody_ext (P : Prog) (st0 : St) (R : String → Prop) (sm : Sem)
    (hg : Good P st0 R sm) (d : String) (rl : Option Nat) (s : St) :
    ∃ l, (getInstanceBody P sm d rl s).2.log = s.log ++ l := by
  unfold getInstanceBody
  cases s.modules.lookup d with
  | none => exact ⟨[], by simp⟩
  | some w =>
    simp only
    split
    · exact ⟨[], by simp⟩
    · have h1 := resolve_ext P st0 R sm hg (.ctor d) w.constructor (.arr []) [] (nextLevel rl) s
      rcases hr : resolve P sm (.ctor d) w.constructor (.arr []) [] (nextLevel rl) s with
        ⟨r, s1⟩
      rw [hr] at h1
      cases r with
      | error e => exact h1
      | ok obj =>
        simp only
        split
        · exact h1
        · exact h1

theorem getInstanceBody_safe (P : Prog) (st0 : St) (R : String → Prop) (sm : Sem)
    (hg : Good P st0 R sm) (hcode : ∀ f t a h, Asks P R (P.call f t a h))
    (hclosed : ∀ n w f ds e, R n → st0.modules.lookup n = some w →
      declaration P st0.heap w.constructor (.arr []) = .ok (f, ds) → Val.str e ∈ ds → R e)
    (d : String) (rl : Option Nat) (s : St) (hd : R d) (hs : Untouched st0 R s) :
    Untouched st0 R (getInstanceBody P sm d rl s).2 := by
  unfold getInstanceBody
  cases hw : s.modules.lookup d with
  | none => exact hs
  | some w =>
    simp only
    split
    · exact hs
    · obtain ⟨w0, hw0, _, hc, _⟩ := @lookup_of_forget s.modules st0.modules hs.1.symm _ _ hw
      have h1 := resolve_safe P st0 R sm hg hcode (.ctor d) (fun _ _ hc => by cases hc)
        w.constructor (.arr []) [] (nextLevel rl) s
        (fun f ds hdecl e he => hclosed d w0 f ds e hd hw0
          (by rw [hc]; exact declaration_anyHeap hdecl _) he) hs
      rcases hr : resolve P sm (.ctor d) w.constructor (.arr []) [] (nextLevel rl) s with
        ⟨r, s1⟩
      rw [hr] at h1
      cases r with
      | error e => exact h1
      | ok obj =>
        simp only
        split
        · exact h1
        · refine ⟨?_, ?_, h1.2.2⟩
          · show forget (setInstance d obj s1.modules) = _
            rw [forget_setInstance]
            exact h1.1
          · intro m hm hun
            have hne : m ≠ d := fun hmd => hm (hmd ▸ hd)
            rw [@isInstanciated_setInstance_ne s1
              ⟨s1.heap, setInstance d obj s1.modules, s1.log⟩ m d obj hne rfl]
            exact h1.2.1 m hm hun

/-- Whatever the nesting allowed, the container extends the trace and
leaves the modules outside `R` untouched, as long as it is asked for modules
of `R` only. -/
theorem good_sem (P : Prog) (st0 : St) (R : String → Prop)
    (hcode : ∀ f t a h, Asks P R (P.call f t a h))
    (hclosed : ∀ n w f ds e, R n → st0.modules.lookup n = some w →
      declaration P st0.heap w.constructor (.arr []) = .ok (f, ds) → Val.str e ∈ ds → R e)
    (fuel : Nat) : Good P st0 R (sem P fuel) := by
  induction fuel with
  | zero =>
    exact ⟨fun _ _ _ => ⟨[], by simp [sem]⟩, fun _ _ _ _ _ _ => ⟨[], by simp [sem]⟩,
      fun _ _ _ _ hs => hs, fun _ _ _ _ _ _ _ _ hs => hs⟩
  | succ n ih =>
    exact ⟨fun d rl s => getInstanceBody_ext P st0 R _ ih d rl s,
      fun who func deps ext lvl s => resolve_ext P st0 R _ ih who func deps ext lvl s,
      fun d rl s hd hs => getInstanceBody_safe P st0 R _ ih hcode hclosed d rl s hd hs,
      fun who func deps ext lvl s hw hd hs =>
        resolve_safe P st0 R _ ih hcode who hw func deps ext lvl s hd hs⟩

theorem gated_same (st0 : St) (R : String → Prop) (a : St) : Gated st0 R a a :=
  ⟨⟨[], by simp⟩, fun _ h => h⟩

theorem gated_then (st0 : St) (R : String → Prop) (a b c : St) (h1 : Gated st0 R a b)
    (h2 : Gated st0 R b c) : Gated st0 R a c := by
  obtain ⟨⟨l1, hl1⟩, f1⟩ := h1
  obtain ⟨⟨l2, hl2⟩, f2⟩ := h2
  refine ⟨⟨l1 ++ l2, by rw [hl2, hl1, List.append_assoc]⟩, ?_⟩
  intro hp ha
  refine f2 hp (f1 ?_ ha)
  intro ev hev
  exact hp ev (by rw [hl2]; exact List.mem_append_left _ hev)

theorem instanciateVisit_gated_re (P : Prog) (st0 : St) (R : String → Prop) (sm : Sem)
    (hg : Good P st0 R sm)
    (hstart : ∀ n w, st0.modules.lookup n = some w → truthy w.loadOnStartup = true → R n)
    (n : String) (s : St) : Gated st0 R s (instanciateVisit sm n s).2 := by
  unfold instanciateVisit
  cases hw : s.modules.lookup n with
  | none => exact gated_same st0 R s
  | some w =>
    simp only
    cases ht : truthy w.loadOnStartup with
    | false => exact gated_same st0 R s
    | true =>
      simp only [if_true]
      have h1 := hg.ext1 n none s
      have h2 := hg.safe1 n none s
      rcases hr : sm.getInstance n none s with ⟨r, s1⟩
      rw [hr] at h1 h2
      have hgate : Gated st0 R s s1 := by
        refine ⟨h1, fun _ hs => h2 ?_ hs⟩
        obtain ⟨w0, hw0, _, _, hlos⟩ := @lookup_of_forget s.modules st0.modules hs.1.symm _ _ hw
        exact hstart n w0 hw0 (by rw [hlos]; exact ht)
      cases r <;> exact hgate

theorem execStepVisit_gated_re (P : Prog) (st0 : St) (R : String → Prop)
    (hcode : ∀ f t a h, Asks P R (P.call f t a h))
    (hclosed : ∀ n w f ds e, R n → st0.modules.lookup n = some w →
      declaration P st0.heap w.constructor (.arr []) = .ok (f, ds) → Val.str e ∈ ds → R e)
    (fuel : Nat) (step n : String) (s s1 : St)
    (h : execStepVisit (sem P fuel) step n s = (.ok (), s1)) : Gated st0 R s s1 := by
  unfold execStepVisit at h
  cases hw : s.modules.lookup n with
  | none => rw [hw] at h; cases h
  | some w =>
    rw [hw] at h
    simp only at h
    cases hi : isObject w.inst with
    | false =>
      simp only [hi, Bool.false_eq_true, if_false, Prod.mk.injEq, true_and] at h
      rw [← h]
      exact gated_same st0 R s
    | true =>
      simp only [hi, if_true] at h
      cases fuel with
      | zero =>
        simp only [sem] at h
        cases h
      | succ k =>
        have hcached : (sem P (k + 1)).getInstance n none s = (.ok w.inst, s) := by
          show getInstanceBody P (sem P k) n none s = _
          unfold getInstanceBody
          simp only [hw, hi, if_true]
        rw [hcached] at h
        simp only at h
        cases hv : w.inst with
        | obj a =>
          rw [hv] at h
          simp only at h
          cases hm : (s.heap.getD a []).lookup step with
          | none =>
            rw [hm] at h
            simp only [Prod.mk.injEq, true_and] at h
            rw [← h]
            exact gated_same st0 R s
          | some m =>
            rw [hm] at h
            simp only at h
            have hgood := good_sem P st0 R hcode hclosed k
            have hres : (sem P (k + 1)).resolve (.phase step n) m .undefined [] 0 s =
                resolve P (sem P k) (.phase step n) m .undefined [] 0 s := rfl
            rw [hres] at h
            rcases hr : resolve P (sem P k) (.phase step n) m .undefined [] 0 s with ⟨r, s2⟩
            rw [hr] at h
            cases r with
            | error e => cases h
            | ok v =>
              simp only [Prod.mk.injEq, true_and] at h
              subst h
              have hext := resolve_ext P st0 R (sem P k) hgood (.phase step n) m .undefined [] 0 s
              rw [hr] at hext
              refine ⟨hext, ?_⟩
              intro hp hs
              have hwho : OkWho st0 R (.phase step n) := by
                intro step2 m2 heq hm2
                cases heq
                cases hun : isInstanciated st0 n with
                | true => rfl
                | false =>
                  have := hs.2.1 n hm2 hun
                  simp [isInstanciated, hw, hi] at this
              have hsafe := resolve_safe P st0 R (sem P k) hgood hcode (.phase step n) hwho m
                .undefined [] 0 s ?_ hs
              · rw [hr] at hsafe
                exact hsafe
              · intro f ds hdecl e he
                obtain ⟨id, hf⟩ := declaration_isFn hdecl
                subst hf
                rw [resolve_unfold] at hr
                simp only [show ¬ (0 > 1000) by decide, if_false, hdecl, resolveRun] at hr
                rcases hgm : getModules (fun d l s => (sem P k).getInstance d (some l) s) [] 0 ds
                  s with ⟨r1, s3⟩
                rw [hgm] at hr
                cases r1 with
                | error e => cases hr
                | ok mods =>
                  simp only [factory] at hr
                  obtain ⟨l, hl⟩ := run_ext P st0 R (sem P k) hgood
                    (P.call id .undefined mods s3.heap)
                    { s3 with log := s3.log ++ [⟨.phase step n, id, .undefined, mods, ds⟩] }
                  rw [hr] at hl
                  refine hp ⟨.phase step n, id, .undefined, mods, ds⟩ ?_ step n rfl e he
                  rw [show s2.log = (s3.log ++ [⟨.phase step n, id, .undefined, mods, ds⟩]) ++ l
                    from hl]
                  exact List.mem_append_left _
                    (List.mem_append_right _ (List.mem_singleton_self _))
        | _ =>
          rw [hv] at hi
          cases hi

theorem boot_passes (P : Prog) (fuel : Nat) (st st2 : St)
    (h : boot P fuel st = (.ok (), st2)) :
    ∃ s1 s2 s3, instanciate (sem P fuel) st = (.ok (), s1) ∧
      execStep (sem P fuel) "$init" s1 = (.ok (), s2) ∧
      execStep (sem P fuel) "$build" s2 = (.ok (), s3) ∧
      execStep (sem P fuel) "$final" s3 = (.ok (), st2) := by
  unfold boot at h
  rcases hr1 : instanciate (sem P fuel) st with ⟨r1, s1⟩
  rw [hr1] at h
  cases r1 with
  | error e => cases h
  | ok u =>
    simp only at h
    rcases hr2 : execStep (sem P fuel) "$init" s1 with ⟨r2, s2⟩
    rw [hr2] at h
    cases r2 with
    | error e => cases h
    | ok u =>
      simp only at h
      rcases hr3 : execStep (sem P fuel) "$build" s2 with ⟨r3, s3⟩
      rw [hr3] at h
      cases r3 with
      | error e => cases h
      | ok u => exact ⟨s1, s2, s3, rfl, hr2, hr3, h⟩

/-- C6 (as stated, refuted). Two boots that complete, in registries where
`z` is registered with `loadOnStartup = false` and no constructor declares
`z`, so that no startup module depends on `z`; yet `z` is instantiated and its
initialization method is called: in the first because the array-form
initialization method of the startup module `x` names `z`, in the second
because the constructor of `x`, which is handed the injector, calls
`$injector.resolve(['z', ...])`. A container whose calls may nest deeper
instantiates `z` as well. -/
theorem gating_broken_by_dynamic_resolution :
    (phaseDepReg.modules.map fun p => (p.1, p.2.constructor, p.2.loadOnStartup)) =
        [("$injector", .null, .bool false), ("x", .fn 2, .bool true),
          ("z", .fn 0, .bool false)] ∧
      (boot gateProg 10 phaseDepReg).1 = .ok () ∧
      isInstanciated phaseDepReg "z" = false ∧
      isInstanciated (boot gateProg 10 phaseDepReg).2 "z" = true ∧
      calls (.phase "$init" "z") (boot gateProg 10 phaseDepReg).2.log = 1 ∧
      (askReg.modules.map fun p => (p.1, p.2.constructor, p.2.loadOnStartup)) =
        [("$injector", .null, .bool false),
          ("x", .arr [.str "$injector", .fn 3], .bool true), ("z", .fn 0, .bool false)] ∧
      (boot gateProg 10 askReg).1 = .ok () ∧
      isInstanciated askReg "z" = false ∧
      isInstanciated (boot gateProg 10 askReg).2 "z" = true ∧
      calls (.phase "$init" "z") (boot gateProg 10 askReg).2.log = 1 ∧
      phaseTrace (boot gateProg 10 askReg).2.log = [("$init", "z")] ∧
      isInstanciated (boot gateProg 40 phaseDepReg).2 "z" = true ∧
      isInstanciated (boot gateProg 40 askReg).2 "z" = true :=
  ⟨rfl, rfl, rfl, rfl, rfl, rfl, rfl, rfl, rfl, rfl, rfl, rfl, rfl⟩

/-- C6 (amended). Startup gating: let `R` be a set of module names that
contains every module registered with a true `loadOnStartup`, is closed under
the constructor dependency declarations of the registry, contains every name
in the dependency list of a phase method called during the boot, and contains
every module that module code asks the injector for (the names of the
dependency lists it hands to `$injector.resolve`, the wrappers on which it
calls `getInstance`). After a boot that completes, whatever the nesting of
the calls, every module outside `R` that was not instantiated is still not
instantiated, and none of its `$init`, `$build` or `$final` methods has been
called. -/
theorem startup_gating (P : Prog) (fuel : Nat) (st st2 : St) (R : String → Prop) (z : String)
    (hboot : boot P fuel st = (.ok (), st2))
    (hstart : ∀ n w, st.modules.lookup n = some w → truthy w.loadOnStartup = true → R n)
    (hclosed : ∀ n w f ds e, R n → st.modules.lookup n = some w →
      declaration P st.heap w.constructor (.arr []) = .ok (f, ds) → Val.str e ∈ ds → R e)
    (hphase : ∀ ev ∈ st2.log, ∀ step n, ev.who = .phase step n →
      ∀ e, Val.str e ∈ ev.deps → R e)
    (hcode : ∀ f thisArg args h, Asks P R (P.call f thisArg args h))
    (hz : ¬ R z) (hzun : isInstanciated st z = false) :
    isInstanciated st2 z = false ∧
      ∀ step, calls (.phase step z) st2.log = calls (.phase step z) st.log := by
  obtain ⟨s1, s2, s3, h1, h2, h3, h4⟩ := boot_passes P fuel st st2 hboot
  have hgood := good_sem P st R hcode hclosed fuel
  have g1 : Gated st R st s1 := by
    have := forEachLoop_rel (Gated st R) (gated_same st R) (gated_then st R) _
      (instanciateVisit_gated_re P st R (sem P fuel) hgood hstart) (enumKeys st.modules) st
    rw [show forEachLoop (instanciateVisit (sem P fuel)) (enumKeys st.modules) st =
      instanciate (sem P fuel) st from rfl, h1] at this
    exact this
  have gs : ∀ step a b, execStep (sem P fuel) step a = (.ok (), b) → Gated st R a b :=
    fun step a b h => forEachLoop_ok_rel (Gated st R) (gated_same st R) (gated_then st R) _
      (fun n s s1 hv => execStepVisit_gated_re P st R hcode hclosed fuel step n s s1 hv) _ a b h
  have g := gated_then st R _ _ _ (gated_then st R _ _ _
    (gated_then st R _ _ _ g1 (gs _ _ _ h2)) (gs _ _ _ h3)) (gs _ _ _ h4)
  have hu := g.2 hphase ⟨rfl, fun _ _ h => h, fun _ _ _ _ => rfl⟩
  exact ⟨hu.2.1 z hz hzun, fun step => hu.2.2 z step hz hzun⟩

theorem askProg_asks (f : Nat) (thisArg : Val) (args : List Val) (h : Heap) :
    Asks askProg (fun n => n = "x" ∨ n = "y" ∨ n = "$injector")
      (askProg.call f thisArg args h) := by
  rcases f with _ | _ | _ | f
  · exact Asks.done _ _
  · exact Asks.done _ _
  · refine Asks.resolve _ _ _ _ _ ?_ ?_
    · intro f ds hdecl e he
      have hd : declaration askProg h (.arr [.str "y", .fn 1]) .undefined =
          .ok (.fn 1, [.str "y"]) := rfl
      rw [hd] at hdecl
      cases hdecl
      rw [List.mem_singleton] at he
      cases he
      exact Or.inr (Or.inl rfl)
    · intro r h2
      cases r <;> exact Asks.done _ _
  · exact Asks.done _ _

theorem startup_gating_witness :
    (boot askProg 10 askGatedReg).1 = .ok () ∧
      isInstanciated (boot askProg 10 askGatedReg).2 "y" = true ∧
      isInstanciated (boot askProg 10 askGatedReg).2 "z" = false ∧
      ∀ step, calls (.phase step "z") (boot askProg 10 askGatedReg).2.log =
        calls (.phase step "z") askGatedReg.log := by
  have hmods : askGatedReg.modules =
      [("$injector", ⟨"$injector", .null, .bool false, .obj 0⟩),
        ("x", ⟨"x", .arr [.str "$injector", .fn 2], .bool true, .undefined⟩),
        ("y", ⟨"y", .fn 0, .bool false, .undefined⟩),
        ("z", ⟨"z", .fn 0, .bool false, .undefined⟩)] := rfl
  have hlog : (boot askProg 10 askGatedReg).2.log =
      [⟨.ctor "x", 2, .undefined, [.obj 0], [.str "$injector"]⟩,
        ⟨.ctor "y", 0, .undefined, [], []⟩,
        ⟨.direct, 1, .undefined, [.obj 1], [.str "y"]⟩,
        ⟨.phase "$init" "y", 1, .undefined, [], []⟩] := rfl
  refine ⟨rfl, rfl, startup_gating askProg 10 askGatedReg (boot askProg 10 askGatedReg).2
    (fun n => n = "x" ∨ n = "y" ∨ n = "$injector") "z" rfl ?_ ?_ ?_ askProg_asks (by decide) rfl⟩
  · intro n w hw ht
    by_cases h2 : n = "x"
    · exact Or.inl h2
    · by_cases h1 : n = "$injector"
      · exact Or.inr (Or.inr h1)
      · by_cases h3 : n = "y"
        · exact Or.inr (Or.inl h3)
        · exfalso
          rw [hmods] at hw
          have b1 : (n == "$injector") = false := by simpa using h1
          have b2 : (n == "x") = false := by simpa using h2
          have b3 : (n == "y") = false := by simpa using h3
          simp only [List.lookup_cons, List.lookup_nil, b1, b2, b3] at hw
          by_cases h4 : n = "z"
          · subst h4
            simp at hw
            subst hw
            simp [truthy] at ht
          · have b4 : (n == "z") = false := by simpa using h4
            rw [b4] at hw
            cases hw
  · intro n w f ds e hn hw hdecl he
    rw [hmods] at hw
    rcases hn with hn | hn | hn
    · subst hn
      simp [List.lookup_cons] at hw
      subst hw
      have hd : declaration askProg askGatedReg.heap (.arr [.str "$injector", .fn 2]) (.arr []) =
          .ok (.fn 2, [.str "$injector"]) := rfl
      rw [hd] at hdecl
      cases hdecl
      rw [List.mem_singleton] at he
      cases he
      exact Or.inr (Or.inr rfl)
    · subst hn
      simp [List.lookup_cons] at hw
      subst hw
      have hd : declaration askProg askGatedReg.heap (.fn 0) (.arr []) = .ok (.fn 0, []) := rfl
      rw [hd] at hdecl
      cases hdecl
      cases he
    · subst hn
      simp [List.lookup_cons] at hw
      subst hw
      have hd : declaration askProg askGatedReg.heap .null (.arr []) =
          .error .typeError := rfl
      rw [hd] at hdecl
      cases hdecl
  · intro ev hev step n hwho e he
    rw [hlog] at hev
    simp only [List.mem_cons, List.mem_singleton, List.not_mem_nil, or_false] at hev
    rcases hev with h | h | h | h <;> subst h
    · cases hwho
    · cases hwho
    · cases hwho
    · cases he

/-- C1 (the failing input). The startup module `A` is declared as
`['$injector', f0]` and `B` as `['A', f1]`; the constructor of `A`, on its
first run, calls `$injector.resolve(['B', ...])` before it returns. Boot
completes; the constructor of `A` has run twice; `B` was given the object of
the second run, at address `3`, while the wrapper of `A` ends with the object
of the first run, at address `2`. A container whose calls may nest deeper
also completes the boot with two runs of the constructor. -/
theorem constructor_runs_twice :
    (twiceReg.modules.map fun p => (p.1, p.2.constructor, p.2.loadOnStartup)) =
        [("$injector", .null, .bool false),
          ("A", .arr [.str "$injector", .fn 0], .bool true),
          ("B", .arr [.str "A", .fn 1], .bool false)] ∧
      (boot twiceProg 10 twiceReg).1 = .ok () ∧
      calls (.ctor "A") (boot twiceProg 10 twiceReg).2.log = 2 ∧
      ((boot twiceProg 10 twiceReg).2.modules.lookup "A").map (fun w => w.inst) =
        some (.obj 2) ∧
      ((boot twiceProg 10 twiceReg).2.modules.lookup "B").map (fun w => w.inst) =
        some (.obj 4) ∧
      (boot twiceProg 10 twiceReg).2.heap =
        [[], [("n", .num 2)], [("id", .num 1)], [("id", .num 2)], [("a", .obj 3)]] ∧
      (boot twiceProg 40 twiceReg).1 = .ok () ∧
      calls (.ctor "A") (boot twiceProg 40 twiceReg).2.log = 2 :=
  ⟨rfl, rfl, rfl, rfl, rfl, rfl, rfl, rfl⟩

end Reentrant

end Bambo
